import Mathlib

/-!
Verification of the tairitsu component-runtime against its specification.

This file contains a shallow embedding of the parts of the source that the
claims C1..C10 are about:

* the dynamic value marshaling layer
  (`src/packages/runtime/src/dynamic/serialize.rs`,
   `src/packages/runtime/src/dynamic/deserialize.rs`),
* the typed command protocol and host callbacks
  (`src/packages/vm/src/commands.rs`, `src/packages/vm/src/container.rs`),
* the stream bridge (`src/packages/vm/src/stream.rs`),
* the storage-proxy parameter substitution
  (`src/packages/database_driver_wasi/src/sql.rs`),
* the registry (`src/packages/runtime/src/registry.rs`) and the host import
  registry (`src/packages/runtime/src/dynamic/host_imports.rs`).

Rust `Vec`/`Option` fields of recursive types are encoded with mutually
inductive companion types (`ValList`, `ValOpt`, ...) so that all functions
are plain structural recursions that the kernel can evaluate.

Machine integers are modelled as `Nat`/`Int` with explicit range conditions;
fallible code returns `Option`/`Except`.
-/

set_option maxHeartbeats 1600000

namespace Tairitsu

/-! ## Decimal and hexadecimal rendering of numbers

Mirrors Rust `format!("{}", n)` for integers.  The helpers are fuel-based
(the fuel only bounds the number of divisions) so that they reduce inside
the kernel. -/

/-- Decimal digit character for `d < 10`. -/
def digitChar (d : Nat) : Char := Char.ofNat (48 + d)

/-- Lower-case hexadecimal digit character for `d < 16`. -/
def hexDigitChar (d : Nat) : Char :=
  if d < 10 then Char.ofNat (48 + d) else Char.ofNat (87 + d)

/-- Fuel-based accumulator loop for decimal rendering. -/
def natToCharsAux : Nat → Nat → List Char → List Char
  | 0, _, acc => acc
  | fuel + 1, n, acc =>
    if n < 10 then digitChar n :: acc
    else natToCharsAux fuel (n / 10) (digitChar (n % 10) :: acc)

/-- Decimal rendering of a natural number, `format!("{}", n)`. -/
def natToChars (n : Nat) : List Char := natToCharsAux (n + 1) n []

/-- Decimal rendering of an integer, `format!("{}", n)`. -/
def intToChars (n : Int) : List Char :=
  if n < 0 then Char.ofNat 45 :: natToChars n.natAbs else natToChars n.natAbs

/-- Fuel-based accumulator loop for hexadecimal rendering. -/
def natToHexCharsAux : Nat → Nat → List Char → List Char
  | 0, _, acc => acc
  | fuel + 1, n, acc =>
    if n < 16 then hexDigitChar n :: acc
    else natToHexCharsAux fuel (n / 16) (hexDigitChar (n % 16) :: acc)

/-- Minimal-width lower-case hexadecimal rendering (as in Rust
`\u{...}` escapes produced by `escape_default`). -/
def natToHexChars (n : Nat) : List Char := natToHexCharsAux (n + 1) n []

/-- Is `c` a decimal digit. -/
def isDigitChar (c : Char) : Bool := 48 ≤ c.toNat ∧ c.toNat ≤ 57

/-- Is `c` a lower-case hexadecimal digit. -/
def isHexChar (c : Char) : Bool :=
  (48 ≤ c.toNat ∧ c.toNat ≤ 57) ∨ (97 ≤ c.toNat ∧ c.toNat ≤ 102)

/-- Numeric value of a decimal digit character. -/
def digitVal (c : Char) : Nat := c.toNat - 48

/-- Numeric value of a lower-case hexadecimal digit character. -/
def hexVal (c : Char) : Nat :=
  if c.toNat ≤ 57 then c.toNat - 48 else c.toNat - 87

/-- Read a maximal run of decimal digits, folding them onto `acc`. -/
def readDigits : List Char → Nat → (Nat × List Char)
  | c :: cs, acc =>
    if isDigitChar c then readDigits cs (10 * acc + digitVal c) else (acc, c :: cs)
  | [], acc => (acc, [])

/-- Read a maximal run of hexadecimal digits, folding them onto `acc`;
also reports whether at least one digit was read. -/
def readHexDigits : List Char → Nat → Bool → (Nat × Bool × List Char)
  | c :: cs, acc, seen =>
    if isHexChar c then readHexDigits cs (16 * acc + hexVal c) true else (acc, seen, c :: cs)
  | [], acc, seen => (acc, seen, [])

/-! ## Floating-point model

Floats are modelled as the special values plus an uninterpreted decimal
scientific form `mantissa * 10 ^ exp` for the finite case; the source's
textual float round trip (shortest `{:e}` representation parsed back by
`ron` and returned through `Number::as_f64`) corresponds to the exact
round trip of that form.  Rust `format!("{:e}", f)` prints `inf`, `-inf`
and `NaN` for the special values, which is what
`serialize_f32`/`serialize_f64` rely on. -/

/-- Model of a Rust `f32`/`f64` value. -/
inductive Fp where
  | posInf
  | negInf
  | nan
  | finite (mantissa : Int) (exp : Int)
deriving DecidableEq, Repr

/-- Model of the `as f32` cast applied to an `f64`
(`deserialize_f32` does `n.as_f64()? as f32`).  The cast is the identity on
the special values; finite values are kept uninterpreted. -/
def fpToF32 (x : Fp) : Fp := x

/-! ## The dynamic value model (`wasmtime::component::Val`)

`Val` is the recursive sum type of §3 of the spec, translated from the
constructors of `wasmtime::component::Val` that
`serialize.rs`/`deserialize.rs` handle.  The integer constructors carry
`Nat`/`Int`; the range invariants of the Rust machine-integer types are part
of `vmatches` below. -/

mutual

inductive Val where
  | bool (b : Bool)
  | u8 (n : Nat)
  | u16 (n : Nat)
  | u32 (n : Nat)
  | u64 (n : Nat)
  | s8 (n : Int)
  | s16 (n : Int)
  | s32 (n : Int)
  | s64 (n : Int)
  | float32 (x : Fp)
  | float64 (x : Fp)
  | char (c : Char)
  | str (s : String)
  | list (items : ValList)
  | tuple (items : ValList)
  | record (fields : ValFields)
  | variant (case : String) (payload : ValOpt)
  | result (r : ValRes)
  | option (o : ValOpt)

/-- `Vec<Val>`. -/
inductive ValList where
  | nil
  | cons (v : Val) (rest : ValList)

/-- `Vec<(String, Val)>`. -/
inductive ValFields where
  | nil
  | cons (name : String) (v : Val) (rest : ValFields)

/-- `Option<Box<Val>>`. -/
inductive ValOpt where
  | none
  | some (v : Val)

/-- `Result<Option<Box<Val>>, Option<Box<Val>>>`. -/
inductive ValRes where
  | ok (payload : ValOpt)
  | err (payload : ValOpt)

end

/-! ## The type-descriptor model (`wasmtime::component::Type`) -/

mutual

inductive Ty where
  | bool
  | u8
  | u16
  | u32
  | u64
  | s8
  | s16
  | s32
  | s64
  | float32
  | float64
  | char
  | string
  | list (elem : Ty)
  | tuple (elems : TyList)
  | record (fields : TyFields)
  | variant (cases : TyCases)
  | option (elem : Ty)
  | result (okTy : TyOpt) (errTy : TyOpt)

inductive TyList where
  | nil
  | cons (t : Ty) (rest : TyList)

inductive TyFields where
  | nil
  | cons (name : String) (t : Ty) (rest : TyFields)

inductive TyCases where
  | nil
  | cons (name : String) (t : TyOpt) (rest : TyCases)

inductive TyOpt where
  | none
  | some (t : Ty)

end

/-! ## The `ron::Value` model

`deserialize.rs` goes through the external `ron` crate:
`ron::from_str::<ron::Value>` parses the text into a generic `ron::Value`,
and `ron_value_to_val` then matches on that value.  `ron::Value` itself is
translated from the crate's public shape (`Bool`, `Char`, `Map`, `Number`,
`Option`, `String`, `Seq`, `Unit`); a `Map` is kept as the list of entries
in parse order (only lookups by string key are ever performed on it). -/

/-- Model of `ron::value::Number`: an integer (kept unbounded here, with
`asI64` deciding representability) or a float. -/
inductive RonNumber where
  | int (n : Int)
  | float (x : Fp)
deriving DecidableEq, Repr

/-- `ron::Number::as_i64`: the value as an `i64` if it is an integer that
fits; `None` on floats and on integers outside the `i64` range. -/
def RonNumber.asI64 : RonNumber → Option Int
  | .int n => if -(2 ^ 63) ≤ n ∧ n < 2 ^ 63 then Option.some n else Option.none
  | .float _ => Option.none

/-- `ron::Number::as_f64`: the value as a float, `None` on integers. -/
def RonNumber.asF64 : RonNumber → Option Fp
  | .int _ => Option.none
  | .float x => Option.some x

mutual

inductive RonValue where
  | bool (b : Bool)
  | char (c : Char)
  | number (n : RonNumber)
  | str (s : String)
  | option (o : RonOpt)
  | seq (items : RonList)
  | map (entries : RonMap)
  | unit

inductive RonOpt where
  | none
  | some (v : RonValue)

inductive RonList where
  | nil
  | cons (v : RonValue) (rest : RonList)

inductive RonMap where
  | nil
  | cons (key : RonValue) (value : RonValue) (rest : RonMap)

end

/-! ## Special characters by code point

Written via `Char.ofNat` to keep the file free of delicate literals. -/

def quoteC : Char := Char.ofNat 34
def squoteC : Char := Char.ofNat 39
def bslashC : Char := Char.ofNat 92
def lbraceC : Char := Char.ofNat 123
def rbraceC : Char := Char.ofNat 125
def lbrackC : Char := Char.ofNat 91
def rbrackC : Char := Char.ofNat 93
def lparenC : Char := Char.ofNat 40
def rparenC : Char := Char.ofNat 41
def commaC : Char := Char.ofNat 44
def colonC : Char := Char.ofNat 58
def spaceC : Char := Char.ofNat 32
def tabC : Char := Char.ofNat 9
def crC : Char := Char.ofNat 13
def lfC : Char := Char.ofNat 10
def minusC : Char := Char.ofNat 45

/-! ## Escaping

`serialize_char` uses Rust `char::escape_default`; `serialize_string` uses
`format!("{:?}", s)`, i.e. `str`'s `Debug` impl (`escape_debug` per
character). -/

/-- Rust `char::escape_default`: two-character escapes for tab, carriage
return, newline, backslash and both quotes; printable ASCII kept verbatim;
everything else becomes `\u{hex}`. -/
def escapeDefaultChar (c : Char) : List Char :=
  if c = tabC then [bslashC, 't']
  else if c = crC then [bslashC, 'r']
  else if c = lfC then [bslashC, 'n']
  else if c = bslashC then [bslashC, bslashC]
  else if c = squoteC then [bslashC, squoteC]
  else if c = quoteC then [bslashC, quoteC]
  else if 32 ≤ c.toNat ∧ c.toNat ≤ 126 then [c]
  else bslashC :: 'u' :: lbraceC :: (natToHexChars c.toNat ++ [rbraceC])

/-- Per-character model of `str`'s `Debug` escaping (`escape_debug`): like
`escape_default` but the single quote stays verbatim and printable Unicode
is kept raw.  "Printable" is approximated as every code point at and above
0x20; `escape_debug` additionally escapes some rare non-printable code
points there, and the parser below accepts both a raw character and its
`\u{...}` escape, so the round-trip results do not depend on the cut. -/
def escapeDebugChar (c : Char) : List Char :=
  if c = tabC then [bslashC, 't']
  else if c = crC then [bslashC, 'r']
  else if c = lfC then [bslashC, 'n']
  else if c = bslashC then [bslashC, bslashC]
  else if c = quoteC then [bslashC, quoteC]
  else if c.toNat < 32 then bslashC :: 'u' :: lbraceC :: (natToHexChars c.toNat ++ [rbraceC])
  else [c]

/-- `escape_debug` applied to every character of a string body. -/
def escapeDebugStr : List Char → List Char
  | [] => []
  | c :: cs => escapeDebugChar c ++ escapeDebugStr cs

/-- Rust `format!("{:e}", f)`: `inf`, `-inf` and `NaN` for the special
values; scientific `mantissa e exp` decimal form for finite values. -/
def fpExpChars : Fp → List Char
  | .posInf => "inf".data
  | .negInf => "-inf".data
  | .nan => "NaN".data
  | .finite m e => intToChars m ++ 'e' :: intToChars e

/-! ## The serializer (`serialize.rs`, `val_to_ron` with its `basic` and
`complex` helpers)

Each arm below is the corresponding arm of the source `match` with the
helper call inlined; lists and record fields are joined with `", "` exactly
as `items.join(", ")` does. -/

mutual

/-- `val_to_ron` rendered to characters. -/
def valToRonChars : Val → List Char
  | .bool b => if b then "true".data else "false".data
  | .u8 n => natToChars n
  | .u16 n => natToChars n
  | .u32 n => natToChars n
  | .u64 n => natToChars n
  | .s8 n => intToChars n
  | .s16 n => intToChars n
  | .s32 n => intToChars n
  | .s64 n => intToChars n
  | .float32 x => fpExpChars x
  | .float64 x => fpExpChars x
  | .char c => squoteC :: (escapeDefaultChar c ++ [squoteC])
  | .str s => quoteC :: (escapeDebugStr s.data ++ [quoteC])
  | .list items => lbrackC :: (serializeListChars items ++ [rbrackC])
  | .tuple items => lparenC :: (serializeListChars items ++ [rparenC])
  | .record fields => lbraceC :: (serializeRecordChars fields ++ [rbraceC])
  | .variant case payload =>
    match payload with
    | .some v => case.data ++ lparenC :: (valToRonChars v ++ [rparenC])
    | .none => case.data
  | .result r =>
    match r with
    | .ok (.some v) => "Ok(".data ++ valToRonChars v ++ [rparenC]
    | .err (.some v) => "Err(".data ++ valToRonChars v ++ [rparenC]
    | .ok .none => "Ok(())".data
    | .err .none => "Err(())".data
  | .option o =>
    match o with
    | .some v => "Some(".data ++ valToRonChars v ++ [rparenC]
    | .none => "None".data

/-- `serialize_list`/`serialize_tuple` body: elements joined by `", "`. -/
def serializeListChars : ValList → List Char
  | .nil => []
  | .cons v .nil => valToRonChars v
  | .cons v (.cons w rest) =>
    valToRonChars v ++ commaC :: spaceC :: serializeListChars (.cons w rest)

/-- `serialize_record` body: `name: value` pairs joined by `", "`. -/
def serializeRecordChars : ValFields → List Char
  | .nil => []
  | .cons k v .nil => k.data ++ colonC :: spaceC :: valToRonChars v
  | .cons k v (.cons k2 v2 rest) =>
    k.data ++ colonC :: spaceC :: valToRonChars v ++
      commaC :: spaceC :: serializeRecordChars (.cons k2 v2 rest)

end

/-- `val_to_ron` (serialize.rs line 41): the serialized RON string.  The
source signature is `Result<String>`; its only failure arm is the catch-all
for `Val` constructors outside the dynamic value grammar (resources), which
the model's `Val` type does not contain, so the model is total. -/
def val_to_ron (v : Val) : String := String.mk (valToRonChars v)

/-! ## Matching a value against a type descriptor

`vmatches v t` states that `v` is a value of the descriptor `t`, including
the machine-integer range invariants the Rust types carry. -/

/-- Look up a variant case by name (`wasmtime` `VariantCase` list). -/
def TyCases.find : TyCases → String → Option TyOpt
  | .nil, _ => Option.none
  | .cons name t rest, c => if name = c then Option.some t else rest.find c

mutual

def vmatches : Val → Ty → Bool
  | .bool _, .bool => true
  | .u8 n, .u8 => n < 2 ^ 8
  | .u16 n, .u16 => n < 2 ^ 16
  | .u32 n, .u32 => n < 2 ^ 32
  | .u64 n, .u64 => n < 2 ^ 64
  | .s8 n, .s8 => -(2 ^ 7) ≤ n ∧ n < 2 ^ 7
  | .s16 n, .s16 => -(2 ^ 15) ≤ n ∧ n < 2 ^ 15
  | .s32 n, .s32 => -(2 ^ 31) ≤ n ∧ n < 2 ^ 31
  | .s64 n, .s64 => -(2 ^ 63) ≤ n ∧ n < 2 ^ 63
  | .float32 _, .float32 => true
  | .float64 _, .float64 => true
  | .char _, .char => true
  | .str _, .string => true
  | .list xs, .list elem => vlistMatches xs elem
  | .tuple xs, .tuple ts => vtupleMatches xs ts
  | .record fs, .record tfs => vrecordMatches fs tfs
  | .variant c p, .variant cases =>
    match cases.find c with
    | Option.some tOpt => voptMatchesOpt p tOpt
    | Option.none => false
  | .result (.ok p), .result okT _ => voptMatchesOpt p okT
  | .result (.err p), .result _ errT => voptMatchesOpt p errT
  | .option o, .option elem => voptMatches o elem
  | _, _ => false

/-- Every element matches the list element type. -/
def vlistMatches : ValList → Ty → Bool
  | .nil, _ => true
  | .cons v rest, elem => vmatches v elem && vlistMatches rest elem

/-- Elementwise matching of a tuple against its component types. -/
def vtupleMatches : ValList → TyList → Bool
  | .nil, .nil => true
  | .cons v rest, .cons t ts => vmatches v t && vtupleMatches rest ts
  | _, _ => false

/-- Record fields match the declared fields: same names in declaration
order, values matching pointwise. -/
def vrecordMatches : ValFields → TyFields → Bool
  | .nil, .nil => true
  | .cons k v rest, .cons name t ts => k = name && vmatches v t && vrecordMatches rest ts
  | _, _ => false

/-- A payload option matches a payload type option (present iff typed). -/
def voptMatchesOpt : ValOpt → TyOpt → Bool
  | .none, .none => true
  | .some v, .some t => vmatches v t
  | _, _ => false

/-- An option value matches the element type. -/
def voptMatches : ValOpt → Ty → Bool
  | .none, _ => true
  | .some v, elem => vmatches v elem

end

/-! ## Wellformedness for the round-trip fragment

The textual RON form is self-describing only up to a few reserved spellings
(`true`, `false`, `Some`, `None`, `inf`, `NaN`) and requires record-field
and variant-case names to be identifiers; `valWF`/`tyWF` carve out the
fragment on which the round-trip property of the spec can hold at all
(see the C1 counterexample for a value outside it). -/

/-- Identifier characters accepted in RON names (WIT kebab-case names
included). -/
def identChar (c : Char) : Bool := c.isAlphanum || c = '_' || c = minusC

/-- First character of an identifier. -/
def identStartChar (c : Char) : Bool := c.isAlpha || c = '_'

/-- `s` is a RON identifier. -/
def identOkStr (s : String) : Bool :=
  match s.data with
  | [] => false
  | c :: cs => identStartChar c && cs.all identChar

/-- Spellings the RON value grammar reserves for other shapes. -/
def reservedIdents : List String := ["true", "false", "Some", "None", "inf", "NaN"]

/-- No string occurs twice. -/
def namesDistinct : List String → Bool
  | [] => true
  | n :: ns => !ns.contains n && namesDistinct ns

/-- The names of a record value's fields. -/
def ValFields.names : ValFields → List String
  | .nil => []
  | .cons k _ rest => k :: rest.names

/-- The names of a variant type's cases. -/
def TyCases.names : TyCases → List String
  | .nil => []
  | .cons name _ rest => name :: rest.names

mutual

/-- The value lies in the round-trip fragment: `u64` values within `i64`
range (the deserializer funnels them through `Number::as_i64`), record
field names are distinct identifiers, variant case names are non-reserved
identifiers. -/
def valWF : Val → Bool
  | .bool _ => true
  | .u8 _ => true
  | .u16 _ => true
  | .u32 _ => true
  | .u64 n => n < 2 ^ 63
  | .s8 _ => true
  | .s16 _ => true
  | .s32 _ => true
  | .s64 _ => true
  | .float32 _ => true
  | .float64 _ => true
  | .char _ => true
  | .str _ => true
  | .list xs => valListWF xs
  | .tuple xs => valListWF xs
  | .record fs => namesDistinct fs.names && valFieldsWF fs
  | .variant c p => identOkStr c && !reservedIdents.contains c && valOptWF p
  | .result (.ok p) => valOptWF p
  | .result (.err p) => valOptWF p
  | .option o => valOptWF o

def valListWF : ValList → Bool
  | .nil => true
  | .cons v rest => valWF v && valListWF rest

def valFieldsWF : ValFields → Bool
  | .nil => true
  | .cons k v rest => identOkStr k && valWF v && valFieldsWF rest

def valOptWF : ValOpt → Bool
  | .none => true
  | .some v => valWF v

end

mutual

/-- The descriptor side of the round-trip fragment: each variant node has
pairwise distinct case names (the deserializer scans cases in order and
takes the first whose name appears in the parsed map). -/
def tyWF : Ty → Bool
  | .list elem => tyWF elem
  | .tuple ts => tyListWF ts
  | .record fs => tyFieldsWF fs
  | .variant cases => namesDistinct cases.names && tyCasesWF cases
  | .option elem => tyWF elem
  | .result okT errT => tyOptWF okT && tyOptWF errT
  | _ => true

def tyListWF : TyList → Bool
  | .nil => true
  | .cons t rest => tyWF t && tyListWF rest

def tyFieldsWF : TyFields → Bool
  | .nil => true
  | .cons _ t rest => tyWF t && tyFieldsWF rest

def tyCasesWF : TyCases → Bool
  | .nil => true
  | .cons _ t rest => tyOptWF t && tyCasesWF rest

def tyOptWF : TyOpt → Bool
  | .none => true
  | .some t => tyWF t

end

/-! ## The RON text parser

Modelled from the spec: `ron_to_val` (deserialize.rs line 39) first calls
the external crate function `ron::from_str::<ron::Value>`, whose sources
are not part of this repository.  The parser below is written against the
textual forms §4.5.3 of the spec assigns to each value shape (`true`,
decimal and exponential numerals, `inf`/`-inf`/`NaN`, quoted chars and
strings with backslash escapes, `[..]`, `(..)`, `{k: v, ..}`, `Case(..)`,
bare `Case`, `Some(..)`/`None`, `Ok(..)`/`Err(..)`), producing the
`ron::Value` shapes that `ron_value_to_val` consumes: sequences for lists
and tuples, string-keyed maps for records, variants and results, and the
dedicated `Option` shape for `Some`/`None`.  Following the spec's §8
boundary behavior (the empty tuple round-trips), `()` is parsed as the
empty sequence.  Recursion is fuel-based; the wrapper feeds the input
length as fuel. -/

/-- RON whitespace. -/
def isWsChar (c : Char) : Bool := c = spaceC || c = tabC || c = lfC || c = crC

/-- Drop leading whitespace. -/
def skipWs : List Char → List Char
  | c :: cs => if isWsChar c then skipWs cs else c :: cs
  | [] => []

/-- Read a maximal identifier run. -/
def readIdent : List Char → (List Char × List Char)
  | c :: cs =>
    if identChar c then
      match readIdent cs with
      | (i, r) => (c :: i, r)
    else ([], c :: cs)
  | [] => ([], [])

/-- Read decimal digits together with their count (used for fraction
parts). -/
def readFracDigits : List Char → Nat → Nat → (Nat × Nat × List Char)
  | c :: cs, acc, cnt =>
    if isDigitChar c then readFracDigits cs (10 * acc + digitVal c) (cnt + 1)
    else (acc, cnt, c :: cs)
  | [], acc, cnt => (acc, cnt, [])

/-- Decode one backslash escape (shared by the char and string grammars):
`\t`, `\r`, `\n`, `\\`, `\'`, `\"` and `\u{hex}`. -/
def readEscape : List Char → Option (Char × List Char)
  | e :: cs =>
    if e = 't' then Option.some (tabC, cs)
    else if e = 'r' then Option.some (crC, cs)
    else if e = 'n' then Option.some (lfC, cs)
    else if e = bslashC then Option.some (bslashC, cs)
    else if e = squoteC then Option.some (squoteC, cs)
    else if e = quoteC then Option.some (quoteC, cs)
    else if e = 'u' then
      match cs with
      | b :: cs2 =>
        if b = lbraceC then
          match readHexDigits cs2 0 false with
          | (n, true, r :: rest) =>
            if r = rbraceC ∧ n < 1114112 ∧ ¬(55296 ≤ n ∧ n < 57344) then
              Option.some (Char.ofNat n, rest)
            else Option.none
          | _ => Option.none
        else Option.none
      | [] => Option.none
    else Option.none
  | [] => Option.none

/-- Read a string body up to the closing double quote. -/
def readStringBody : Nat → List Char → Option (List Char × List Char)
  | 0, _ => Option.none
  | fuel + 1, c :: cs =>
    if c = quoteC then Option.some ([], cs)
    else if c = bslashC then
      match readEscape cs with
      | Option.some (d, rest) =>
        match readStringBody fuel rest with
        | Option.some (body, rest2) => Option.some (d :: body, rest2)
        | Option.none => Option.none
      | Option.none => Option.none
    else
      match readStringBody fuel cs with
      | Option.some (body, rest2) => Option.some (c :: body, rest2)
      | Option.none => Option.none
  | _ + 1, [] => Option.none

/-- Read a char literal body (one possibly escaped character plus the
closing single quote). -/
def readCharBody : List Char → Option (Char × List Char)
  | c :: cs =>
    if c = bslashC then
      match readEscape cs with
      | Option.some (d, q :: rest) => if q = squoteC then Option.some (d, rest) else Option.none
      | _ => Option.none
    else
      match cs with
      | q :: rest => if q = squoteC then Option.some (c, rest) else Option.none
      | [] => Option.none
  | [] => Option.none

/-- Parse a numeral (decimal integer, or float when a fraction or exponent
is present); `neg` records a leading minus sign. -/
def parseNumberTail (neg : Bool) (cs : List Char) : Option (RonNumber × List Char) :=
  match readDigits cs 0 with
  | (intPart, rest) =>
    match rest with
    | d :: rest2 =>
      if d = Char.ofNat 46 then
        match readFracDigits rest2 0 0 with
        | (fracPart, fracCnt, rest3) =>
          match rest3 with
          | e :: rest4 =>
            if e = 'e' ∨ e = 'E' then
              match parseExponent rest4 with
              | Option.some (ex, rest5) =>
                Option.some (mkFloat neg intPart fracPart fracCnt ex, rest5)
              | Option.none => Option.none
            else Option.some (mkFloat neg intPart fracPart fracCnt 0, rest3)
          | [] => Option.some (mkFloat neg intPart fracPart fracCnt 0, [])
      else if d = 'e' ∨ d = 'E' then
        match parseExponent rest2 with
        | Option.some (ex, rest5) => Option.some (mkFloat neg intPart 0 0 ex, rest5)
        | Option.none => Option.none
      else Option.some (mkInt neg intPart, rest)
    | [] => Option.some (mkInt neg intPart, [])
where
  mkInt (neg : Bool) (n : Nat) : RonNumber :=
    .int (if neg then -(n : Int) else (n : Int))
  mkFloat (neg : Bool) (ip fp : Nat) (cnt : Nat) (ex : Int) : RonNumber :=
    let m : Int := (ip : Int) * (10 : Int) ^ cnt + (fp : Int)
    .float (.finite (if neg then -m else m) (ex - (cnt : Int)))
  parseExponent (cs : List Char) : Option (Int × List Char) :=
    match cs with
    | c :: cs2 =>
      if c = minusC then
        match readDigits cs2 0 with
        | (n, rest) => Option.some (-(n : Int), rest)
      else
        match readDigits (c :: cs2) 0 with
        | (n, rest) => Option.some ((n : Int), rest)
    | [] => Option.none

mutual

/-- Parse one RON value (fuel-based recursive descent). -/
def parseRonV : Nat → List Char → Option (RonValue × List Char)
  | 0, _ => Option.none
  | fuel + 1, c :: cs =>
    if c = lbrackC then
      match skipWs cs with
      | d :: ds =>
        if d = rbrackC then Option.some (.seq .nil, ds)
        else
          match parseRonItems fuel rbrackC (d :: ds) with
          | Option.some (vs, rest) => Option.some (.seq vs, rest)
          | Option.none => Option.none
      | [] => Option.none
    else if c = lparenC then
      match skipWs cs with
      | d :: ds =>
        if d = rparenC then Option.some (.seq .nil, ds)
        else
          match parseRonItems fuel rparenC (d :: ds) with
          | Option.some (vs, rest) => Option.some (.seq vs, rest)
          | Option.none => Option.none
      | [] => Option.none
    else if c = lbraceC then
      match skipWs cs with
      | d :: ds =>
        if d = rbraceC then Option.some (.map .nil, ds)
        else
          match parseRonMapItems fuel (d :: ds) with
          | Option.some (m, rest) => Option.some (.map m, rest)
          | Option.none => Option.none
      | [] => Option.none
    else if c = quoteC then
      match readStringBody fuel cs with
      | Option.some (body, rest) => Option.some (.str (String.mk body), rest)
      | Option.none => Option.none
    else if c = squoteC then
      match readCharBody cs with
      | Option.some (d, rest) => Option.some (.char d, rest)
      | Option.none => Option.none
    else if isDigitChar c then
      match parseNumberTail false (c :: cs) with
      | Option.some (n, rest) => Option.some (.number n, rest)
      | Option.none => Option.none
    else if c = minusC then
      match cs with
      | d :: ds =>
        if isDigitChar d then
          match parseNumberTail true (d :: ds) with
          | Option.some (n, rest) => Option.some (.number n, rest)
          | Option.none => Option.none
        else
          match readIdent (d :: ds) with
          | (i :: is, rest) =>
            if (i :: is : List Char) = ['i', 'n', 'f'] then
              Option.some (.number (.float .negInf), rest)
            else Option.none
          | ([], _) => Option.none
      | [] => Option.none
    else if identStartChar c then
      match readIdent (c :: cs) with
      | (iden, rest) =>
        let name := String.mk iden
        if name = "true" then Option.some (.bool true, rest)
        else if name = "false" then Option.some (.bool false, rest)
        else if name = "inf" then Option.some (.number (.float .posInf), rest)
        else if name = "NaN" then Option.some (.number (.float .nan), rest)
        else if name = "None" then Option.some (.option .none, rest)
        else if name = "Some" then
          match parseParenArg fuel rest with
          | Option.some (v, rest2) => Option.some (.option (.some v), rest2)
          | Option.none => Option.none
        else
          match rest with
          | d :: ds =>
            if d = lparenC then
              match parseParenArg fuel (d :: ds) with
              | Option.some (v, rest2) =>
                Option.some (.map (.cons (.str name) v .nil), rest2)
              | Option.none => Option.none
            else Option.some (.map (.cons (.str name) .unit .nil), d :: ds)
          | [] => Option.some (.map (.cons (.str name) .unit .nil), [])
    else Option.none
  | _ + 1, [] => Option.none

/-- Parse `value (, value)* term` where `term` closes the sequence. -/
def parseRonItems : Nat → Char → List Char → Option (RonList × List Char)
  | 0, _, _ => Option.none
  | fuel + 1, term, cs =>
    match parseRonV fuel cs with
    | Option.some (v, rest) =>
      match skipWs rest with
      | d :: ds =>
        if d = commaC then
          match parseRonItems fuel term (skipWs ds) with
          | Option.some (vs, rest2) => Option.some (.cons v vs, rest2)
          | Option.none => Option.none
        else if d = term then Option.some (.cons v .nil, ds)
        else Option.none
      | [] => Option.none
    | Option.none => Option.none

/-- Parse `ident: value (, ident: value)* }`. -/
def parseRonMapItems : Nat → List Char → Option (RonMap × List Char)
  | 0, _ => Option.none
  | fuel + 1, cs =>
    match readIdent cs with
    | ([], _) => Option.none
    | (k :: ks, rest) =>
      match skipWs rest with
      | d :: ds =>
        if d = colonC then
          match parseRonV fuel (skipWs ds) with
          | Option.some (v, rest2) =>
            match skipWs rest2 with
            | e :: es =>
              if e = commaC then
                match parseRonMapItems fuel (skipWs es) with
                | Option.some (m, rest3) =>
                  Option.some (.cons (.str (String.mk (k :: ks))) v m, rest3)
                | Option.none => Option.none
              else if e = rbraceC then
                Option.some (.cons (.str (String.mk (k :: ks))) v .nil, es)
              else Option.none
            | [] => Option.none
          | Option.none => Option.none
        else Option.none
      | [] => Option.none

/-- Parse a parenthesized payload `( value )`. -/
def parseParenArg : Nat → List Char → Option (RonValue × List Char)
  | 0, _ => Option.none
  | fuel + 1, d :: ds =>
    if d = lparenC then
      match parseRonV fuel (skipWs ds) with
      | Option.some (v, rest) =>
        match skipWs rest with
        | e :: es => if e = rparenC then Option.some (v, es) else Option.none
        | [] => Option.none
      | Option.none => Option.none
    else Option.none
  | _ + 1, [] => Option.none

end

/-- Modelled from the spec: `ron::from_str::<ron::Value>` — parse a
complete RON document (leading and trailing whitespace allowed, nothing
else after the value). -/
def ron_from_str (s : String) : Option RonValue :=
  match parseRonV (s.length + 1) (skipWs s.data) with
  | Option.some (v, rest) => if skipWs rest = [] then Option.some v else Option.none
  | Option.none => Option.none

/-! ## The parse of a serialized value

`ronOf v` is the `ron::Value` that the parser produces on `val_to_ron v`
(for wellformed `v`); the round-trip proof goes through it. -/

mutual

def ronOf : Val → RonValue
  | .bool b => .bool b
  | .u8 n => .number (.int n)
  | .u16 n => .number (.int n)
  | .u32 n => .number (.int n)
  | .u64 n => .number (.int n)
  | .s8 n => .number (.int n)
  | .s16 n => .number (.int n)
  | .s32 n => .number (.int n)
  | .s64 n => .number (.int n)
  | .float32 x => .number (.float x)
  | .float64 x => .number (.float x)
  | .char c => .char c
  | .str s => .str s
  | .list xs => .seq (ronOfList xs)
  | .tuple xs => .seq (ronOfList xs)
  | .record fs => .map (ronOfFields fs)
  | .variant c (.some v) => .map (.cons (.str c) (ronOf v) .nil)
  | .variant c .none => .map (.cons (.str c) .unit .nil)
  | .result (.ok (.some v)) => .map (.cons (.str "Ok") (ronOf v) .nil)
  | .result (.ok .none) => .map (.cons (.str "Ok") (.seq .nil) .nil)
  | .result (.err (.some v)) => .map (.cons (.str "Err") (ronOf v) .nil)
  | .result (.err .none) => .map (.cons (.str "Err") (.seq .nil) .nil)
  | .option (.some v) => .option (.some (ronOf v))
  | .option .none => .option .none

def ronOfList : ValList → RonList
  | .nil => .nil
  | .cons v rest => .cons (ronOf v) (ronOfList rest)

def ronOfFields : ValFields → RonMap
  | .nil => .nil
  | .cons k v rest => .cons (.str k) (ronOf v) (ronOfFields rest)

end

/-! Structural size of a value, used to bound the fuel the deserialization
of its serialization consumes. -/

mutual

def valNodeCount : Val → Nat
  | .list xs => 1 + valListCount xs
  | .tuple xs => 1 + valListCount xs
  | .record fs => 1 + valFieldsCount fs
  | .variant _ p => 1 + valOptCount p
  | .result (.ok p) => 1 + valOptCount p
  | .result (.err p) => 1 + valOptCount p
  | .option o => 1 + valOptCount o
  | _ => 1

def valListCount : ValList → Nat
  | .nil => 0
  | .cons v rest => 1 + valNodeCount v + valListCount rest

def valFieldsCount : ValFields → Nat
  | .nil => 0
  | .cons _ v rest => 1 + valNodeCount v + valFieldsCount rest

def valOptCount : ValOpt → Nat
  | .none => 0
  | .some v => valNodeCount v

end

/-! ## The deserializer (`deserialize.rs`)

`ron_value_to_val` dispatches on the target type exactly as the source
match on `(ron_value, target_type)` does; the `basic` module's handlers are
the standalone functions below.  Rust `as` casts of an `i64` to a narrower
or unsigned machine integer are the usual two's-complement reductions,
written with `Int.emod`.  The interpolated `{:?}` payloads of the source's
error messages are omitted from the modelled error strings. -/

namespace RonBasic

def deserialize_bool : RonValue → Except String Val
  | .bool b => .ok (.bool b)
  | _ => .error "Expected bool"

def deserialize_u8 : RonValue → Except String Val
  | .number n =>
    match n.asI64 with
    | Option.some i => .ok (.u8 (i.emod (2 ^ 8)).toNat)
    | Option.none => .error "U8 expected"
  | _ => .error "Expected number for u8"

def deserialize_u16 : RonValue → Except String Val
  | .number n =>
    match n.asI64 with
    | Option.some i => .ok (.u16 (i.emod (2 ^ 16)).toNat)
    | Option.none => .error "U16 expected"
  | _ => .error "Expected number for u16"

def deserialize_u32 : RonValue → Except String Val
  | .number n =>
    match n.asI64 with
    | Option.some i => .ok (.u32 (i.emod (2 ^ 32)).toNat)
    | Option.none => .error "U32 expected"
  | _ => .error "Expected number for u32"

def deserialize_u64 : RonValue → Except String Val
  | .number n =>
    match n.asI64 with
    | Option.some i => .ok (.u64 (i.emod (2 ^ 64)).toNat)
    | Option.none => .error "U64 expected"
  | _ => .error "Expected number for u64"

def deserialize_s8 : RonValue → Except String Val
  | .number n =>
    match n.asI64 with
    | Option.some i => .ok (.s8 ((i + 2 ^ 7).emod (2 ^ 8) - 2 ^ 7))
    | Option.none => .error "S8 expected"
  | _ => .error "Expected number for s8"

def deserialize_s16 : RonValue → Except String Val
  | .number n =>
    match n.asI64 with
    | Option.some i => .ok (.s16 ((i + 2 ^ 15).emod (2 ^ 16) - 2 ^ 15))
    | Option.none => .error "S16 expected"
  | _ => .error "Expected number for s16"

def deserialize_s32 : RonValue → Except String Val
  | .number n =>
    match n.asI64 with
    | Option.some i => .ok (.s32 ((i + 2 ^ 31).emod (2 ^ 32) - 2 ^ 31))
    | Option.none => .error "S32 expected"
  | _ => .error "Expected number for s32"

def deserialize_s64 : RonValue → Except String Val
  | .number n =>
    match n.asI64 with
    | Option.some i => .ok (.s64 i)
    | Option.none => .error "S64 expected"
  | _ => .error "Expected number for s64"

def deserialize_f32 : RonValue → Except String Val
  | .number n =>
    match n.asF64 with
    | Option.some x => .ok (.float32 (fpToF32 x))
    | Option.none => .error "Float32 expected"
  | _ => .error "Expected number for f32"

def deserialize_f64 : RonValue → Except String Val
  | .number n =>
    match n.asF64 with
    | Option.some x => .ok (.float64 x)
    | Option.none => .error "Float64 expected"
  | _ => .error "Expected number for f64"

def deserialize_char : RonValue → Except String Val
  | .char c => .ok (.char c)
  | _ => .error "Expected char"

def deserialize_string : RonValue → Except String Val
  | .str s => .ok (.str s)
  | _ => .error "Expected string"

end RonBasic

/-- `map.iter().find(|(k, _)| *k == &RonValue::String(name))`: the key side
of the comparison is always a `String` value, so the `Value` equality used
by the source reduces to this test. -/
def ronKeyIs (k : RonValue) (name : String) : Bool :=
  match k with
  | .str s => s = name
  | _ => false

/-- Find a map entry by string key (`deserialize_record`). -/
def RonMap.findStr : RonMap → String → Option RonValue
  | .nil, _ => Option.none
  | .cons k v rest, name => if ronKeyIs k name then Option.some v else rest.findStr name

/-- Remove a map entry by string key, returning the value and the shrunken
map (`map.remove(&key)` in `deserialize_variant`/`deserialize_result`). -/
def RonMap.removeStr : RonMap → String → Option (RonValue × RonMap)
  | .nil, _ => Option.none
  | .cons k v rest, name =>
    if ronKeyIs k name then Option.some (v, rest)
    else
      match rest.removeStr name with
      | Option.some (w, rest2) => Option.some (w, .cons k v rest2)
      | Option.none => Option.none

/-- Number of elements of a parsed sequence (`seq.len()`). -/
def ronListLength : RonList → Nat
  | .nil => 0
  | .cons _ rest => 1 + ronListLength rest

/-- Number of component types of a tuple descriptor. -/
def tyListLength : TyList → Nat
  | .nil => 0
  | .cons _ rest => 1 + tyListLength rest

/-! Structural size of a type descriptor, used only to pick enough fuel for
the fuel-based rendition of the source's unbounded recursion. -/

mutual

def tyNodeCount : Ty → Nat
  | .list elem => 1 + tyNodeCount elem
  | .tuple ts => 1 + tyListCount ts
  | .record fs => 1 + tyFieldsCount fs
  | .variant cases => 1 + tyCasesCount cases
  | .option elem => 1 + tyNodeCount elem
  | .result okT errT => 1 + tyOptCount okT + tyOptCount errT
  | _ => 1

def tyListCount : TyList → Nat
  | .nil => 0
  | .cons t rest => 1 + tyNodeCount t + tyListCount rest

def tyFieldsCount : TyFields → Nat
  | .nil => 0
  | .cons _ t rest => 1 + tyNodeCount t + tyFieldsCount rest

def tyCasesCount : TyCases → Nat
  | .nil => 0
  | .cons _ t rest => 1 + tyOptCount t + tyCasesCount rest

def tyOptCount : TyOpt → Nat
  | .none => 0
  | .some t => tyNodeCount t

end

mutual

/-- `ron_value_to_val` (deserialize.rs line 50) with its `complex` helpers,
fuel-based so that it evaluates in the kernel; the wrapper below feeds
enough fuel for any parsed input. -/
def ron_value_to_val : Nat → RonValue → Ty → Except String Val
  | 0, _, _ => .error "recursion limit"
  | fuel + 1, rv, t =>
    match t with
    | .bool => RonBasic.deserialize_bool rv
    | .u8 => RonBasic.deserialize_u8 rv
    | .u16 => RonBasic.deserialize_u16 rv
    | .u32 => RonBasic.deserialize_u32 rv
    | .u64 => RonBasic.deserialize_u64 rv
    | .s8 => RonBasic.deserialize_s8 rv
    | .s16 => RonBasic.deserialize_s16 rv
    | .s32 => RonBasic.deserialize_s32 rv
    | .s64 => RonBasic.deserialize_s64 rv
    | .float32 => RonBasic.deserialize_f32 rv
    | .float64 => RonBasic.deserialize_f64 rv
    | .char => RonBasic.deserialize_char rv
    | .string => RonBasic.deserialize_string rv
    | .list elem =>
      match rv with
      | .seq items =>
        match deserializeSeqItems fuel items elem with
        | .ok vs => .ok (.list vs)
        | .error e => .error e
      | _ => .error "Expected list sequence"
    | .tuple elemTys =>
      match rv with
      | .seq items =>
        if ronListLength items = tyListLength elemTys then
          match deserializeTupleItems fuel items elemTys with
          | .ok vs => .ok (.tuple vs)
          | .error e => .error e
        else .error "Tuple length mismatch"
      | _ => .error "Expected tuple sequence"
    | .record fields =>
      match rv with
      | .map m =>
        match deserializeRecordFields fuel m fields with
        | .ok fs => .ok (.record fs)
        | .error e => .error e
      | _ => .error "Expected record map"
    | .variant cases =>
      match rv with
      | .map m => deserializeVariantCases fuel m cases
      | _ => .error "Expected variant map"
    | .result okT errT =>
      match rv with
      | .map m =>
        match m.removeStr "Ok" with
        | Option.some (okRon, _) =>
          match okT with
          | .some t2 =>
            match ron_value_to_val fuel okRon t2 with
            | .ok v => .ok (.result (.ok (.some v)))
            | .error e => .error e
          | .none => .ok (.result (.ok .none))
        | Option.none =>
          match m.removeStr "Err" with
          | Option.some (errRon, _) =>
            match errT with
            | .some t2 =>
              match ron_value_to_val fuel errRon t2 with
              | .ok v => .ok (.result (.err (.some v)))
              | .error e => .error e
            | .none => .ok (.result (.err .none))
          | Option.none => .error "Invalid Result type: missing Ok or Err field"
      | _ => .error "Expected result map"
    | .option elem =>
      match rv with
      | .option o =>
        match o with
        | .some inner =>
          match ron_value_to_val fuel inner elem with
          | .ok v => .ok (.option (.some v))
          | .error e => .error e
        | .none => .ok (.option .none)
      | _ => .error "Expected option"

/-- `deserialize_list` loop: convert every sequence element at the element
type. -/
def deserializeSeqItems : Nat → RonList → Ty → Except String ValList
  | 0, _, _ => .error "recursion limit"
  | _ + 1, .nil, _ => .ok .nil
  | fuel + 1, .cons rv rest, elem =>
    match ron_value_to_val fuel rv elem with
    | .ok v =>
      match deserializeSeqItems fuel rest elem with
      | .ok vs => .ok (.cons v vs)
      | .error e => .error e
    | .error e => .error e

/-- `deserialize_tuple` loop: convert elements zipped with the component
types (the length check has already happened). -/
def deserializeTupleItems : Nat → RonList → TyList → Except String ValList
  | 0, _, _ => .error "recursion limit"
  | _ + 1, .nil, _ => .ok .nil
  | fuel + 1, .cons rv rest, tys =>
    match tys with
    | .cons t ts =>
      match ron_value_to_val fuel rv t with
      | .ok v =>
        match deserializeTupleItems fuel rest ts with
        | .ok vs => .ok (.cons v vs)
        | .error e => .error e
      | .error e => .error e
    | .nil => .error "Tuple length mismatch"

/-- `deserialize_record` loop: for each declared field, look its value up
in the parsed map by name and convert it at the declared type. -/
def deserializeRecordFields : Nat → RonMap → TyFields → Except String ValFields
  | 0, _, _ => .error "recursion limit"
  | _ + 1, _, .nil => .ok .nil
  | fuel + 1, m, .cons name t rest =>
    match m.findStr name with
    | Option.some rv =>
      match ron_value_to_val fuel rv t with
      | .ok v =>
        match deserializeRecordFields fuel m rest with
        | .ok fs => .ok (.cons name v fs)
        | .error e => .error e
      | .error e => .error e
    | Option.none => .error ("Missing field: " ++ name)

/-- `deserialize_variant` loop: scan the declared cases in order and take
the first whose name is a key of the parsed map; the payload is converted
at the case type, or dropped for a unit case. -/
def deserializeVariantCases : Nat → RonMap → TyCases → Except String Val
  | 0, _, _ => .error "recursion limit"
  | _ + 1, _, .nil => .error "No matching variant case found"
  | fuel + 1, m, .cons name tOpt rest =>
    match m.removeStr name with
    | Option.some (rv, _) =>
      match tOpt with
      | .some t =>
        match ron_value_to_val fuel rv t with
        | .ok v => .ok (.variant name (.some v))
        | .error e => .error e
      | .none => .ok (.variant name .none)
    | Option.none => deserializeVariantCases fuel m rest

end

/-- `ron_to_val` (deserialize.rs line 39): parse the RON text, then convert
the parsed value at the target type.  The fuel dominates the recursion
depth of the source's unbounded recursion (a parsed value is no deeper than
the text is long, and the case/field scans are bounded by the descriptor
size), so it never cuts a run short. -/
def ron_to_val (s : String) (t : Ty) : Except String Val :=
  match ron_from_str s with
  | Option.some rv => ron_value_to_val (s.length + tyNodeCount t + 1) rv t
  | Option.none => .error "Failed to parse RON"

/-! ## JSON

The typed command protocol (`commands.rs`), the host `execute` callback
(`container.rs`) and the stream bridge (`stream.rs`) all speak
`serde_json`.  `Json` models `serde_json::Value` restricted to the shapes
those protocols carry (their numbers are integers; the parser rejects
fractional numerals). -/

mutual

inductive Json where
  | null
  | bool (b : Bool)
  | num (n : Int)
  | str (s : String)
  | arr (items : JsonList)
  | obj (fields : JsonObj)

inductive JsonList where
  | nil
  | cons (v : Json) (rest : JsonList)

inductive JsonObj where
  | nil
  | cons (key : String) (v : Json) (rest : JsonObj)

end

/-- `serde_json` string escaping: `"`, `\`, the short control escapes, and
`\u00XX` for the remaining control characters; everything else (non-ASCII
included) is emitted raw. -/
def escapeJsonChar (c : Char) : List Char :=
  if c = quoteC then [bslashC, quoteC]
  else if c = bslashC then [bslashC, bslashC]
  else if c = Char.ofNat 8 then [bslashC, 'b']
  else if c = tabC then [bslashC, 't']
  else if c = lfC then [bslashC, 'n']
  else if c = Char.ofNat 12 then [bslashC, 'f']
  else if c = crC then [bslashC, 'r']
  else if c.toNat < 32 then
    bslashC :: 'u' :: '0' :: '0' :: [hexDigitChar (c.toNat / 16), hexDigitChar (c.toNat % 16)]
  else [c]

def escapeJsonStr : List Char → List Char
  | [] => []
  | c :: cs => escapeJsonChar c ++ escapeJsonStr cs

/-- A JSON string literal. -/
def renderJsonString (s : String) : List Char := quoteC :: (escapeJsonStr s.data ++ [quoteC])

mutual

/-- Compact rendering, `serde_json::to_string`. -/
def renderJson : Json → List Char
  | .null => "null".data
  | .bool b => if b then "true".data else "false".data
  | .num n => intToChars n
  | .str s => renderJsonString s
  | .arr items => lbrackC :: (renderJsonList items ++ [rbrackC])
  | .obj fields => lbraceC :: (renderJsonObj fields ++ [rbraceC])

def renderJsonList : JsonList → List Char
  | .nil => []
  | .cons v .nil => renderJson v
  | .cons v (.cons w rest) => renderJson v ++ commaC :: renderJsonList (.cons w rest)

def renderJsonObj : JsonObj → List Char
  | .nil => []
  | .cons k v .nil => renderJsonString k ++ colonC :: renderJson v
  | .cons k v (.cons k2 v2 rest) =>
    renderJsonString k ++ colonC :: renderJson v ++
      commaC :: renderJsonObj (.cons k2 v2 rest)

end

/-- Decode one JSON backslash escape. -/
def readEscapeJson : List Char → Option (Char × List Char)
  | e :: cs =>
    if e = quoteC then Option.some (quoteC, cs)
    else if e = bslashC then Option.some (bslashC, cs)
    else if e = Char.ofNat 47 then Option.some (Char.ofNat 47, cs)
    else if e = 'b' then Option.some (Char.ofNat 8, cs)
    else if e = 'f' then Option.some (Char.ofNat 12, cs)
    else if e = 'n' then Option.some (lfC, cs)
    else if e = 'r' then Option.some (crC, cs)
    else if e = 't' then Option.some (tabC, cs)
    else if e = 'u' then
      match cs with
      | h1 :: h2 :: h3 :: h4 :: rest =>
        if isHexChar h1 && isHexChar h2 && isHexChar h3 && isHexChar h4 then
          let n := ((hexVal h1 * 16 + hexVal h2) * 16 + hexVal h3) * 16 + hexVal h4
          if ¬(55296 ≤ n ∧ n < 57344) then Option.some (Char.ofNat n, rest) else Option.none
        else Option.none
      | _ => Option.none
    else Option.none
  | [] => Option.none

/-- Read a JSON string body up to the closing quote. -/
def readJsonStringBody : Nat → List Char → Option (List Char × List Char)
  | 0, _ => Option.none
  | fuel + 1, c :: cs =>
    if c = quoteC then Option.some ([], cs)
    else if c = bslashC then
      match readEscapeJson cs with
      | Option.some (d, rest) =>
        match readJsonStringBody fuel rest with
        | Option.some (body, rest2) => Option.some (d :: body, rest2)
        | Option.none => Option.none
      | Option.none => Option.none
    else
      match readJsonStringBody fuel cs with
      | Option.some (body, rest2) => Option.some (c :: body, rest2)
      | Option.none => Option.none
  | _ + 1, [] => Option.none

mutual

/-- Parse one JSON value (fuel-based). -/
def parseJsonV : Nat → List Char → Option (Json × List Char)
  | 0, _ => Option.none
  | fuel + 1, c :: cs =>
    if c = lbraceC then
      match skipWs cs with
      | d :: ds =>
        if d = rbraceC then Option.some (.obj .nil, ds)
        else
          match parseJsonObjItems fuel (d :: ds) with
          | Option.some (o, rest) => Option.some (.obj o, rest)
          | Option.none => Option.none
      | [] => Option.none
    else if c = lbrackC then
      match skipWs cs with
      | d :: ds =>
        if d = rbrackC then Option.some (.arr .nil, ds)
        else
          match parseJsonArrItems fuel (d :: ds) with
          | Option.some (items, rest) => Option.some (.arr items, rest)
          | Option.none => Option.none
      | [] => Option.none
    else if c = quoteC then
      match readJsonStringBody fuel cs with
      | Option.some (body, rest) => Option.some (.str (String.mk body), rest)
      | Option.none => Option.none
    else if isDigitChar c then
      match readDigits (c :: cs) 0 with
      | (n, rest) =>
        match rest with
        | d :: _ =>
          if d = Char.ofNat 46 ∨ d = 'e' ∨ d = 'E' then Option.none
          else Option.some (.num (n : Int), rest)
        | [] => Option.some (.num (n : Int), [])
    else if c = minusC then
      match cs with
      | d :: ds =>
        if isDigitChar d then
          match readDigits (d :: ds) 0 with
          | (n, rest) =>
            match rest with
            | e :: _ =>
              if e = Char.ofNat 46 ∨ e = 'e' ∨ e = 'E' then Option.none
              else Option.some (.num (-(n : Int)), rest)
            | [] => Option.some (.num (-(n : Int)), [])
        else Option.none
      | [] => Option.none
    else if identStartChar c then
      match readIdent (c :: cs) with
      | (iden, rest) =>
        let name := String.mk iden
        if name = "true" then Option.some (.bool true, rest)
        else if name = "false" then Option.some (.bool false, rest)
        else if name = "null" then Option.some (.null, rest)
        else Option.none
    else Option.none
  | _ + 1, [] => Option.none

/-- Parse `value (, value)* ]`. -/
def parseJsonArrItems : Nat → List Char → Option (JsonList × List Char)
  | 0, _ => Option.none
  | fuel + 1, cs =>
    match parseJsonV fuel cs with
    | Option.some (v, rest) =>
      match skipWs rest with
      | d :: ds =>
        if d = commaC then
          match parseJsonArrItems fuel (skipWs ds) with
          | Option.some (vs, rest2) => Option.some (.cons v vs, rest2)
          | Option.none => Option.none
        else if d = rbrackC then Option.some (.cons v .nil, ds)
        else Option.none
      | [] => Option.none
    | Option.none => Option.none

/-- Parse `"key": value (, "key": value)* }`. -/
def parseJsonObjItems : Nat → List Char → Option (JsonObj × List Char)
  | 0, _ => Option.none
  | fuel + 1, cs =>
    match cs with
    | q :: qs =>
      if q = quoteC then
        match readJsonStringBody fuel qs with
        | Option.some (key, rest) =>
          match skipWs rest with
          | d :: ds =>
            if d = colonC then
              match parseJsonV fuel (skipWs ds) with
              | Option.some (v, rest2) =>
                match skipWs rest2 with
                | e :: es =>
                  if e = commaC then
                    match parseJsonObjItems fuel (skipWs es) with
                    | Option.some (o, rest3) =>
                      Option.some (.cons (String.mk key) v o, rest3)
                    | Option.none => Option.none
                  else if e = rbraceC then
                    Option.some (.cons (String.mk key) v .nil, es)
                  else Option.none
                | [] => Option.none
              | Option.none => Option.none
            else Option.none
          | [] => Option.none
        | Option.none => Option.none
      else Option.none
    | [] => Option.none

end

/-- `serde_json::from_str`: parse a complete JSON document. -/
def jsonFromStr (s : String) : Option Json :=
  match parseJsonV (s.length + 1) (skipWs s.data) with
  | Option.some (v, rest) => if skipWs rest = [] then Option.some v else Option.none
  | Option.none => Option.none

/-- Look up an object key (first occurrence). -/
def JsonObj.find : JsonObj → String → Option Json
  | .nil, _ => Option.none
  | .cons k v rest, key => if k = key then Option.some v else rest.find key

/-! ## The typed command enums (`commands.rs`)

`HostCommands`/`GuestCommands` derive serde with
`#[serde(tag = "type", content = "data")]` (adjacent tagging);
`HostResponse`/`GuestResponse` derive `#[serde(untagged)]`.
`encode*` is the serde `Serialize` output at the JSON level and `decode*`
the corresponding `Deserialize`; `serialize_command`/`deserialize_command`
are the source's string-level wrappers over `serde_json`. -/

inductive HostCommands where
  | getInfo
  | echo (msg : String)
  | custom (name : String) (data : String)
deriving DecidableEq, Repr

inductive GuestCommands where
  | greet (msg : String)
  | compute (msg : String)
  | callHost (msg : String)
  | custom (name : String) (data : String)
deriving DecidableEq, Repr

inductive HostResponse where
  | info (name : String) (version : String) (status : String)
  | text (msg : String)
deriving DecidableEq, Repr

inductive GuestResponse where
  | text (msg : String)
deriving DecidableEq, Repr

def encodeHostCommands : HostCommands → Json
  | .getInfo => .obj (.cons "type" (.str "GetInfo") .nil)
  | .echo msg => .obj (.cons "type" (.str "Echo") (.cons "data" (.str msg) .nil))
  | .custom name data =>
    .obj (.cons "type" (.str "Custom")
      (.cons "data" (.obj (.cons "name" (.str name) (.cons "data" (.str data) .nil))) .nil))

def encodeGuestCommands : GuestCommands → Json
  | .greet msg => .obj (.cons "type" (.str "Greet") (.cons "data" (.str msg) .nil))
  | .compute msg => .obj (.cons "type" (.str "Compute") (.cons "data" (.str msg) .nil))
  | .callHost msg => .obj (.cons "type" (.str "CallHost") (.cons "data" (.str msg) .nil))
  | .custom name data =>
    .obj (.cons "type" (.str "Custom")
      (.cons "data" (.obj (.cons "name" (.str name) (.cons "data" (.str data) .nil))) .nil))

def encodeHostResponse : HostResponse → Json
  | .info name version status =>
    .obj (.cons "name" (.str name)
      (.cons "version" (.str version) (.cons "status" (.str status) .nil)))
  | .text msg => .str msg

def encodeGuestResponse : GuestResponse → Json
  | .text msg => .str msg

/-- Adjacently-tagged decoding: dispatch on the `"type"` field, read the
payload from `"data"`.  A unit variant accepts a missing or null payload;
a struct-variant payload is read field by field. -/
def decodeHostCommands (j : Json) : Option HostCommands :=
  match j with
  | .obj o =>
    match o.find "type" with
    | Option.some (.str tag) =>
      if tag = "GetInfo" then
        match o.find "data" with
        | Option.none => Option.some .getInfo
        | Option.some .null => Option.some .getInfo
        | Option.some _ => Option.none
      else if tag = "Echo" then
        match o.find "data" with
        | Option.some (.str msg) => Option.some (.echo msg)
        | _ => Option.none
      else if tag = "Custom" then
        match o.find "data" with
        | Option.some (.obj d) =>
          match d.find "name", d.find "data" with
          | Option.some (.str name), Option.some (.str data) =>
            Option.some (.custom name data)
          | _, _ => Option.none
        | _ => Option.none
      else Option.none
    | _ => Option.none
  | _ => Option.none

def decodeGuestCommands (j : Json) : Option GuestCommands :=
  match j with
  | .obj o =>
    match o.find "type" with
    | Option.some (.str tag) =>
      if tag = "Greet" then
        match o.find "data" with
        | Option.some (.str msg) => Option.some (.greet msg)
        | _ => Option.none
      else if tag = "Compute" then
        match o.find "data" with
        | Option.some (.str msg) => Option.some (.compute msg)
        | _ => Option.none
      else if tag = "CallHost" then
        match o.find "data" with
        | Option.some (.str msg) => Option.some (.callHost msg)
        | _ => Option.none
      else if tag = "Custom" then
        match o.find "data" with
        | Option.some (.obj d) =>
          match d.find "name", d.find "data" with
          | Option.some (.str name), Option.some (.str data) =>
            Option.some (.custom name data)
          | _, _ => Option.none
        | _ => Option.none
      else Option.none
    | _ => Option.none
  | _ => Option.none

/-- Untagged decoding: try the variants in declaration order (`Info`, then
`Text`). -/
def decodeHostResponse (j : Json) : Option HostResponse :=
  match j with
  | .obj o =>
    match o.find "name", o.find "version", o.find "status" with
    | Option.some (.str name), Option.some (.str version), Option.some (.str status) =>
      Option.some (.info name version status)
    | _, _, _ => Option.none
  | .str msg => Option.some (.text msg)
  | _ => Option.none

def decodeGuestResponse (j : Json) : Option GuestResponse :=
  match j with
  | .str msg => Option.some (.text msg)
  | _ => Option.none

/-! String-level wrappers (`serialize_command`/`deserialize_command`,
commands.rs lines 110-118), one per instantiation of the Rust generics. -/

def serialize_command_host (cmd : HostCommands) : String :=
  String.mk (renderJson (encodeHostCommands cmd))

def serialize_command_guest (cmd : GuestCommands) : String :=
  String.mk (renderJson (encodeGuestCommands cmd))

def serialize_command_host_response (r : HostResponse) : String :=
  String.mk (renderJson (encodeHostResponse r))

def serialize_command_guest_response (r : GuestResponse) : String :=
  String.mk (renderJson (encodeGuestResponse r))

def deserialize_command_host (s : String) : Except String HostCommands :=
  match jsonFromStr s with
  | Option.some j =>
    match decodeHostCommands j with
    | Option.some c => .ok c
    | Option.none => .error "Failed to deserialize command"
  | Option.none => .error "Failed to deserialize command"

def deserialize_command_guest (s : String) : Except String GuestCommands :=
  match jsonFromStr s with
  | Option.some j =>
    match decodeGuestCommands j with
    | Option.some c => .ok c
    | Option.none => .error "Failed to deserialize command"
  | Option.none => .error "Failed to deserialize command"

def deserialize_command_host_response (s : String) : Except String HostResponse :=
  match jsonFromStr s with
  | Option.some j =>
    match decodeHostResponse j with
    | Option.some c => .ok c
    | Option.none => .error "Failed to deserialize command"
  | Option.none => .error "Failed to deserialize command"

def deserialize_command_guest_response (s : String) : Except String GuestResponse :=
  match jsonFromStr s with
  | Option.some j =>
    match decodeGuestResponse j with
    | Option.some c => .ok c
    | Option.none => .error "Failed to deserialize command"
  | Option.none => .error "Failed to deserialize command"

/-! ## The host `execute` and `log` callbacks (`container.rs`,
`HostState::execute` lines 52-68 and `HostState::log` lines 70-77)

The `HostState` callback slot is the `Option`-valued handler argument; the
handler itself is the installed `on_execute` closure. -/

/-- `HostState::execute`: deserialize the command, falling back to
`Custom { name: command, data: payload }` when deserialization fails, then
run the installed handler on it and re-serialize its response; error out
when no handler is installed. -/
def hostExecute (executeHandler : Option (HostCommands → Except String HostResponse))
    (command payload : String) : Except String String :=
  let cmd : HostCommands :=
    match deserialize_command_host command with
    | .ok c => c
    | .error _ => .custom command payload
  match executeHandler with
  | Option.some handler =>
    match handler cmd with
    | .ok response => .ok (serialize_command_host_response response)
    | .error e => .error e
  | Option.none => .error "No execute handler registered"

/-- The five log levels (`commands.rs`), with their canonical lowercase
spelling from the `Display` impl. -/
inductive LogLevel where
  | error
  | warn
  | info
  | debug
  | trace
deriving DecidableEq, Repr

def LogLevel.display : LogLevel → String
  | .error => "error"
  | .warn => "warn"
  | .info => "info"
  | .debug => "debug"
  | .trace => "trace"

/-- Model of Rust `str::to_lowercase` (per-character lowering; the Unicode
multi-character special cases cannot produce any of the five ASCII level
names, so they are immaterial to the functions below). -/
def rustToLowercase (s : String) : String := String.mk (s.data.map Char.toLower)

/-- `impl From<&str> for LogLevel` (commands.rs lines 97-108): match on the
lowercased string, defaulting to `Info`. -/
def LogLevel.fromStr (s : String) : LogLevel :=
  let l := rustToLowercase s
  if l = "error" then .error
  else if l = "warn" then .warn
  else if l = "info" then .info
  else if l = "debug" then .debug
  else if l = "trace" then .trace
  else .info

/-- Where a log message ends up: the installed handler, or the `eprintln`
fallback. -/
inductive LogSink where
  | handler (level : LogLevel) (message : String)
  | stderr (level : LogLevel) (message : String)
deriving DecidableEq, Repr

/-- `HostState::log`: convert the level string and deliver the message,
to the installed handler if there is one and to standard error
otherwise. -/
def hostLog (hasHandler : Bool) (level message : String) : LogSink :=
  let logLevel := LogLevel.fromStr level
  if hasHandler then .handler logLevel message else .stderr logLevel message

/-! ## The stream bridge (`stream.rs`)

`OutputStream::write` (lines 68-74) parses every written byte chunk with
`serde_json::from_slice::<Req>` and `.expect(..)`s the result; the model
records the three conceivable outcomes so that the spec's claimed
`LastOperationFailed` return can be stated.  There is no internal line
buffer in the source. -/

inductive StreamWriteOutcome (α : Type) where
  | ok (delivered : α)
  | lastOperationFailed (err : String)
  | panicked (msg : String)

/-- `OutputStream::write`, generic over the message parse
(`Req: Deserialize`): deliver the parsed message on the channel, or panic
via `.expect("Failed to parse message")`. -/
def streamWrite {α : Type} (parse : String → Option α) (bytes : String) :
    StreamWriteOutcome α :=
  match parse bytes with
  | Option.some msg => .ok msg
  | Option.none => .panicked "Failed to parse message"

/-- The bridge message type (`utils/src/types/proto/backend.rs`):
`Msg { id: Uuid, command: String, data: Value }`. -/
structure Msg where
  id : String
  command : String
  data : Json

/-- Hyphen-grouped hexadecimal UUID shape (`uuid::Uuid`'s serde form). -/
def isUuidChars : List Char → List Nat → Bool
  | cs, [] => cs = []
  | cs, g :: gs =>
    match cs, g with
    | c :: rest, n + 1 => isHexChar c && isUuidChars rest (n :: gs)
    | c :: rest, 0 =>
      match gs with
      | _ :: _ => c = minusC && isUuidChars rest gs
      | [] => false
    | [], 0 => gs = []
    | [], _ + 1 => false

def isUuidStr (s : String) : Bool := isUuidChars s.data [8, 4, 4, 4, 12]

/-- Serde decoding of `Msg` from JSON. -/
def decodeMsg (j : Json) : Option Msg :=
  match j with
  | .obj o =>
    match o.find "id", o.find "command", o.find "data" with
    | Option.some (.str id), Option.some (.str command), Option.some data =>
      if isUuidStr id then Option.some ⟨id, command, data⟩ else Option.none
    | _, _, _ => Option.none
  | _ => Option.none

/-- `serde_json::from_slice::<Msg>` on a byte chunk (the chunks are UTF-8
text; the model works on the decoded characters). -/
def parseMsg (s : String) : Option Msg :=
  match jsonFromStr s with
  | Option.some j => decodeMsg j
  | Option.none => Option.none

/-! ## Storage-proxy parameter substitution
(`database_driver_wasi/src/sql.rs`, `ProxyDb::do_execute` lines 73-154)

The source parses the SQL text with the external `sqlparser` crate and
rewrites the parsed AST; the model works on the parsed shape directly.
`SeaValue` is `sea_orm::Value` restricted to the variants the claims
mention plus a stand-in for every other variant (all of which fall into the
source's `todo!()` arm); `SqlValue`/`SqlExpr`/`InsertStmt` are the
`sqlparser` AST nodes involved.  A `todo!()` panic is modelled as
`Option.none`. -/

inductive SeaValue where
  | string (v : Option String)
  | bigInt (v : Option Int)
  | bytes (v : Option (List Nat))
  | bool (v : Option Bool)
deriving DecidableEq, Repr

inductive SqlValue where
  | number (s : String) (long : Bool)
  | singleQuotedString (s : String)
  | hexStringLiteral (s : String)
  | placeholder (s : String)
deriving DecidableEq, Repr

inductive SqlExpr where
  | value (v : SqlValue)
  | otherExpr
deriving DecidableEq, Repr

structure InsertStmt where
  columns : List String
  columnQuote : Option Char
  valuesRows : List (List SqlExpr)
deriving DecidableEq, Repr

inductive SqlStatement where
  | insert (stmt : InsertStmt)
  | otherStatement
deriving DecidableEq, Repr

/-- The literal a bound value is rewritten to: strings become
single-quoted literals (`None` becomes the empty string), big integers
become bare decimal `Number` literals (`None` becomes `0`); every other
`sea_orm::Value` variant hits `todo!()`. -/
def seaValueToSqlValue : SeaValue → Option SqlValue
  | .string v => Option.some (.singleQuotedString (v.getD ""))
  | .bigInt v => Option.some (.number (String.mk (intToChars (v.getD 0))) false)
  | _ => Option.none

/-- `obj.rows[0].iter_mut().zip(values.0.iter())`: rewrite the first
values-row pointwise; exprs beyond the bound values stay untouched; a
non-`Value` expression or an unsupported bound value panics. -/
def substituteExprs : List SqlExpr → List SeaValue → Option (List SqlExpr)
  | exprs, [] => Option.some exprs
  | [], _ => Option.some []
  | e :: es, v :: vs =>
    match e with
    | .value _ =>
      match seaValueToSqlValue v with
      | Option.some sv =>
        match substituteExprs es vs with
        | Option.some rest => Option.some (.value sv :: rest)
        | Option.none => Option.none
      | Option.none => Option.none
    | .otherExpr => Option.none

/-- The statement rewrite of `do_execute`: with bound values present, only
an `INSERT` is handled — its column identifiers get a double-quote style
and the first `VALUES` row is substituted; everything else (and a missing
`VALUES` row) panics.  With no bound values the statement passes through
unchanged. -/
def do_execute_rewrite : SqlStatement → Option (List SeaValue) → Option SqlStatement
  | st, Option.none => Option.some st
  | .insert stmt, Option.some values =>
    match stmt.valuesRows with
    | row0 :: rows =>
      match substituteExprs row0 values with
      | Option.some row0b =>
        Option.some (.insert ⟨stmt.columns, Option.some quoteC, row0b :: rows⟩)
      | Option.none => Option.none
    | [] => Option.none
  | .otherStatement, Option.some _ => Option.none

/-! ## The registry (`runtime/src/registry.rs`)

The image map is modelled as a function `String → Option Image`; `Image`
is the compiled handle, kept abstract as the bytes it was built from, and
image construction (`Image::new` / `Image::from_component`, which invoke
the external engine) is a parameter of the operational model — the
registry's behavior does not depend on it. -/

structure Image where
  binary : List Nat
deriving DecidableEq, Repr

structure Registry where
  images : String → Option Image

inductive RegistryOp where
  | registerImage (name : String) (wasmBinary : List Nat)
  | registerComponent (name : String) (componentBinary : List Nat)
  | removeImage (name : String)
  | containerOp

/-- One registry mutation (`register_image` lines 31-40,
`register_component` lines 43-56, `remove_image` lines 96-99; the container
operations do not touch the image map). -/
def Registry.step (compileModule compileComponent : List Nat → Option Image)
    (reg : Registry) : RegistryOp → Registry × Except String Unit
  | .registerImage name bin =>
    match compileModule bin with
    | Option.some image =>
      (⟨fun k => if k = name then Option.some image else reg.images k⟩, .ok ())
    | Option.none => (reg, .error ("Failed to create image " ++ name))
  | .registerComponent name bin =>
    match compileComponent bin with
    | Option.some image =>
      (⟨fun k => if k = name then Option.some image else reg.images k⟩, .ok ())
    | Option.none => (reg, .error ("Failed to create component image " ++ name))
  | .removeImage name =>
    (⟨fun k => if k = name then Option.none else reg.images k⟩, .ok ())
  | .containerOp => (reg, .ok ())

/-- `get_image`: lock, look up, clone. -/
def Registry.get_image (reg : Registry) (name : String) : Option Image := reg.images name

/-- Run a sequence of registry operations. -/
def Registry.runOps (compileModule compileComponent : List Nat → Option Image)
    (reg : Registry) : List RegistryOp → Registry
  | [] => reg
  | op :: ops =>
    Registry.runOps compileModule compileComponent
      (Registry.step compileModule compileComponent reg op).1 ops

/-- An operation sequence never removes image `name`. -/
def noRemoveOf (name : String) : List RegistryOp → Bool
  | [] => true
  | .removeImage n :: ops => decide (n ≠ name) && noRemoveOf name ops
  | _ :: ops => noRemoveOf name ops

/-! ## The host import registry
(`runtime/src/dynamic/host_imports.rs`)

The `HashMap<String, HostImport>` is modelled as an association list with
replace-on-insert; handlers take and return `Vec<Val>` and may fail. -/

structure HostImport where
  name : String
  params : List Ty
  results : List Ty
  handler : List Val → Except String (List Val)

structure HostImportRegistry where
  imports : List (String × HostImport)

def assocFind : List (String × HostImport) → String → Option HostImport
  | [], _ => Option.none
  | (k, v) :: rest, name => if k = name then Option.some v else assocFind rest name

def assocInsert : List (String × HostImport) → String → HostImport →
    List (String × HostImport)
  | [], name, imp => [(name, imp)]
  | (k, v) :: rest, name, imp =>
    if k = name then (name, imp) :: rest else (k, v) :: assocInsert rest name imp

/-- `HostImportRegistry::register` (lines 24-40): build the descriptor and
insert it, replacing any previous entry of the same name. -/
def HostImportRegistry.register (reg : HostImportRegistry) (name : String)
    (params results : List Ty) (handler : List Val → Except String (List Val)) :
    HostImportRegistry :=
  ⟨assocInsert reg.imports name ⟨name, params, results, handler⟩⟩

/-- `HostImportRegistry::call` (lines 43-50): look the import up by name —
a miss is the not-found error — and run its handler on the arguments,
surfacing the handler's own result unchanged.  `call` takes the registry
immutably; the model returns no registry, reflecting that the contents are
unchanged. -/
def HostImportRegistry.call (reg : HostImportRegistry) (name : String)
    (args : List Val) : Except String (List Val) :=
  match assocFind reg.imports name with
  | Option.some imp => imp.handler args
  | Option.none => .error ("Host import not found: " ++ name)

/-! ## Proof-support predicates

Side conditions used by the parsing lemmas: what may legally follow a
rendered token. -/

/-- The remainder does not start with a decimal digit. -/
def nonDigitStart : List Char → Bool
  | [] => true
  | c :: _ => !isDigitChar c

/-- The remainder does not start with a hexadecimal digit. -/
def nonHexStart : List Char → Bool
  | [] => true
  | c :: _ => !isHexChar c

/-- The remainder does not start with an identifier character. -/
def identHeadFree : List Char → Bool
  | [] => true
  | c :: _ => !identChar c

/-- What may follow a complete rendered value: end of input or a closing
delimiter / separator of the enclosing construct. -/
def delimOk : List Char → Prop
  | [] => True
  | c :: _ => c = commaC ∨ c = rbrackC ∨ c = rparenC ∨ c = rbraceC

instance : DecidablePred delimOk := fun l =>
  match l with
  | [] => inferInstanceAs (Decidable True)
  | _ :: _ => inferInstanceAs (Decidable (_ ∨ _ ∨ _ ∨ _))

/-- Every field of `fs` is found (with its serialized value) by a map
lookup in `m` — the invariant that drives the record round-trip. -/
def FieldsFoundIn (m : RonMap) : ValFields → Prop
  | .nil => True
  | .cons k v rest => RonMap.findStr m k = Option.some (ronOf v) ∧ FieldsFoundIn m rest



/-- A rendered value starts with a character that is neither whitespace nor
one of the closing/separating delimiters, so the surrounding parser neither
skips nor misreads it. -/
def goodValueStart : List Char → Prop
  | [] => False
  | c :: _ =>
    isWsChar c = false ∧ c ≠ commaC ∧ c ≠ rbrackC ∧ c ≠ rparenC ∧ c ≠ rbraceC ∧ c ≠ colonC

/-- The map value `ronOf` places under a variant case name: the payload's
parse, or `Unit` for a payload-free case. -/
def ronPayload : ValOpt → RonValue
  | .none => .unit
  | .some v => ronOf v

/-- What may follow a complete rendered JSON value: end of input or a closing
delimiter / separator of the enclosing construct. -/
def jsonDelimOk : List Char → Prop
  | [] => True
  | c :: _ => c = commaC ∨ c = rbrackC ∨ c = rbraceC

instance : DecidablePred jsonDelimOk := fun l =>
  match l with
  | [] => inferInstanceAs (Decidable True)
  | _ :: _ => inferInstanceAs (Decidable (_ ∨ _ ∨ _))

/-! ### Character and digit basics -/

theorem charOfNat_toNat {n : Nat} (h : n < 55296) : (Char.ofNat n).toNat = n := by
  unfold Char.ofNat
  split
  · rfl
  · rename_i h2
    exact absurd (Or.inl h) h2

theorem char_ne_of_toNat_ne {c d : Char} (h : c.toNat ≠ d.toNat) : c ≠ d := by
  intro hcd
  exact h (congrArg Char.toNat hcd)

theorem digitChar_toNat {d : Nat} (h : d < 10) : (digitChar d).toNat = 48 + d := by
  have : 48 + d < 55296 := by omega
  simpa [digitChar] using charOfNat_toNat this

theorem isDigitChar_digitChar {d : Nat} (h : d < 10) : isDigitChar (digitChar d) = true := by
  simp [isDigitChar, digitChar_toNat h]
  omega

theorem digitVal_digitChar {d : Nat} (h : d < 10) : digitVal (digitChar d) = d := by
  simp [digitVal, digitChar_toNat h]

theorem hexDigitChar_toNat {d : Nat} (h : d < 16) : (hexDigitChar d).toNat =
    if d < 10 then 48 + d else 87 + d := by
  by_cases h10 : d < 10 <;> simp [hexDigitChar, h10]
  · exact charOfNat_toNat (by omega)
  · exact charOfNat_toNat (by omega)

theorem isHexChar_hexDigitChar {d : Nat} (h : d < 16) : isHexChar (hexDigitChar d) = true := by
  by_cases h10 : d < 10 <;> simp [isHexChar, hexDigitChar_toNat h, h10] <;> omega

theorem hexVal_hexDigitChar {d : Nat} (h : d < 16) : hexVal (hexDigitChar d) = d := by
  by_cases h10 : d < 10 <;> simp [hexVal, hexDigitChar_toNat h, h10] <;> omega

/-! ### Decimal rendering parses back -/

theorem natToCharsAux_acc : ∀ fuel n acc, natToCharsAux fuel n acc = natToCharsAux fuel n [] ++ acc := by
  intro fuel
  induction fuel with
  | zero => intro n acc; simp [natToCharsAux]
  | succ f ih =>
    intro n acc
    by_cases h : n < 10
    · simp [natToCharsAux, h]
    · simp only [natToCharsAux, if_neg h]
      rw [ih (n / 10) (digitChar (n % 10) :: acc), ih (n / 10) [digitChar (n % 10)]]
      simp

theorem natToCharsAux_digits : ∀ fuel n c, c ∈ natToCharsAux fuel n [] → isDigitChar c = true := by
  intro fuel
  induction fuel with
  | zero => intro n c hc; simp [natToCharsAux] at hc
  | succ f ih =>
    intro n c hc
    by_cases h : n < 10
    · simp [natToCharsAux, h] at hc
      subst hc
      exact isDigitChar_digitChar h
    · simp only [natToCharsAux, if_neg h] at hc
      rw [natToCharsAux_acc] at hc
      rcases List.mem_append.1 hc with h1 | h1
      · exact ih _ _ h1
      · simp at h1
        subst h1
        exact isDigitChar_digitChar (Nat.mod_lt _ (by omega))

theorem natToChars_digits {n : Nat} {c : Char} (hc : c ∈ natToChars n) : isDigitChar c = true :=
  natToCharsAux_digits _ _ _ hc

theorem natToCharsAux_ne_nil (f n : Nat) : natToCharsAux (f + 1) n [] ≠ [] := by
  by_cases h : n < 10
  · simp [natToCharsAux, h]
  · simp only [natToCharsAux, if_neg h]
    rw [natToCharsAux_acc]
    simp

theorem natToChars_ne_nil (n : Nat) : natToChars n ≠ [] := natToCharsAux_ne_nil _ _

theorem readDigits_stop {rest : List Char} (h : nonDigitStart rest = true) (acc : Nat) :
    readDigits rest acc = (acc, rest) := by
  cases rest with
  | nil => simp [readDigits]
  | cons c cs =>
    simp [nonDigitStart] at h
    simp [readDigits, h]

theorem readDigits_run : ∀ fuel n rest acc, n < 10 ^ fuel →
    ∃ k, readDigits (natToCharsAux fuel n [] ++ rest) acc = readDigits rest (acc * 10 ^ k + n) := by
  intro fuel
  induction fuel with
  | zero =>
    intro n rest acc h
    refine ⟨0, ?_⟩
    have hn : n = 0 := by omega
    subst hn
    simp [natToCharsAux]
  | succ f ih =>
    intro n rest acc h
    by_cases h10 : n < 10
    · refine ⟨1, ?_⟩
      simp [natToCharsAux, h10, readDigits, isDigitChar_digitChar h10, digitVal_digitChar h10]
      ring_nf
    · simp only [natToCharsAux, if_neg h10]
      rw [natToCharsAux_acc]
      have hassoc : (natToCharsAux f (n / 10) [] ++ [digitChar (n % 10)]) ++ rest =
          natToCharsAux f (n / 10) [] ++ digitChar (n % 10) :: rest := by
        rw [List.append_assoc]
        rfl
      rw [hassoc]
      have hdiv : n / 10 < 10 ^ f := by
        have h2 : n < 10 ^ f * 10 := by
          have := pow_succ 10 f
          omega
        exact (Nat.div_lt_iff_lt_mul (by omega)).2 h2
      obtain ⟨k, hk⟩ := ih (n / 10) (digitChar (n % 10) :: rest) acc hdiv
      refine ⟨k + 1, ?_⟩
      rw [hk]
      have hm : n % 10 < 10 := Nat.mod_lt _ (by omega)
      simp only [readDigits, isDigitChar_digitChar hm, digitVal_digitChar hm, if_pos]
      congr 1
      have heq : 10 * (acc * 10 ^ k + n / 10) + n % 10 =
          acc * (10 ^ k * 10) + (10 * (n / 10) + n % 10) := by ring
      rw [heq, Nat.div_add_mod, ← pow_succ]

theorem readDigits_natToChars {n : Nat} {rest : List Char} (h : nonDigitStart rest = true) :
    readDigits (natToChars n ++ rest) 0 = (n, rest) := by
  obtain ⟨k, hk⟩ := readDigits_run (n + 1) n rest 0 (by
    calc n < 10 ^ n := Nat.lt_pow_self (by omega) n
    _ ≤ 10 ^ (n + 1) := Nat.pow_le_pow_right (by omega) (by omega))
  rw [natToChars, hk]
  simp [readDigits_stop h]




/-! ### Hexadecimal rendering parses back -/

theorem readHexDigits_stop {rest : List Char} (h : nonHexStart rest = true) (acc : Nat) (seen : Bool) :
    readHexDigits rest acc seen = (acc, seen, rest) := by
  cases rest with
  | nil => simp [readHexDigits]
  | cons c cs =>
    simp [nonHexStart] at h
    simp [readHexDigits, h]

theorem natToHexCharsAux_acc : ∀ fuel n acc,
    natToHexCharsAux fuel n acc = natToHexCharsAux fuel n [] ++ acc := by
  intro fuel
  induction fuel with
  | zero => intro n acc; simp [natToHexCharsAux]
  | succ f ih =>
    intro n acc
    by_cases h : n < 16
    · simp [natToHexCharsAux, h]
    · simp only [natToHexCharsAux, if_neg h]
      rw [ih (n / 16) (hexDigitChar (n % 16) :: acc), ih (n / 16) [hexDigitChar (n % 16)]]
      simp

theorem readHex_run : ∀ fuel n rest acc seen, n < 16 ^ fuel → 0 < fuel →
    ∃ k, readHexDigits (natToHexCharsAux fuel n [] ++ rest) acc seen =
      readHexDigits rest (acc * 16 ^ k + n) true := by
  intro fuel
  induction fuel with
  | zero => intro n rest acc seen h hf; omega
  | succ f ih =>
    intro n rest acc seen h _
    by_cases h16 : n < 16
    · refine ⟨1, ?_⟩
      simp [natToHexCharsAux, h16, readHexDigits, isHexChar_hexDigitChar h16,
        hexVal_hexDigitChar h16]
      ring_nf
    · simp only [natToHexCharsAux, if_neg h16]
      rw [natToHexCharsAux_acc]
      have hassoc : (natToHexCharsAux f (n / 16) [] ++ [hexDigitChar (n % 16)]) ++ rest =
          natToHexCharsAux f (n / 16) [] ++ hexDigitChar (n % 16) :: rest := by
        rw [List.append_assoc]
        rfl
      rw [hassoc]
      have hdiv : n / 16 < 16 ^ f := by
        have h2 : n < 16 ^ f * 16 := by
          have := pow_succ 16 f
          omega
        exact (Nat.div_lt_iff_lt_mul (by omega)).2 h2
      have hf : 0 < f := by
        rcases Nat.eq_zero_or_pos f with h0 | h0
        · subst h0
          simp at hdiv
          omega
        · exact h0
      obtain ⟨k, hk⟩ := ih (n / 16) (hexDigitChar (n % 16) :: rest) acc seen hdiv hf
      refine ⟨k + 1, ?_⟩
      rw [hk]
      have hm : n % 16 < 16 := Nat.mod_lt _ (by omega)
      simp only [readHexDigits, isHexChar_hexDigitChar hm, hexVal_hexDigitChar hm, if_pos]
      have harg : 16 * (acc * 16 ^ k + n / 16) + n % 16 = acc * 16 ^ (k + 1) + n := by
        calc 16 * (acc * 16 ^ k + n / 16) + n % 16 =
            acc * (16 ^ k * 16) + (16 * (n / 16) + n % 16) := by ring
        _ = acc * 16 ^ (k + 1) + n := by rw [Nat.div_add_mod, ← pow_succ]
      rw [harg]

theorem readHex_natToHexChars {n : Nat} {rest : List Char} (h : nonHexStart rest = true) :
    readHexDigits (natToHexChars n ++ rest) 0 false = (n, true, rest) := by
  obtain ⟨k, hk⟩ := readHex_run (n + 1) n rest 0 false (by
    calc n < 16 ^ n := Nat.lt_pow_self (by omega) n
    _ ≤ 16 ^ (n + 1) := Nat.pow_le_pow_right (by omega) (by omega)) (by omega)
  rw [natToHexChars, hk]
  simp [readHexDigits_stop h]

/-! ### Identifier runs -/

theorem readIdent_run : ∀ cs rest, (∀ c ∈ cs, identChar c = true) → identHeadFree rest = true →
    readIdent (cs ++ rest) = (cs, rest) := by
  intro cs
  induction cs with
  | nil =>
    intro rest _ hrest
    cases rest with
    | nil => simp [readIdent]
    | cons c cs2 =>
      simp [identHeadFree] at hrest
      simp [readIdent, hrest]
  | cons c cs ih =>
    intro rest hcs hrest
    have hc : identChar c = true := hcs c (by simp)
    have ihh := ih rest (fun d hd => hcs d (by simp [hd])) hrest
    simp [readIdent, hc, ihh]

/-! ### Character class facts -/

theorem identStartChar_range {c : Char} (h : identStartChar c = true) :
    (65 ≤ c.toNat ∧ c.toNat ≤ 90) ∨ (97 ≤ c.toNat ∧ c.toNat ≤ 122) ∨ c.toNat = 95 := by
  simp [identStartChar] at h
  rcases h with h | h
  · simp [Char.isAlpha, Char.isUpper, Char.isLower] at h
    rcases h with ⟨h1, h2⟩ | ⟨h1, h2⟩
    · exact Or.inl ⟨h1, h2⟩
    · exact Or.inr (Or.inl ⟨h1, h2⟩)
  · subst h
    right; right; rfl

theorem identChar_range {c : Char} (h : identChar c = true) :
    (48 ≤ c.toNat ∧ c.toNat ≤ 57) ∨ (65 ≤ c.toNat ∧ c.toNat ≤ 90) ∨
    (97 ≤ c.toNat ∧ c.toNat ≤ 122) ∨ c.toNat = 95 ∨ c.toNat = 45 := by
  simp [identChar] at h
  rcases h with (h | h) | h
  · simp [Char.isAlphanum, Char.isAlpha, Char.isUpper, Char.isLower, Char.isDigit] at h
    rcases h with (⟨h1, h2⟩ | ⟨h1, h2⟩) | ⟨h1, h2⟩
    · exact Or.inr (Or.inl ⟨h1, h2⟩)
    · exact Or.inr (Or.inr (Or.inl ⟨h1, h2⟩))
    · exact Or.inl ⟨h1, h2⟩
  · subst h
    simp
  · subst h
    right; right; right; right; rfl

theorem identStartChar_identChar {c : Char} (h : identStartChar c = true) : identChar c = true := by
  simp [identStartChar] at h
  simp [identChar, Char.isAlphanum]
  rcases h with h | h
  · tauto
  · tauto




/-! ### Escapes parse back -/

theorem char_valid_range (c : Char) : c.toNat < 55296 ∨ (57343 < c.toNat ∧ c.toNat < 1114112) :=
  c.valid

theorem readEscape_u {n : Nat} (hval : n < 55296 ∨ (57343 < n ∧ n < 1114112)) (rest : List Char) :
    readEscape ('u' :: lbraceC :: (natToHexChars n ++ rbraceC :: rest)) =
      Option.some (Char.ofNat n, rest) := by
  have hhex := @readHex_natToHexChars n (rbraceC :: rest) (by simp +decide [nonHexStart])
  have hc1 : n < 1114112 := by omega
  have hc2 : ¬(55296 ≤ n ∧ n < 57344) := by omega
  simp +decide [readEscape, hhex, hc1, hc2]

theorem readCharBody_escape (c : Char) (rest : List Char) :
    readCharBody (escapeDefaultChar c ++ squoteC :: rest) = Option.some (c, rest) := by
  unfold escapeDefaultChar
  split_ifs with h1 h2 h3 h4 h5 h6 h7
  · subst h1; simp +decide [readCharBody, readEscape]
  · subst h2; simp +decide [readCharBody, readEscape]
  · subst h3; simp +decide [readCharBody, readEscape]
  · subst h4; simp +decide [readCharBody, readEscape]
  · subst h5; simp +decide [readCharBody, readEscape]
  · subst h6; simp +decide [readCharBody, readEscape]
  · simp +decide [readCharBody, h4]
  · have hassoc : (bslashC :: 'u' :: lbraceC :: (natToHexChars c.toNat ++ [rbraceC])) ++ squoteC :: rest =
        bslashC :: 'u' :: lbraceC :: (natToHexChars c.toNat ++ rbraceC :: squoteC :: rest) := by
      simp
    rw [hassoc]
    simp only [readCharBody, if_pos rfl]
    rw [readEscape_u (char_valid_range c) (squoteC :: rest)]
    simp [Char.ofNat_toNat]

theorem readStringBody_escape : ∀ cs fuel rest, cs.length < fuel →
    readStringBody fuel (escapeDebugStr cs ++ quoteC :: rest) = Option.some (cs, rest) := by
  intro cs
  induction cs with
  | nil =>
    intro fuel rest hf
    match fuel, hf with
    | f + 1, _ => simp [escapeDebugStr, readStringBody]
  | cons c cs ih =>
    intro fuel rest hf
    match fuel, hf with
    | f + 1, hf =>
      have hlen : cs.length < f := by simp at hf; omega
      have ihh := ih f rest hlen
      simp only [escapeDebugStr, List.append_assoc]
      unfold escapeDebugChar
      split_ifs with h1 h2 h3 h4 h5 h6
      · subst h1; simp +decide [readStringBody, readEscape, ihh]
      · subst h2; simp +decide [readStringBody, readEscape, ihh]
      · subst h3; simp +decide [readStringBody, readEscape, ihh]
      · subst h4; simp +decide [readStringBody, readEscape, ihh]
      · subst h5; simp +decide [readStringBody, readEscape, ihh]
      · have hassoc : (bslashC :: 'u' :: lbraceC :: (natToHexChars c.toNat ++ [rbraceC])) ++
            (escapeDebugStr cs ++ quoteC :: rest) =
            bslashC :: 'u' :: lbraceC ::
              (natToHexChars c.toNat ++ rbraceC :: (escapeDebugStr cs ++ quoteC :: rest)) := by
          simp
        rw [hassoc]
        simp only [readStringBody, if_neg (by decide : ¬(bslashC = quoteC)), if_pos rfl]
        rw [readEscape_u (char_valid_range c) _]
        simp [Char.ofNat_toNat, ihh]
      · simp [readStringBody, h4, h5, ihh]




/-! ### JSON escapes parse back -/

theorem readEscapeJson_u {t : Nat} (h : t < 32) (rest : List Char) :
    readEscapeJson ('u' :: '0' :: '0' :: hexDigitChar (t / 16) :: hexDigitChar (t % 16) :: rest) =
      Option.some (Char.ofNat t, rest) := by
  have hd : t / 16 < 16 := by omega
  have hm : t % 16 < 16 := by omega
  have hvd := hexVal_hexDigitChar hd
  have hvm := hexVal_hexDigitChar hm
  have hxd := isHexChar_hexDigitChar hd
  have hxm := isHexChar_hexDigitChar hm
  have harith : ((hexVal '0' * 16 + hexVal '0') * 16 + hexVal (hexDigitChar (t / 16))) * 16 +
      hexVal (hexDigitChar (t % 16)) = t := by
    rw [hvd, hvm]
    have h0 : hexVal '0' = 0 := by decide
    rw [h0]
    omega
  have hsur : ¬(55296 ≤ t ∧ t < 57344) := by omega
  simp +decide [readEscapeJson, hxd, hxm, harith, hsur]

theorem readJsonStringBody_escape : ∀ cs fuel rest, cs.length < fuel →
    readJsonStringBody fuel (escapeJsonStr cs ++ quoteC :: rest) = Option.some (cs, rest) := by
  intro cs
  induction cs with
  | nil =>
    intro fuel rest hf
    match fuel, hf with
    | f + 1, _ => simp [escapeJsonStr, readJsonStringBody]
  | cons c cs ih =>
    intro fuel rest hf
    match fuel, hf with
    | f + 1, hf =>
      have hlen : cs.length < f := by simp at hf; omega
      have ihh := ih f rest hlen
      simp only [escapeJsonStr, List.append_assoc]
      unfold escapeJsonChar
      split_ifs with h1 h2 h3 h4 h5 h6 h7 h8
      · subst h1; simp +decide [readJsonStringBody, readEscapeJson, ihh]
      · subst h2; simp +decide [readJsonStringBody, readEscapeJson, ihh]
      · subst h3; simp +decide [readJsonStringBody, readEscapeJson, ihh]
      · subst h4; simp +decide [readJsonStringBody, readEscapeJson, ihh]
      · subst h5; simp +decide [readJsonStringBody, readEscapeJson, ihh]
      · subst h6; simp +decide [readJsonStringBody, readEscapeJson, ihh]
      · subst h7; simp +decide [readJsonStringBody, readEscapeJson, ihh]
      · have hassoc : (bslashC :: 'u' :: '0' :: '0' ::
            [hexDigitChar (c.toNat / 16), hexDigitChar (c.toNat % 16)]) ++
            (escapeJsonStr cs ++ quoteC :: rest) =
            bslashC :: 'u' :: '0' :: '0' :: hexDigitChar (c.toNat / 16) ::
              hexDigitChar (c.toNat % 16) :: (escapeJsonStr cs ++ quoteC :: rest) := rfl
        rw [hassoc]
        simp only [readJsonStringBody, if_neg (by decide : ¬(bslashC = quoteC)), if_pos rfl]
        rw [readEscapeJson_u h8 _]
        simp [Char.ofNat_toNat, ihh]
      · simp [readJsonStringBody, h1, h2, ihh]

/-! ### Delimiters and whitespace -/

theorem skipWs_cons {c : Char} {cs : List Char} (h : isWsChar c = false) :
    skipWs (c :: cs) = c :: cs := by
  simp [skipWs, h]

theorem goodValueStart_skipWs {l : List Char} (h : goodValueStart l) : skipWs l = l := by
  cases l with
  | nil => rfl
  | cons c cs => exact skipWs_cons h.1

theorem delimOk_nonDigit {rest : List Char} (h : delimOk rest) : nonDigitStart rest = true := by
  cases rest with
  | nil => rfl
  | cons c cs =>
    rcases h with h | h | h | h <;> subst h <;> simp +decide [nonDigitStart]

theorem delimOk_identFree {rest : List Char} (h : delimOk rest) : identHeadFree rest = true := by
  cases rest with
  | nil => rfl
  | cons c cs =>
    rcases h with h | h | h | h <;> subst h <;> simp +decide [identHeadFree]

theorem delimOk_skipWs {rest : List Char} (h : delimOk rest) : skipWs rest = rest := by
  cases rest with
  | nil => rfl
  | cons c cs =>
    rcases h with h | h | h | h <;> subst h <;> exact skipWs_cons (by decide)

/-! ### Integer literals parse back -/

theorem parseNumberTail_nat (neg : Bool) (n : Nat) {rest : List Char} (h : delimOk rest) :
    parseNumberTail neg (natToChars n ++ rest) =
      Option.some (.int (if neg then -(n : Int) else (n : Int)), rest) := by
  unfold parseNumberTail
  rw [readDigits_natToChars (delimOk_nonDigit h)]
  cases rest with
  | nil => simp [parseNumberTail.mkInt]
  | cons d ds =>
    have hd1 : ¬(d = Char.ofNat 46) := by
      rcases h with h | h | h | h <;> subst h <;> decide
    have hd2 : ¬(d = 'e' ∨ d = 'E') := by
      rcases h with h | h | h | h <;> subst h <;> decide
    simp [hd1, hd2, parseNumberTail.mkInt]

theorem parseRonV_digitHead (f : Nat) {c : Char} (cs : List Char) (h : isDigitChar c = true) :
    parseRonV (f + 1) (c :: cs) =
      match parseNumberTail false (c :: cs) with
      | Option.some (n, rest) => Option.some (.number n, rest)
      | Option.none => Option.none := by
  have hr : 48 ≤ c.toNat ∧ c.toNat ≤ 57 := by simpa [isDigitChar] using h
  have e1 : (c = lbrackC) = False :=
    eq_false (char_ne_of_toNat_ne (by rw [(by decide : Char.toNat lbrackC = 91)]; omega))
  have e2 : (c = lparenC) = False :=
    eq_false (char_ne_of_toNat_ne (by rw [(by decide : Char.toNat lparenC = 40)]; omega))
  have e3 : (c = lbraceC) = False :=
    eq_false (char_ne_of_toNat_ne (by rw [(by decide : Char.toNat lbraceC = 123)]; omega))
  have e4 : (c = quoteC) = False :=
    eq_false (char_ne_of_toNat_ne (by rw [(by decide : Char.toNat quoteC = 34)]; omega))
  have e5 : (c = squoteC) = False :=
    eq_false (char_ne_of_toNat_ne (by rw [(by decide : Char.toNat squoteC = 39)]; omega))
  simp only [parseRonV, e1, e2, e3, e4, e5, h, if_false, if_true]

theorem intToChars_parse (n : Int) {rest : List Char} (h : delimOk rest) (f : Nat) :
    parseRonV (f + 1) (intToChars n ++ rest) = Option.some (.number (.int n), rest) := by
  by_cases hneg : n < 0
  · have hstep : intToChars n ++ rest = minusC :: (natToChars n.natAbs ++ rest) := by
      simp [intToChars, hneg, minusC]
    rw [hstep]
    obtain ⟨c, cs, hcs, hdig⟩ : ∃ c cs, natToChars n.natAbs ++ rest = c :: cs ∧
        isDigitChar c = true := by
      cases hnc : natToChars n.natAbs with
      | nil => exact absurd hnc (natToChars_ne_nil _)
      | cons c cs =>
        refine ⟨c, cs ++ rest, by simp, natToChars_digits (by rw [hnc]; simp)⟩
    have hmain : parseRonV (f + 1) (minusC :: (natToChars n.natAbs ++ rest)) =
        match parseNumberTail true (natToChars n.natAbs ++ rest) with
        | Option.some (m, rest2) => Option.some (.number m, rest2)
        | Option.none => Option.none := by
      simp only [parseRonV]
      rw [if_neg (by decide : ¬(minusC = lbrackC)), if_neg (by decide : ¬(minusC = lparenC)),
        if_neg (by decide : ¬(minusC = lbraceC)), if_neg (by decide : ¬(minusC = quoteC)),
        if_neg (by decide : ¬(minusC = squoteC)),
        if_neg (by simp +decide [isDigitChar] : ¬(isDigitChar minusC = true)),
        if_pos trivial]
      rw [hcs]
      simp [hdig]
    rw [hmain, parseNumberTail_nat true n.natAbs h]
    have habs : (n.natAbs : Int) = -n := by omega
    simp only [habs, if_true, neg_neg]
  · have hstep : intToChars n ++ rest = natToChars n.natAbs ++ rest := by
      simp [intToChars, hneg]
    rw [hstep]
    obtain ⟨c, cs, hcs, hdig⟩ : ∃ c cs, natToChars n.natAbs = c :: cs ∧ isDigitChar c = true := by
      cases hnc : natToChars n.natAbs with
      | nil => exact absurd hnc (natToChars_ne_nil _)
      | cons c cs => exact ⟨c, cs, rfl, natToChars_digits (by rw [hnc]; simp)⟩
    rw [hcs, List.cons_append, parseRonV_digitHead f _ hdig, ← List.cons_append, ← hcs,
      parseNumberTail_nat false n.natAbs h]
    have habs : (n.natAbs : Int) = n := by omega
    simp [habs]

/-! ### Floats parse back -/

theorem parseExponent_intToChars (e : Int) {rest : List Char} (h : delimOk rest) :
    parseNumberTail.parseExponent (intToChars e ++ rest) = Option.some (e, rest) := by
  by_cases hneg : e < 0
  · have hstep : intToChars e ++ rest = minusC :: (natToChars e.natAbs ++ rest) := by
      simp [intToChars, hneg, minusC]
    rw [hstep]
    simp only [parseNumberTail.parseExponent, eq_self_iff_true, if_true,
      readDigits_natToChars (delimOk_nonDigit h)]
    have habs : (e.natAbs : Int) = -e := by omega
    simp [habs]
  · obtain ⟨c, cs, hcs, hdig⟩ : ∃ c cs, natToChars e.natAbs = c :: cs ∧
        isDigitChar c = true := by
      cases hnc : natToChars e.natAbs with
      | nil => exact absurd hnc (natToChars_ne_nil _)
      | cons c cs => exact ⟨c, cs, rfl, natToChars_digits (by rw [hnc]; simp)⟩
    have hstep : intToChars e ++ rest = c :: (cs ++ rest) := by
      simp [intToChars, hneg, hcs]
    have hcm : (c = minusC) = False := by
      have hr : 48 ≤ c.toNat ∧ c.toNat ≤ 57 := by simpa [isDigitChar] using hdig
      exact eq_false (char_ne_of_toNat_ne (by rw [(by decide : Char.toNat minusC = 45)]; omega))
    have hrd : readDigits (c :: (cs ++ rest)) 0 = (e.natAbs, rest) := by
      have h2 := @readDigits_natToChars e.natAbs rest (delimOk_nonDigit h)
      rw [hcs] at h2
      simpa using h2
    rw [hstep]
    simp only [parseNumberTail.parseExponent, hcm, if_false, hrd]
    have habs : (e.natAbs : Int) = e := by omega
    simp [habs]

theorem parseNumberTail_float (neg : Bool) (n : Nat) (ex : Int) {rest : List Char}
    (h : delimOk rest) :
    parseNumberTail neg (natToChars n ++ 'e' :: (intToChars ex ++ rest)) =
      Option.some (.float (.finite (if neg then -(n : Int) else (n : Int)) ex), rest) := by
  unfold parseNumberTail
  rw [@readDigits_natToChars n ('e' :: (intToChars ex ++ rest)) rfl]
  have hee : 'e' = 'e' ∨ 'e' = 'E' := Or.inl rfl
  simp only [if_neg (by decide : ¬('e' = Char.ofNat 46)), if_pos hee,
    parseExponent_intToChars ex h, parseNumberTail.mkFloat]
  norm_num

theorem fpExpChars_finite_parse (m ex : Int) {rest : List Char} (h : delimOk rest) (f : Nat) :
    parseRonV (f + 1) (fpExpChars (.finite m ex) ++ rest) =
      Option.some (.number (.float (.finite m ex)), rest) := by
  have hassoc : fpExpChars (.finite m ex) ++ rest =
      intToChars m ++ ('e' :: (intToChars ex ++ rest)) := by
    simp [fpExpChars]
  rw [hassoc]
  by_cases hneg : m < 0
  · have hstep : intToChars m ++ ('e' :: (intToChars ex ++ rest)) =
        minusC :: (natToChars m.natAbs ++ ('e' :: (intToChars ex ++ rest))) := by
      simp [intToChars, hneg, minusC]
    rw [hstep]
    obtain ⟨c, cs, hcs, hdig⟩ : ∃ c cs, natToChars m.natAbs = c :: cs ∧
        isDigitChar c = true := by
      cases hnc : natToChars m.natAbs with
      | nil => exact absurd hnc (natToChars_ne_nil _)
      | cons c cs => exact ⟨c, cs, rfl, natToChars_digits (by rw [hnc]; simp)⟩
    have hmain : parseRonV (f + 1)
        (minusC :: (natToChars m.natAbs ++ ('e' :: (intToChars ex ++ rest)))) =
        match parseNumberTail true (natToChars m.natAbs ++ ('e' :: (intToChars ex ++ rest))) with
        | Option.some (q, rest2) => Option.some (.number q, rest2)
        | Option.none => Option.none := by
      simp only [parseRonV]
      rw [if_neg (by decide : ¬(minusC = lbrackC)), if_neg (by decide : ¬(minusC = lparenC)),
        if_neg (by decide : ¬(minusC = lbraceC)), if_neg (by decide : ¬(minusC = quoteC)),
        if_neg (by decide : ¬(minusC = squoteC)),
        if_neg (by simp +decide [isDigitChar] : ¬(isDigitChar minusC = true)),
        if_pos trivial]
      rw [hcs]
      simp [hdig]
    rw [hmain, parseNumberTail_float true m.natAbs ex h]
    have habs : (m.natAbs : Int) = -m := by omega
    simp [habs]
  · have hstep : intToChars m ++ ('e' :: (intToChars ex ++ rest)) =
        natToChars m.natAbs ++ ('e' :: (intToChars ex ++ rest)) := by
      simp [intToChars, hneg]
    rw [hstep]
    obtain ⟨c, cs, hcs, hdig⟩ : ∃ c cs, natToChars m.natAbs = c :: cs ∧
        isDigitChar c = true := by
      cases hnc : natToChars m.natAbs with
      | nil => exact absurd hnc (natToChars_ne_nil _)
      | cons c cs => exact ⟨c, cs, rfl, natToChars_digits (by rw [hnc]; simp)⟩
    rw [hcs, List.cons_append, parseRonV_digitHead f _ hdig, ← List.cons_append, ← hcs,
      parseNumberTail_float false m.natAbs ex h]
    have habs : (m.natAbs : Int) = m := by omega
    simp [habs]

theorem parseRonV_inf (f : Nat) {rest : List Char} (hrest : identHeadFree rest = true) :
    parseRonV (f + 1) ("inf".data ++ rest) =
      Option.some (.number (.float .posInf), rest) := by
  have hsplit : "inf".data ++ rest = 'i' :: 'n' :: 'f' :: rest := rfl
  rw [hsplit]
  have hri : readIdent ('i' :: 'n' :: 'f' :: rest) = (['i', 'n', 'f'], rest) := by
    simpa using readIdent_run ['i', 'n', 'f'] rest (by decide) hrest
  simp +decide [parseRonV, hri]

theorem parseRonV_NaN (f : Nat) {rest : List Char} (hrest : identHeadFree rest = true) :
    parseRonV (f + 1) ("NaN".data ++ rest) =
      Option.some (.number (.float .nan), rest) := by
  have hsplit : "NaN".data ++ rest = 'N' :: 'a' :: 'N' :: rest := rfl
  rw [hsplit]
  have hri : readIdent ('N' :: 'a' :: 'N' :: rest) = (['N', 'a', 'N'], rest) := by
    simpa using readIdent_run ['N', 'a', 'N'] rest (by decide) hrest
  simp +decide [parseRonV, hri]

theorem parseRonV_negInf (f : Nat) {rest : List Char} (hrest : identHeadFree rest = true) :
    parseRonV (f + 1) (minusC :: ('i' :: 'n' :: 'f' :: rest)) =
      Option.some (.number (.float .negInf), rest) := by
  have hri : readIdent ('i' :: 'n' :: 'f' :: rest) = (['i', 'n', 'f'], rest) := by
    simpa using readIdent_run ['i', 'n', 'f'] rest (by decide) hrest
  simp +decide [parseRonV, hri]

theorem fpExpChars_parse (x : Fp) {rest : List Char} (h : delimOk rest) (f : Nat) :
    parseRonV (f + 1) (fpExpChars x ++ rest) =
      Option.some (.number (.float x), rest) := by
  cases x with
  | posInf => exact parseRonV_inf f (delimOk_identFree h)
  | negInf =>
    have hsplit : fpExpChars Fp.negInf ++ rest = minusC :: ('i' :: 'n' :: 'f' :: rest) := rfl
    rw [hsplit]
    exact parseRonV_negInf f (delimOk_identFree h)
  | nan => exact parseRonV_NaN f (delimOk_identFree h)
  | finite m ex => exact fpExpChars_finite_parse m ex h f

/-! ### Render head classification -/

theorem goodValueStart_of_range {c : Char} (cs : List Char)
    (h1 : 33 ≤ c.toNat) (h2 : c.toNat ≠ 44) (h3 : c.toNat ≠ 93) (h4 : c.toNat ≠ 41)
    (h5 : c.toNat ≠ 125) (h6 : c.toNat ≠ 58) : goodValueStart (c :: cs) := by
  have w1 : ¬(c = spaceC) := char_ne_of_toNat_ne (by rw [(by decide : Char.toNat spaceC = 32)]; omega)
  have w2 : ¬(c = tabC) := char_ne_of_toNat_ne (by rw [(by decide : Char.toNat tabC = 9)]; omega)
  have w3 : ¬(c = lfC) := char_ne_of_toNat_ne (by rw [(by decide : Char.toNat lfC = 10)]; omega)
  have w4 : ¬(c = crC) := char_ne_of_toNat_ne (by rw [(by decide : Char.toNat crC = 13)]; omega)
  refine ⟨by simp [isWsChar, w1, w2, w3, w4], ?_, ?_, ?_, ?_, ?_⟩
  · exact char_ne_of_toNat_ne (by rw [(by decide : Char.toNat commaC = 44)]; omega)
  · exact char_ne_of_toNat_ne (by rw [(by decide : Char.toNat rbrackC = 93)]; omega)
  · exact char_ne_of_toNat_ne (by rw [(by decide : Char.toNat rparenC = 41)]; omega)
  · exact char_ne_of_toNat_ne (by rw [(by decide : Char.toNat rbraceC = 125)]; omega)
  · exact char_ne_of_toNat_ne (by rw [(by decide : Char.toNat colonC = 58)]; omega)

theorem digit_goodValueStart {c : Char} (cs : List Char) (h : isDigitChar c = true) :
    goodValueStart (c :: cs) := by
  have hr : 48 ≤ c.toNat ∧ c.toNat ≤ 57 := by simpa [isDigitChar] using h
  exact goodValueStart_of_range cs (by omega) (by omega) (by omega) (by omega) (by omega) (by omega)

theorem identStart_goodValueStart {c : Char} (cs : List Char) (h : identStartChar c = true) :
    goodValueStart (c :: cs) := by
  have hr := identStartChar_range h
  exact goodValueStart_of_range cs (by omega) (by omega) (by omega) (by omega) (by omega) (by omega)

theorem natToChars_goodValueStart (n : Nat) (rest : List Char) :
    goodValueStart (natToChars n ++ rest) := by
  cases hnc : natToChars n with
  | nil => exact absurd hnc (natToChars_ne_nil _)
  | cons c cs =>
    have hdig : isDigitChar c = true := natToChars_digits (by rw [hnc]; simp)
    simpa using digit_goodValueStart (cs ++ rest) hdig

theorem intToChars_goodValueStart (n : Int) (rest : List Char) :
    goodValueStart (intToChars n ++ rest) := by
  by_cases hneg : n < 0
  · have hstep : intToChars n ++ rest = minusC :: (natToChars n.natAbs ++ rest) := by
      simp [intToChars, hneg, minusC]
    rw [hstep]
    exact goodValueStart_of_range _ (by decide) (by decide) (by decide) (by decide)
      (by decide) (by decide)
  · have hstep : intToChars n ++ rest = natToChars n.natAbs ++ rest := by
      simp [intToChars, hneg]
    rw [hstep]
    exact natToChars_goodValueStart _ _

theorem fpExpChars_goodValueStart (x : Fp) (rest : List Char) :
    goodValueStart (fpExpChars x ++ rest) := by
  cases x with
  | posInf =>
    exact goodValueStart_of_range _ (by decide) (by decide) (by decide) (by decide)
      (by decide) (by decide)
  | negInf =>
    exact goodValueStart_of_range _ (by decide) (by decide) (by decide) (by decide)
      (by decide) (by decide)
  | nan =>
    exact goodValueStart_of_range _ (by decide) (by decide) (by decide) (by decide)
      (by decide) (by decide)
  | finite m ex =>
    have hassoc : fpExpChars (.finite m ex) ++ rest =
        intToChars m ++ ('e' :: (intToChars ex ++ rest)) := by
      simp [fpExpChars]
    rw [hassoc]
    exact intToChars_goodValueStart m _

theorem identOkStr_parts {s : String} (h : identOkStr s = true) :
    ∃ c cs, s.data = c :: cs ∧ identStartChar c = true ∧ ∀ d ∈ s.data, identChar d = true := by
  unfold identOkStr at h
  cases hd : s.data with
  | nil => rw [hd] at h; simp at h
  | cons c cs =>
    rw [hd] at h
    simp at h
    refine ⟨c, cs, rfl, h.1, ?_⟩
    intro d hd2
    rcases List.mem_cons.1 hd2 with h2 | h2
    · subst h2; exact identStartChar_identChar h.1
    · exact h.2 d h2

theorem goodValueStart_cons {l : List Char} (h : goodValueStart l) :
    ∃ c cs, l = c :: cs := by
  cases l with
  | nil => exact absurd h (by simp [goodValueStart])
  | cons c cs => exact ⟨c, cs, rfl⟩

theorem valToRonChars_start (v : Val) (h : valWF v = true) (rest : List Char) :
    goodValueStart (valToRonChars v ++ rest) := by
  cases v with
  | bool b =>
    cases b
    · exact goodValueStart_of_range _ (by decide) (by decide) (by decide) (by decide)
        (by decide) (by decide)
    · exact goodValueStart_of_range _ (by decide) (by decide) (by decide) (by decide)
        (by decide) (by decide)
  | u8 n => exact natToChars_goodValueStart n rest
  | u16 n => exact natToChars_goodValueStart n rest
  | u32 n => exact natToChars_goodValueStart n rest
  | u64 n => exact natToChars_goodValueStart n rest
  | s8 n => exact intToChars_goodValueStart n rest
  | s16 n => exact intToChars_goodValueStart n rest
  | s32 n => exact intToChars_goodValueStart n rest
  | s64 n => exact intToChars_goodValueStart n rest
  | float32 x => exact fpExpChars_goodValueStart x rest
  | float64 x => exact fpExpChars_goodValueStart x rest
  | char c =>
    exact goodValueStart_of_range _ (by decide) (by decide) (by decide) (by decide)
      (by decide) (by decide)
  | str s =>
    exact goodValueStart_of_range _ (by decide) (by decide) (by decide) (by decide)
      (by decide) (by decide)
  | list items =>
    exact goodValueStart_of_range _ (by decide) (by decide) (by decide) (by decide)
      (by decide) (by decide)
  | tuple items =>
    exact goodValueStart_of_range _ (by decide) (by decide) (by decide) (by decide)
      (by decide) (by decide)
  | record fields =>
    exact goodValueStart_of_range _ (by decide) (by decide) (by decide) (by decide)
      (by decide) (by decide)
  | variant case payload =>
    have hok : identOkStr case = true := by
      simp [valWF] at h
      exact h.1.1
    obtain ⟨c, cs, hdata, hstart, _⟩ := identOkStr_parts hok
    cases payload with
    | some w =>
      have hsplit : valToRonChars (.variant case (.some w)) ++ rest =
          c :: (cs ++ (lparenC :: (valToRonChars w ++ [rparenC])) ++ rest) := by
        simp [valToRonChars, hdata]
      rw [hsplit]
      exact identStart_goodValueStart _ hstart
    | none =>
      have hsplit : valToRonChars (.variant case .none) ++ rest = c :: (cs ++ rest) := by
        simp [valToRonChars, hdata]
      rw [hsplit]
      exact identStart_goodValueStart _ hstart
  | result r =>
    rcases r with p | p <;> rcases p with _ | w <;>
      exact goodValueStart_of_range _ (by decide) (by decide) (by decide) (by decide)
        (by decide) (by decide)
  | option o =>
    rcases o with _ | w <;>
      exact goodValueStart_of_range _ (by decide) (by decide) (by decide) (by decide)
        (by decide) (by decide)




/-! ### Parser dispatch on the head character -/

theorem natToChars_parse (n : Nat) {rest : List Char} (h : delimOk rest) (f : Nat) :
    parseRonV (f + 1) (natToChars n ++ rest) = Option.some (.number (.int n), rest) := by
  have hi := intToChars_parse (n : Int) h f
  have heq : intToChars (n : Int) = natToChars n := by
    simp [intToChars]
  rwa [heq] at hi

theorem parseRonV_string_head (f : Nat) (cs : List Char) {rest : List Char} (hf : cs.length < f) :
    parseRonV (f + 1) (quoteC :: (escapeDebugStr cs ++ quoteC :: rest)) =
      Option.some (.str (String.mk cs), rest) := by
  have e1 : (quoteC = lbrackC) = False := eq_false (by decide)
  have e2 : (quoteC = lparenC) = False := eq_false (by decide)
  have e3 : (quoteC = lbraceC) = False := eq_false (by decide)
  simp only [parseRonV, e1, e2, e3, eq_self_iff_true, if_false, if_true]
  rw [readStringBody_escape cs f rest hf]

theorem parseRonV_char_head (f : Nat) (c : Char) (rest : List Char) :
    parseRonV (f + 1) (squoteC :: (escapeDefaultChar c ++ squoteC :: rest)) =
      Option.some (.char c, rest) := by
  have e1 : (squoteC = lbrackC) = False := eq_false (by decide)
  have e2 : (squoteC = lparenC) = False := eq_false (by decide)
  have e3 : (squoteC = lbraceC) = False := eq_false (by decide)
  have e4 : (squoteC = quoteC) = False := eq_false (by decide)
  simp only [parseRonV, e1, e2, e3, e4, eq_self_iff_true, if_false, if_true]
  rw [readCharBody_escape c rest]

/-- Length of an escaped string body is at least the number of source
characters. -/
theorem escapeDebugStr_length (cs : List Char) : cs.length ≤ (escapeDebugStr cs).length := by
  induction cs with
  | nil => simp [escapeDebugStr]
  | cons c cs ih =>
    have hpos : 1 ≤ (escapeDebugChar c).length := by
      unfold escapeDebugChar
      split_ifs <;> simp
    simp only [escapeDebugStr, List.length_append, List.length_cons]
    omega

theorem parseRonV_identOther (f : Nat) (name : String) {rest : List Char}
    (hok : identOkStr name = true)
    (hres : reservedIdents.contains name = false)
    (hrest : identHeadFree rest = true) :
    parseRonV (f + 1) (name.data ++ rest) =
      match rest with
      | d :: ds =>
        if d = lparenC then
          match parseParenArg f (d :: ds) with
          | Option.some (v, rest2) => Option.some (.map (.cons (.str name) v .nil), rest2)
          | Option.none => Option.none
        else Option.some (.map (.cons (.str name) .unit .nil), d :: ds)
      | [] => Option.some (.map (.cons (.str name) .unit .nil), []) := by
  obtain ⟨c, cs, hdata, hstart, hall⟩ := identOkStr_parts hok
  have hsplit : name.data ++ rest = c :: (cs ++ rest) := by rw [hdata]; rfl
  rw [hsplit]
  have hr := identStartChar_range hstart
  have e1 : (c = lbrackC) = False :=
    eq_false (char_ne_of_toNat_ne (by rw [(by decide : Char.toNat lbrackC = 91)]; omega))
  have e2 : (c = lparenC) = False :=
    eq_false (char_ne_of_toNat_ne (by rw [(by decide : Char.toNat lparenC = 40)]; omega))
  have e3 : (c = lbraceC) = False :=
    eq_false (char_ne_of_toNat_ne (by rw [(by decide : Char.toNat lbraceC = 123)]; omega))
  have e4 : (c = quoteC) = False :=
    eq_false (char_ne_of_toNat_ne (by rw [(by decide : Char.toNat quoteC = 34)]; omega))
  have e5 : (c = squoteC) = False :=
    eq_false (char_ne_of_toNat_ne (by rw [(by decide : Char.toNat squoteC = 39)]; omega))
  have e6 : isDigitChar c = false := by
    simp [isDigitChar]
    omega
  have e7 : (c = minusC) = False :=
    eq_false (char_ne_of_toNat_ne (by rw [(by decide : Char.toNat minusC = 45)]; omega))
  have hri : readIdent (c :: (cs ++ rest)) = (c :: cs, rest) := by
    have hall2 : ∀ d ∈ c :: cs, identChar d = true := by
      intro d hd
      exact hall d (by rw [hdata]; exact hd)
    have := readIdent_run (c :: cs) rest hall2 hrest
    simpa using this
  have heta : String.mk (c :: cs) = name := by
    rw [← hdata]
  have hres2 : ∀ r ∈ reservedIdents, ¬(name = r) := by
    rw [List.contains_eq_any_beq] at hres
    simp at hres
    exact hres
  have n1 : (name = "true") = False := eq_false (hres2 "true" (by simp [reservedIdents]))
  have n2 : (name = "false") = False := eq_false (hres2 "false" (by simp [reservedIdents]))
  have n3 : (name = "inf") = False := eq_false (hres2 "inf" (by simp [reservedIdents]))
  have n4 : (name = "NaN") = False := eq_false (hres2 "NaN" (by simp [reservedIdents]))
  have n5 : (name = "None") = False := eq_false (hres2 "None" (by simp [reservedIdents]))
  have n6 : (name = "Some") = False := eq_false (hres2 "Some" (by simp [reservedIdents]))
  simp only [parseRonV, e1, e2, e3, e4, e5, e6, e7, hstart, hri, heta,
    n1, n2, n3, n4, n5, n6, Bool.false_eq_true, if_false, if_true]
  cases rest with
  | nil => rfl
  | cons d ds => rfl




/-! ### Concrete reserved-word heads -/

theorem parseRonV_true (f : Nat) {rest : List Char} (hrest : identHeadFree rest = true) :
    parseRonV (f + 1) ("true".data ++ rest) = Option.some (.bool true, rest) := by
  have hsplit : "true".data ++ rest = 't' :: 'r' :: 'u' :: 'e' :: rest := rfl
  rw [hsplit]
  have hri : readIdent ('t' :: 'r' :: 'u' :: 'e' :: rest) = (['t', 'r', 'u', 'e'], rest) := by
    simpa using readIdent_run ['t', 'r', 'u', 'e'] rest (by decide) hrest
  simp +decide [parseRonV, hri]

theorem parseRonV_false (f : Nat) {rest : List Char} (hrest : identHeadFree rest = true) :
    parseRonV (f + 1) ("false".data ++ rest) = Option.some (.bool false, rest) := by
  have hsplit : "false".data ++ rest = 'f' :: 'a' :: 'l' :: 's' :: 'e' :: rest := rfl
  rw [hsplit]
  have hri : readIdent ('f' :: 'a' :: 'l' :: 's' :: 'e' :: rest) =
      (['f', 'a', 'l', 's', 'e'], rest) := by
    simpa using readIdent_run ['f', 'a', 'l', 's', 'e'] rest (by decide) hrest
  simp +decide [parseRonV, hri]

theorem parseRonV_None (f : Nat) {rest : List Char} (hrest : identHeadFree rest = true) :
    parseRonV (f + 1) ("None".data ++ rest) = Option.some (.option .none, rest) := by
  have hsplit : "None".data ++ rest = 'N' :: 'o' :: 'n' :: 'e' :: rest := rfl
  rw [hsplit]
  have hri : readIdent ('N' :: 'o' :: 'n' :: 'e' :: rest) = (['N', 'o', 'n', 'e'], rest) := by
    simpa using readIdent_run ['N', 'o', 'n', 'e'] rest (by decide) hrest
  simp +decide [parseRonV, hri]

theorem parseRonV_Some (f : Nat) {rest : List Char} (hrest : identHeadFree rest = true) :
    parseRonV (f + 1) ("Some".data ++ rest) =
      match parseParenArg f rest with
      | Option.some (v, rest2) => Option.some (.option (.some v), rest2)
      | Option.none => Option.none := by
  have hsplit : "Some".data ++ rest = 'S' :: 'o' :: 'm' :: 'e' :: rest := rfl
  rw [hsplit]
  have hri : readIdent ('S' :: 'o' :: 'm' :: 'e' :: rest) = (['S', 'o', 'm', 'e'], rest) := by
    simpa using readIdent_run ['S', 'o', 'm', 'e'] rest (by decide) hrest
  simp +decide [parseRonV, hri]

/-! ### Parenthesized payloads -/

theorem parseParenArg_of (g : Nat) {body rest : List Char} {v : RonValue}
    (hstart : goodValueStart (body ++ rparenC :: rest))
    (hparse : parseRonV g (body ++ rparenC :: rest) = Option.some (v, rparenC :: rest)) :
    parseParenArg (g + 1) (lparenC :: (body ++ rparenC :: rest)) = Option.some (v, rest) := by
  simp only [parseParenArg, eq_self_iff_true, if_true]
  rw [goodValueStart_skipWs hstart, hparse]
  have hsw : skipWs (rparenC :: rest) = rparenC :: rest := skipWs_cons (by decide)
  simp [hsw]

theorem parseParenArg_unit (g : Nat) (hg : 0 < g) (rest : List Char) :
    parseParenArg (g + 1) (lparenC :: lparenC :: rparenC :: rparenC :: rest) =
      Option.some (.seq .nil, rest) := by
  obtain ⟨g2, rfl⟩ : ∃ g2, g = g2 + 1 := ⟨g - 1, by omega⟩
  simp +decide [parseParenArg, parseRonV, skipWs]

/-! ### Heads of serialized sequences and records -/

theorem serializeListChars_start {v : Val} (xs : ValList) (hv : valWF v = true)
    (rest : List Char) : goodValueStart (serializeListChars (.cons v xs) ++ rest) := by
  cases xs with
  | nil => simpa [serializeListChars] using valToRonChars_start v hv rest
  | cons w ys =>
    have h := valToRonChars_start v hv (commaC :: spaceC :: (serializeListChars (.cons w ys) ++ rest))
    have heq : serializeListChars (.cons v (.cons w ys)) ++ rest =
        valToRonChars v ++ commaC :: spaceC :: (serializeListChars (.cons w ys) ++ rest) := by
      simp [serializeListChars]
    rwa [heq]

theorem serializeRecordChars_start {k : String} (v : Val) (fs : ValFields)
    (hk : identOkStr k = true) (rest : List Char) :
    goodValueStart (serializeRecordChars (.cons k v fs) ++ rest) := by
  obtain ⟨c, cs, hdata, hstart, _⟩ := identOkStr_parts hk
  cases fs with
  | nil =>
    have heq : serializeRecordChars (.cons k v .nil) ++ rest =
        c :: (cs ++ (colonC :: spaceC :: valToRonChars v) ++ rest) := by
      simp [serializeRecordChars, hdata]
    rw [heq]
    exact identStart_goodValueStart _ hstart
  | cons k2 v2 fs2 =>
    have heq : serializeRecordChars (.cons k v (.cons k2 v2 fs2)) ++ rest =
        c :: (cs ++ (colonC :: spaceC :: valToRonChars v ++
          commaC :: spaceC :: serializeRecordChars (.cons k2 v2 fs2)) ++ rest) := by
      simp [serializeRecordChars, hdata]
    rw [heq]
    exact identStart_goodValueStart _ hstart




/-! ### Opening-bracket heads -/

theorem parseRonV_lbrack_empty (f : Nat) (rest : List Char) :
    parseRonV (f + 1) (lbrackC :: rbrackC :: rest) = Option.some (.seq .nil, rest) := by
  simp +decide [parseRonV, skipWs]

theorem parseRonV_lparen_empty (f : Nat) (rest : List Char) :
    parseRonV (f + 1) (lparenC :: rparenC :: rest) = Option.some (.seq .nil, rest) := by
  simp +decide [parseRonV, skipWs]

theorem parseRonV_lbrace_empty (f : Nat) (rest : List Char) :
    parseRonV (f + 1) (lbraceC :: rbraceC :: rest) = Option.some (.map .nil, rest) := by
  simp +decide [parseRonV, skipWs]

theorem parseRonV_lbrack_head (f : Nat) {X : List Char} (hgs : goodValueStart X) :
    parseRonV (f + 1) (lbrackC :: X) =
      match parseRonItems f rbrackC X with
      | Option.some (vs, rest) => Option.some (.seq vs, rest)
      | Option.none => Option.none := by
  obtain ⟨c0, cs0, hc0⟩ := goodValueStart_cons hgs
  subst hc0
  simp only [parseRonV, eq_self_iff_true, if_true]
  rw [show skipWs (c0 :: cs0) = c0 :: cs0 from skipWs_cons hgs.1]
  simp only [if_neg hgs.2.2.1]

theorem parseRonV_lparen_head (f : Nat) {X : List Char} (hgs : goodValueStart X) :
    parseRonV (f + 1) (lparenC :: X) =
      match parseRonItems f rparenC X with
      | Option.some (vs, rest) => Option.some (.seq vs, rest)
      | Option.none => Option.none := by
  obtain ⟨c0, cs0, hc0⟩ := goodValueStart_cons hgs
  subst hc0
  have e1 : (lparenC = lbrackC) = False := eq_false (by decide)
  simp only [parseRonV, e1, eq_self_iff_true, if_false, if_true]
  rw [show skipWs (c0 :: cs0) = c0 :: cs0 from skipWs_cons hgs.1]
  simp only [if_neg hgs.2.2.2.1]

theorem parseRonV_lbrace_head (f : Nat) {X : List Char} (hgs : goodValueStart X) :
    parseRonV (f + 1) (lbraceC :: X) =
      match parseRonMapItems f X with
      | Option.some (m, rest) => Option.some (.map m, rest)
      | Option.none => Option.none := by
  obtain ⟨c0, cs0, hc0⟩ := goodValueStart_cons hgs
  subst hc0
  have e1 : (lbraceC = lbrackC) = False := eq_false (by decide)
  have e2 : (lbraceC = lparenC) = False := eq_false (by decide)
  simp only [parseRonV, e1, e2, eq_self_iff_true, if_false, if_true]
  rw [show skipWs (c0 :: cs0) = c0 :: cs0 from skipWs_cons hgs.1]
  simp only [if_neg hgs.2.2.2.2.1]


end Tairitsu
namespace Tairitsu

/-! ### The serialized form of a wellformed value parses back to `ronOf` -/

theorem parse_render : ∀ fuel : Nat,
    (∀ v rest, valWF v = true → delimOk rest → (valToRonChars v).length < fuel →
      parseRonV fuel (valToRonChars v ++ rest) = Option.some (ronOf v, rest)) ∧
    (∀ v xs rest term, (term = rbrackC ∨ term = rparenC) →
      valWF v = true → valListWF xs = true →
      (serializeListChars (.cons v xs)).length + 1 < fuel →
      parseRonItems fuel term (serializeListChars (.cons v xs) ++ term :: rest) =
        Option.some (ronOfList (.cons v xs), rest)) ∧
    (∀ k v fs rest, valFieldsWF (.cons k v fs) = true →
      (serializeRecordChars (.cons k v fs)).length + 1 < fuel →
      parseRonMapItems fuel (serializeRecordChars (.cons k v fs) ++ rbraceC :: rest) =
        Option.some (ronOfFields (.cons k v fs), rest)) := by
  intro fuel
  induction fuel using Nat.strong_induction_on with
  | _ fuel ih =>
  match fuel with
  | 0 =>
    refine ⟨?_, ?_, ?_⟩
    · intro v rest _ _ hlen; omega
    · intro v xs rest term _ _ _ hlen; omega
    · intro k v fs rest _ hlen; omega
  | f + 1 =>
  have ihf := ih f (by omega)
  refine ⟨?_, ?_, ?_⟩
  · -- conjunct 1: single values
    intro v rest hwf hrest hlen
    cases v with
    | bool b =>
      cases b
      · rw [show valToRonChars (Val.bool false) ++ rest = "false".data ++ rest from rfl]
        rw [parseRonV_false f (delimOk_identFree hrest)]
        rfl
      · rw [show valToRonChars (Val.bool true) ++ rest = "true".data ++ rest from rfl]
        rw [parseRonV_true f (delimOk_identFree hrest)]
        rfl
    | u8 n =>
      rw [show valToRonChars (Val.u8 n) = natToChars n from rfl, natToChars_parse n hrest f]
      rfl
    | u16 n =>
      rw [show valToRonChars (Val.u16 n) = natToChars n from rfl, natToChars_parse n hrest f]
      rfl
    | u32 n =>
      rw [show valToRonChars (Val.u32 n) = natToChars n from rfl, natToChars_parse n hrest f]
      rfl
    | u64 n =>
      rw [show valToRonChars (Val.u64 n) = natToChars n from rfl, natToChars_parse n hrest f]
      rfl
    | s8 n =>
      rw [show valToRonChars (Val.s8 n) = intToChars n from rfl, intToChars_parse n hrest f]
      rfl
    | s16 n =>
      rw [show valToRonChars (Val.s16 n) = intToChars n from rfl, intToChars_parse n hrest f]
      rfl
    | s32 n =>
      rw [show valToRonChars (Val.s32 n) = intToChars n from rfl, intToChars_parse n hrest f]
      rfl
    | s64 n =>
      rw [show valToRonChars (Val.s64 n) = intToChars n from rfl, intToChars_parse n hrest f]
      rfl
    | float32 x =>
      rw [show valToRonChars (Val.float32 x) = fpExpChars x from rfl, fpExpChars_parse x hrest f]
      rfl
    | float64 x =>
      rw [show valToRonChars (Val.float64 x) = fpExpChars x from rfl, fpExpChars_parse x hrest f]
      rfl
    | char c =>
      have hsplit : valToRonChars (Val.char c) ++ rest =
          squoteC :: (escapeDefaultChar c ++ squoteC :: rest) := by
        simp [valToRonChars]
      rw [hsplit, parseRonV_char_head f c rest]
      rfl
    | str s =>
      have hsplit : valToRonChars (Val.str s) ++ rest =
          quoteC :: (escapeDebugStr s.data ++ quoteC :: rest) := by
        simp [valToRonChars]
      have hslen : s.data.length < f := by
        have h1 := escapeDebugStr_length s.data
        have h2 : (valToRonChars (Val.str s)).length = (escapeDebugStr s.data).length + 2 := by
          simp [valToRonChars]
        omega
      rw [hsplit, parseRonV_string_head f s.data hslen]
      rfl
    | list items =>
      cases items with
      | nil =>
        rw [show valToRonChars (Val.list .nil) ++ rest = lbrackC :: rbrackC :: rest from rfl]
        rw [parseRonV_lbrack_empty f rest]
        rfl
      | cons v xs =>
        have hw : valWF v = true ∧ valListWF xs = true := by
          simp [valWF, valListWF] at hwf
          exact hwf
        have hsplit : valToRonChars (Val.list (.cons v xs)) ++ rest =
            lbrackC :: (serializeListChars (.cons v xs) ++ rbrackC :: rest) := by
          simp [valToRonChars]
        rw [hsplit, parseRonV_lbrack_head f (serializeListChars_start xs hw.1 _)]
        have hlen2 : (serializeListChars (.cons v xs)).length + 1 < f := by
          have : (valToRonChars (Val.list (.cons v xs))).length =
              (serializeListChars (.cons v xs)).length + 2 := by
            simp [valToRonChars]
          omega
        rw [ihf.2.1 v xs rest rbrackC (Or.inl rfl) hw.1 hw.2 hlen2]
        rfl
    | tuple items =>
      cases items with
      | nil =>
        rw [show valToRonChars (Val.tuple .nil) ++ rest = lparenC :: rparenC :: rest from rfl]
        rw [parseRonV_lparen_empty f rest]
        rfl
      | cons v xs =>
        have hw : valWF v = true ∧ valListWF xs = true := by
          simp [valWF, valListWF] at hwf
          exact hwf
        have hsplit : valToRonChars (Val.tuple (.cons v xs)) ++ rest =
            lparenC :: (serializeListChars (.cons v xs) ++ rparenC :: rest) := by
          simp [valToRonChars]
        rw [hsplit, parseRonV_lparen_head f (serializeListChars_start xs hw.1 _)]
        have hlen2 : (serializeListChars (.cons v xs)).length + 1 < f := by
          have : (valToRonChars (Val.tuple (.cons v xs))).length =
              (serializeListChars (.cons v xs)).length + 2 := by
            simp [valToRonChars]
          omega
        rw [ihf.2.1 v xs rest rparenC (Or.inr rfl) hw.1 hw.2 hlen2]
        rfl
    | record fields =>
      cases fields with
      | nil =>
        rw [show valToRonChars (Val.record .nil) ++ rest = lbraceC :: rbraceC :: rest from rfl]
        rw [parseRonV_lbrace_empty f rest]
        rfl
      | cons k v fs =>
        have hw : valFieldsWF (.cons k v fs) = true := by
          have : valWF (Val.record (.cons k v fs)) =
              (namesDistinct (ValFields.names (.cons k v fs)) &&
                valFieldsWF (.cons k v fs)) := rfl
          rw [this] at hwf
          simp only [Bool.and_eq_true] at hwf
          exact hwf.2
        have hkok : identOkStr k = true := by
          have : valFieldsWF (.cons k v fs) = (identOkStr k && valWF v && valFieldsWF fs) := rfl
          rw [this] at hw
          simp only [Bool.and_eq_true] at hw
          exact hw.1.1
        have hsplit : valToRonChars (Val.record (.cons k v fs)) ++ rest =
            lbraceC :: (serializeRecordChars (.cons k v fs) ++ rbraceC :: rest) := by
          simp [valToRonChars]
        rw [hsplit, parseRonV_lbrace_head f (serializeRecordChars_start v fs hkok _)]
        have hlen2 : (serializeRecordChars (.cons k v fs)).length + 1 < f := by
          have : (valToRonChars (Val.record (.cons k v fs))).length =
              (serializeRecordChars (.cons k v fs)).length + 2 := by
            simp [valToRonChars]
          omega
        rw [ihf.2.2 k v fs rest hw hlen2]
        rfl
    | variant case payload =>
      have hwf' : (identOkStr case = true ∧ reservedIdents.contains case = false) ∧
          valOptWF payload = true := by
        have : valWF (Val.variant case payload) =
            (identOkStr case && !reservedIdents.contains case && valOptWF payload) := rfl
        rw [this] at hwf
        simp only [Bool.and_eq_true, Bool.not_eq_true'] at hwf
        exact hwf
      cases payload with
      | none =>
        have hsplit : valToRonChars (Val.variant case .none) ++ rest = case.data ++ rest := by
          simp [valToRonChars]
        rw [hsplit, parseRonV_identOther f case hwf'.1.1 hwf'.1.2 (delimOk_identFree hrest)]
        cases rest with
        | nil => rfl
        | cons d ds =>
          have hne : ¬(d = lparenC) := by
            rcases hrest with h | h | h | h <;> subst h <;> decide
          simp only [if_neg hne]
          rfl
      | some w =>
        have hw2 : valWF w = true := by simpa [valOptWF] using hwf'.2
        have hsplit : valToRonChars (Val.variant case (.some w)) ++ rest =
            case.data ++ (lparenC :: (valToRonChars w ++ rparenC :: rest)) := by
          simp [valToRonChars]
        rw [hsplit, parseRonV_identOther f case hwf'.1.1 hwf'.1.2 (by simp +decide [identHeadFree])]
        simp only [eq_self_iff_true, if_true]
        obtain ⟨ck, csk, hdk, _, _⟩ := identOkStr_parts hwf'.1.1
        have hlenw : (valToRonChars w).length + 2 + case.data.length =
            (valToRonChars (Val.variant case (.some w))).length := by
          simp [valToRonChars, List.length_append]
          omega
        have hkpos : 1 ≤ case.data.length := by rw [hdk]; simp
        obtain ⟨g, rfl⟩ : ∃ g, f = g + 1 := ⟨f - 1, by omega⟩
        rw [parseParenArg_of g (valToRonChars_start w hw2 _)
          ((ih g (by omega)).1 w (rparenC :: rest) hw2 (Or.inr (Or.inr (Or.inl rfl)))
            (by omega))]
        rfl
    | result r =>
      cases r with
      | ok payload =>
        cases payload with
        | none =>
          have hsplit : valToRonChars (Val.result (.ok .none)) ++ rest =
              "Ok".data ++ (lparenC :: lparenC :: rparenC :: rparenC :: rest) := rfl
          rw [hsplit, parseRonV_identOther f "Ok" (by decide) (by decide)
            (by simp +decide [identHeadFree])]
          simp only [eq_self_iff_true, if_true]
          have hlen6 : (valToRonChars (Val.result (.ok .none))).length = 6 := rfl
          obtain ⟨g, rfl⟩ : ∃ g, f = g + 1 := ⟨f - 1, by omega⟩
          rw [parseParenArg_unit g (by omega) rest]
          rfl
        | some w =>
          have hw2 : valWF w = true := by
            have : valWF (Val.result (.ok (.some w))) = valWF w := rfl
            rwa [this] at hwf
          have hsplit : valToRonChars (Val.result (.ok (.some w))) ++ rest =
              "Ok".data ++ (lparenC :: (valToRonChars w ++ rparenC :: rest)) := by
            simp +decide [valToRonChars]
          rw [hsplit, parseRonV_identOther f "Ok" (by decide) (by decide)
            (by simp +decide [identHeadFree])]
          simp only [eq_self_iff_true, if_true]
          have hlenw : (valToRonChars (Val.result (.ok (.some w)))).length =
              (valToRonChars w).length + 4 := by
            simp [valToRonChars, List.length_append]
          obtain ⟨g, rfl⟩ : ∃ g, f = g + 1 := ⟨f - 1, by omega⟩
          rw [parseParenArg_of g (valToRonChars_start w hw2 _)
            ((ih g (by omega)).1 w (rparenC :: rest) hw2 (Or.inr (Or.inr (Or.inl rfl)))
              (by omega))]
          rfl
      | err payload =>
        cases payload with
        | none =>
          have hsplit : valToRonChars (Val.result (.err .none)) ++ rest =
              "Err".data ++ (lparenC :: lparenC :: rparenC :: rparenC :: rest) := rfl
          rw [hsplit, parseRonV_identOther f "Err" (by decide) (by decide)
            (by simp +decide [identHeadFree])]
          simp only [eq_self_iff_true, if_true]
          have hlen7 : (valToRonChars (Val.result (.err .none))).length = 7 := rfl
          obtain ⟨g, rfl⟩ : ∃ g, f = g + 1 := ⟨f - 1, by omega⟩
          rw [parseParenArg_unit g (by omega) rest]
          rfl
        | some w =>
          have hw2 : valWF w = true := by
            have : valWF (Val.result (.err (.some w))) = valWF w := rfl
            rwa [this] at hwf
          have hsplit : valToRonChars (Val.result (.err (.some w))) ++ rest =
              "Err".data ++ (lparenC :: (valToRonChars w ++ rparenC :: rest)) := by
            simp +decide [valToRonChars]
          rw [hsplit, parseRonV_identOther f "Err" (by decide) (by decide)
            (by simp +decide [identHeadFree])]
          simp only [eq_self_iff_true, if_true]
          have hlenw : (valToRonChars (Val.result (.err (.some w)))).length =
              (valToRonChars w).length + 5 := by
            simp [valToRonChars, List.length_append]
          obtain ⟨g, rfl⟩ : ∃ g, f = g + 1 := ⟨f - 1, by omega⟩
          rw [parseParenArg_of g (valToRonChars_start w hw2 _)
            ((ih g (by omega)).1 w (rparenC :: rest) hw2 (Or.inr (Or.inr (Or.inl rfl)))
              (by omega))]
          rfl
    | option o =>
      cases o with
      | none =>
        rw [show valToRonChars (Val.option .none) ++ rest = "None".data ++ rest from rfl]
        rw [parseRonV_None f (delimOk_identFree hrest)]
        rfl
      | some w =>
        have hw2 : valWF w = true := by
          have : valWF (Val.option (.some w)) = valWF w := rfl
          rwa [this] at hwf
        have hsplit : valToRonChars (Val.option (.some w)) ++ rest =
            "Some".data ++ (lparenC :: (valToRonChars w ++ rparenC :: rest)) := by
          simp +decide [valToRonChars]
        rw [hsplit, parseRonV_Some f (by simp +decide [identHeadFree])]
        have hlenw : (valToRonChars (Val.option (.some w))).length =
            (valToRonChars w).length + 6 := by
          simp [valToRonChars, List.length_append]
        obtain ⟨g, rfl⟩ : ∃ g, f = g + 1 := ⟨f - 1, by omega⟩
        rw [parseParenArg_of g (valToRonChars_start w hw2 _)
          ((ih g (by omega)).1 w (rparenC :: rest) hw2 (Or.inr (Or.inr (Or.inl rfl)))
            (by omega))]
        rfl
  · -- conjunct 2: sequence items
    intro v xs rest term hterm hv hxs hlen
    have htermC : ¬(term = commaC) := by
      rcases hterm with h | h <;> subst h <;> decide
    have htermD : delimOk (term :: rest) := by
      rcases hterm with h | h <;> subst h
      · exact Or.inr (Or.inl rfl)
      · exact Or.inr (Or.inr (Or.inl rfl))
    cases xs with
    | nil =>
      have hsplit : serializeListChars (.cons v .nil) ++ term :: rest =
          valToRonChars v ++ term :: rest := by
        simp [serializeListChars]
      rw [hsplit]
      simp only [parseRonItems]
      have hlenv : (valToRonChars v).length < f := by
        have : (serializeListChars (ValList.cons v .nil)).length =
            (valToRonChars v).length := by
          simp [serializeListChars]
        omega
      rw [ihf.1 v (term :: rest) hv htermD hlenv]
      simp only [delimOk_skipWs htermD, if_neg htermC, eq_self_iff_true, if_true]
      rfl
    | cons w ys =>
      have hxs2 : valWF w = true ∧ valListWF ys = true := by
        simp [valListWF] at hxs
        exact hxs
      have hsplit : serializeListChars (.cons v (.cons w ys)) ++ term :: rest =
          valToRonChars v ++
            (commaC :: spaceC :: (serializeListChars (.cons w ys) ++ term :: rest)) := by
        simp [serializeListChars]
      have hlens : (serializeListChars (.cons v (.cons w ys))).length =
          (valToRonChars v).length + 2 + (serializeListChars (.cons w ys)).length := by
        simp [serializeListChars, List.length_append]
        omega
      have hpv := ihf.1 v (commaC :: spaceC :: (serializeListChars (.cons w ys) ++ term :: rest))
        hv (Or.inl rfl) (by omega)
      have hsw1 : skipWs (commaC :: spaceC :: (serializeListChars (.cons w ys) ++ term :: rest)) =
          commaC :: spaceC :: (serializeListChars (.cons w ys) ++ term :: rest) :=
        skipWs_cons (by decide)
      have hsw2 : skipWs (spaceC :: (serializeListChars (.cons w ys) ++ term :: rest)) =
          serializeListChars (.cons w ys) ++ term :: rest := by
        rw [show skipWs (spaceC :: (serializeListChars (.cons w ys) ++ term :: rest)) =
            skipWs (serializeListChars (.cons w ys) ++ term :: rest) from by
          simp +decide [skipWs]]
        exact goodValueStart_skipWs (serializeListChars_start ys hxs2.1 _)
      have hitems := ihf.2.1 w ys rest term hterm hxs2.1 hxs2.2 (by omega)
      rw [hsplit]
      simp only [parseRonItems, hpv, hsw1, eq_self_iff_true, if_true, hsw2, hitems]
      rfl
  · -- conjunct 3: record fields
    intro k v fs rest hwf hlen
    have hw : (identOkStr k = true ∧ valWF v = true) ∧ valFieldsWF fs = true := by
      have : valFieldsWF (.cons k v fs) = (identOkStr k && valWF v && valFieldsWF fs) := rfl
      rw [this] at hwf
      simp only [Bool.and_eq_true] at hwf
      exact hwf
    obtain ⟨c, cs, hdata, hstart, hall⟩ := identOkStr_parts hw.1.1
    have hall2 : ∀ d ∈ c :: cs, identChar d = true := by
      intro d hd
      exact hall d (by rw [hdata]; exact hd)
    cases fs with
    | nil =>
      have hsplit : serializeRecordChars (.cons k v .nil) ++ rbraceC :: rest =
          (c :: cs) ++ (colonC :: spaceC :: (valToRonChars v ++ rbraceC :: rest)) := by
        simp [serializeRecordChars, hdata]
      have hri : readIdent ((c :: cs) ++ (colonC :: spaceC :: (valToRonChars v ++ rbraceC :: rest))) =
          (c :: cs, colonC :: spaceC :: (valToRonChars v ++ rbraceC :: rest)) :=
        readIdent_run _ _ hall2 (by simp +decide [identHeadFree])
      have hsw0 : skipWs (colonC :: spaceC :: (valToRonChars v ++ rbraceC :: rest)) =
          colonC :: spaceC :: (valToRonChars v ++ rbraceC :: rest) := skipWs_cons (by decide)
      have hsw : skipWs (spaceC :: (valToRonChars v ++ rbraceC :: rest)) =
          valToRonChars v ++ rbraceC :: rest := by
        rw [show skipWs (spaceC :: (valToRonChars v ++ rbraceC :: rest)) =
            skipWs (valToRonChars v ++ rbraceC :: rest) from by simp +decide [skipWs]]
        exact goodValueStart_skipWs (valToRonChars_start v hw.1.2 _)
      have hlenv : (valToRonChars v).length < f := by
        have : (serializeRecordChars (.cons k v .nil)).length =
            k.data.length + 2 + (valToRonChars v).length := by
          simp [serializeRecordChars, List.length_append]
          omega
        have hkpos : 1 ≤ k.data.length := by rw [hdata]; simp
        omega
      have hpv := ihf.1 v (rbraceC :: rest) hw.1.2 (Or.inr (Or.inr (Or.inr rfl))) hlenv
      have hswb : skipWs (rbraceC :: rest) = rbraceC :: rest := skipWs_cons (by decide)
      rw [hsplit]
      simp only [parseRonMapItems, hri, hsw0, eq_self_iff_true, if_true, hsw, hpv, hswb,
        if_neg (by decide : ¬(rbraceC = commaC))]
      rw [show String.mk (c :: cs) = k from by rw [← hdata]]
      rfl
    | cons k2 v2 fs2 =>
      have hsplit : serializeRecordChars (.cons k v (.cons k2 v2 fs2)) ++ rbraceC :: rest =
          (c :: cs) ++ (colonC :: spaceC :: (valToRonChars v ++
            commaC :: spaceC :: (serializeRecordChars (.cons k2 v2 fs2) ++ rbraceC :: rest))) := by
        simp [serializeRecordChars, hdata]
      have hri : readIdent ((c :: cs) ++ (colonC :: spaceC :: (valToRonChars v ++
          commaC :: spaceC :: (serializeRecordChars (.cons k2 v2 fs2) ++ rbraceC :: rest)))) =
          (c :: cs, colonC :: spaceC :: (valToRonChars v ++
            commaC :: spaceC :: (serializeRecordChars (.cons k2 v2 fs2) ++ rbraceC :: rest))) :=
        readIdent_run _ _ hall2 (by simp +decide [identHeadFree])
      have hsw0 : skipWs (colonC :: spaceC :: (valToRonChars v ++
          commaC :: spaceC :: (serializeRecordChars (.cons k2 v2 fs2) ++ rbraceC :: rest))) =
          colonC :: spaceC :: (valToRonChars v ++
            commaC :: spaceC :: (serializeRecordChars (.cons k2 v2 fs2) ++ rbraceC :: rest)) :=
        skipWs_cons (by decide)
      have hsw1 : skipWs (spaceC :: (valToRonChars v ++
          commaC :: spaceC :: (serializeRecordChars (.cons k2 v2 fs2) ++ rbraceC :: rest))) =
          valToRonChars v ++
            commaC :: spaceC :: (serializeRecordChars (.cons k2 v2 fs2) ++ rbraceC :: rest) := by
        rw [show skipWs (spaceC :: (valToRonChars v ++
            commaC :: spaceC :: (serializeRecordChars (.cons k2 v2 fs2) ++ rbraceC :: rest))) =
            skipWs (valToRonChars v ++
              commaC :: spaceC :: (serializeRecordChars (.cons k2 v2 fs2) ++ rbraceC :: rest)) from by
          simp +decide [skipWs]]
        exact goodValueStart_skipWs (valToRonChars_start v hw.1.2 _)
      have hlens : (serializeRecordChars (.cons k v (.cons k2 v2 fs2))).length =
          k.data.length + 2 + (valToRonChars v).length + 2 +
            (serializeRecordChars (.cons k2 v2 fs2)).length := by
        simp [serializeRecordChars, List.length_append]
        omega
      have hkpos : 1 ≤ k.data.length := by rw [hdata]; simp
      have hpv := ihf.1 v (commaC :: spaceC ::
        (serializeRecordChars (.cons k2 v2 fs2) ++ rbraceC :: rest)) hw.1.2 (Or.inl rfl) (by omega)
      have hsw2 : skipWs (commaC :: spaceC ::
          (serializeRecordChars (.cons k2 v2 fs2) ++ rbraceC :: rest)) =
          commaC :: spaceC :: (serializeRecordChars (.cons k2 v2 fs2) ++ rbraceC :: rest) :=
        skipWs_cons (by decide)
      have hk2ok : identOkStr k2 = true := by
        have heq : valFieldsWF (.cons k2 v2 fs2) =
            (identOkStr k2 && valWF v2 && valFieldsWF fs2) := rfl
        have h2 := hw.2
        rw [heq] at h2
        simp only [Bool.and_eq_true] at h2
        exact h2.1.1
      have hsw3 : skipWs (spaceC :: (serializeRecordChars (.cons k2 v2 fs2) ++ rbraceC :: rest)) =
          serializeRecordChars (.cons k2 v2 fs2) ++ rbraceC :: rest := by
        rw [show skipWs (spaceC :: (serializeRecordChars (.cons k2 v2 fs2) ++ rbraceC :: rest)) =
            skipWs (serializeRecordChars (.cons k2 v2 fs2) ++ rbraceC :: rest) from by
          simp +decide [skipWs]]
        exact goodValueStart_skipWs (serializeRecordChars_start v2 fs2 hk2ok _)
      have hmap := ihf.2.2 k2 v2 fs2 rest hw.2 (by omega)
      rw [hsplit]
      simp only [parseRonMapItems, hri, hsw0, eq_self_iff_true, if_true, hsw1, hpv, hsw2, hsw3,
        hmap]
      rw [show String.mk (c :: cs) = k from by rw [← hdata]]
      rfl

end Tairitsu
namespace Tairitsu

/-! ### Rendered lengths bound structural size -/

theorem natToCharsAux_length : ∀ fuel n acc, 1 ≤ fuel →
    acc.length + 1 ≤ (natToCharsAux fuel n acc).length := by
  intro fuel
  induction fuel with
  | zero => intro n acc h; omega
  | succ f ihf =>
    intro n acc _
    by_cases hn : n < 10
    · simp [natToCharsAux, hn]
    · rw [show natToCharsAux (f + 1) n acc =
          natToCharsAux f (n / 10) (digitChar (n % 10) :: acc) from by
        simp [natToCharsAux, hn]]
      cases f with
      | zero => simp [natToCharsAux]
      | succ g =>
        have h2 := ihf (n / 10) (digitChar (n % 10) :: acc) (Nat.succ_le_succ (Nat.zero_le g))
        simp only [List.length_cons] at h2
        omega

theorem natToChars_length (n : Nat) : 1 ≤ (natToChars n).length := by
  have h := natToCharsAux_length (n + 1) n [] (by omega)
  simpa using h

theorem intToChars_length (n : Int) : 1 ≤ (intToChars n).length := by
  unfold intToChars
  by_cases h : n < 0
  · rw [if_pos h]
    simp only [List.length_cons]
    omega
  · rw [if_neg h]
    exact natToChars_length _

theorem fpExpChars_length (x : Fp) : 1 ≤ (fpExpChars x).length := by
  cases x with
  | posInf => decide
  | negInf => decide
  | nan => decide
  | finite m ex =>
    simp only [fpExpChars, List.length_append, List.length_cons]
    have h := intToChars_length m
    omega

theorem valNodeCount_pos : ∀ v : Val, 1 ≤ valNodeCount v := by
  intro v
  cases v <;> first
    | exact Nat.le_refl 1
    | exact Nat.le_add_right 1 _
    | (rename_i r; cases r <;> exact Nat.le_add_right 1 _)

theorem tyNodeCount_pos : ∀ t : Ty, 1 ≤ tyNodeCount t := by
  intro t
  cases t <;> first
    | exact Nat.le_refl 1
    | exact Nat.le_add_right 1 _
    | exact Nat.le_trans (Nat.le_add_right 1 _) (Nat.le_add_right _ _)

theorem renderLen : ∀ n : Nat,
    (∀ v, valNodeCount v ≤ n → valWF v = true →
      valNodeCount v ≤ (valToRonChars v).length) ∧
    (∀ xs, valListCount xs ≤ n → valListWF xs = true →
      valListCount xs ≤ (serializeListChars xs).length + 1) ∧
    (∀ fs, valFieldsCount fs ≤ n → valFieldsWF fs = true →
      valFieldsCount fs ≤ (serializeRecordChars fs).length + 1) := by
  intro n
  induction n using Nat.strong_induction_on with
  | _ n ih =>
  cases n with
  | zero =>
    refine ⟨?_, ?_, ?_⟩
    · intro v hc _
      exact absurd hc (by have := valNodeCount_pos v; omega)
    · intro xs hc _
      omega
    · intro fs hc _
      omega
  | succ f =>
    have ihf := ih f (Nat.lt_succ_self f)
    refine ⟨?_, ?_, ?_⟩
    · intro v hc hwf
      cases v with
      | bool b => cases b <;> decide
      | u8 m => exact natToChars_length m
      | u16 m => exact natToChars_length m
      | u32 m => exact natToChars_length m
      | u64 m => exact natToChars_length m
      | s8 m => exact intToChars_length m
      | s16 m => exact intToChars_length m
      | s32 m => exact intToChars_length m
      | s64 m => exact intToChars_length m
      | float32 x =>
        have e : valNodeCount (Val.float32 x) = 1 := rfl
        have e2 : (valToRonChars (Val.float32 x)).length = (fpExpChars x).length := rfl
        have h3 := fpExpChars_length x
        omega
      | float64 x =>
        have e : valNodeCount (Val.float64 x) = 1 := rfl
        have e2 : (valToRonChars (Val.float64 x)).length = (fpExpChars x).length := rfl
        have h3 := fpExpChars_length x
        omega
      | char c =>
        simp only [valToRonChars, List.length_cons]
        have e : valNodeCount (Val.char c) = 1 := rfl
        omega
      | str s =>
        simp only [valToRonChars, List.length_cons]
        have e : valNodeCount (Val.str s) = 1 := rfl
        omega
      | list xs =>
        have e1 : valNodeCount (Val.list xs) = 1 + valListCount xs := rfl
        have hc2 : valListCount xs ≤ f := by omega
        have hwf2 : valListWF xs = true := by simpa [valWF] using hwf
        have hlist := ihf.2.1 xs hc2 hwf2
        have e2 : (valToRonChars (Val.list xs)).length =
            (serializeListChars xs).length + 2 := by
          simp only [valToRonChars, List.length_cons, List.length_append, List.length_nil]
        omega
      | tuple xs =>
        have e1 : valNodeCount (Val.tuple xs) = 1 + valListCount xs := rfl
        have hc2 : valListCount xs ≤ f := by omega
        have hwf2 : valListWF xs = true := by simpa [valWF] using hwf
        have hlist := ihf.2.1 xs hc2 hwf2
        have e2 : (valToRonChars (Val.tuple xs)).length =
            (serializeListChars xs).length + 2 := by
          simp only [valToRonChars, List.length_cons, List.length_append, List.length_nil]
        omega
      | record fs =>
        have e1 : valNodeCount (Val.record fs) = 1 + valFieldsCount fs := rfl
        have hc2 : valFieldsCount fs ≤ f := by omega
        have hwfp : namesDistinct (ValFields.names fs) = true ∧ valFieldsWF fs = true := by
          have e : valWF (Val.record fs) =
              (namesDistinct (ValFields.names fs) && valFieldsWF fs) := rfl
          rw [e] at hwf
          simpa [Bool.and_eq_true] using hwf
        have hrec := ihf.2.2 fs hc2 hwfp.2
        have e2 : (valToRonChars (Val.record fs)).length =
            (serializeRecordChars fs).length + 2 := by
          simp only [valToRonChars, List.length_cons, List.length_append, List.length_nil]
        omega
      | variant c p =>
        have hwfp : (identOkStr c = true ∧ (!reservedIdents.contains c) = true) ∧
            valOptWF p = true := by
          have e : valWF (Val.variant c p) =
              (identOkStr c && !reservedIdents.contains c && valOptWF p) := rfl
          rw [e] at hwf
          simpa [Bool.and_eq_true] using hwf
        obtain ⟨ch, chs, hdata, _, _⟩ := identOkStr_parts hwfp.1.1
        cases p with
        | none =>
          have e1 : valNodeCount (Val.variant c ValOpt.none) = 1 := rfl
          have e2 : valToRonChars (Val.variant c ValOpt.none) = c.data := rfl
          rw [e1, e2, hdata]
          simp only [List.length_cons]
          omega
        | some w =>
          have e1 : valNodeCount (Val.variant c (ValOpt.some w)) = 1 + valNodeCount w := rfl
          have hcw : valNodeCount w ≤ f := by omega
          have hwfw : valWF w = true := by simpa [valOptWF] using hwfp.2
          have hlw := ihf.1 w hcw hwfw
          have e2 : (valToRonChars (Val.variant c (ValOpt.some w))).length =
              c.data.length + ((valToRonChars w).length + 2) := by
            simp only [valToRonChars, List.length_append, List.length_cons, List.length_nil]
          omega
      | result r =>
        cases r with
        | ok p =>
          cases p with
          | none => decide
          | some w =>
            have e1 : valNodeCount (Val.result (ValRes.ok (ValOpt.some w))) =
                1 + valNodeCount w := rfl
            have hcw : valNodeCount w ≤ f := by omega
            have hwfw : valWF w = true := by simpa [valWF, valOptWF] using hwf
            have hlw := ihf.1 w hcw hwfw
            have e2 : (valToRonChars (Val.result (ValRes.ok (ValOpt.some w)))).length =
                (valToRonChars w).length + 4 := by
              simp [valToRonChars, List.length_append]
            omega
        | err p =>
          cases p with
          | none => decide
          | some w =>
            have e1 : valNodeCount (Val.result (ValRes.err (ValOpt.some w))) =
                1 + valNodeCount w := rfl
            have hcw : valNodeCount w ≤ f := by omega
            have hwfw : valWF w = true := by simpa [valWF, valOptWF] using hwf
            have hlw := ihf.1 w hcw hwfw
            have e2 : (valToRonChars (Val.result (ValRes.err (ValOpt.some w)))).length =
                (valToRonChars w).length + 5 := by
              simp [valToRonChars, List.length_append]
            omega
      | option o =>
        cases o with
        | none => decide
        | some w =>
          have e1 : valNodeCount (Val.option (ValOpt.some w)) = 1 + valNodeCount w := rfl
          have hcw : valNodeCount w ≤ f := by omega
          have hwfw : valWF w = true := by simpa [valWF, valOptWF] using hwf
          have hlw := ihf.1 w hcw hwfw
          have e2 : (valToRonChars (Val.option (ValOpt.some w))).length =
              (valToRonChars w).length + 6 := by
            simp [valToRonChars, List.length_append]
          omega
    · intro xs hc hwf
      cases xs with
      | nil =>
        have e : valListCount ValList.nil = 0 := rfl
        omega
      | cons v rest =>
        have e0 : valListWF (ValList.cons v rest) = (valWF v && valListWF rest) := rfl
        rw [e0] at hwf
        simp only [Bool.and_eq_true] at hwf
        have e1 : valListCount (ValList.cons v rest) =
            1 + valNodeCount v + valListCount rest := rfl
        have hv := ihf.1 v (by omega) hwf.1
        cases rest with
        | nil =>
          have e2 : serializeListChars (ValList.cons v ValList.nil) = valToRonChars v := rfl
          have e3 : valListCount ValList.nil = 0 := rfl
          rw [e2]
          omega
        | cons w rest2 =>
          have hrest := ihf.2.1 (ValList.cons w rest2) (by omega) hwf.2
          have e2 : (serializeListChars (ValList.cons v (ValList.cons w rest2))).length =
              (valToRonChars v).length + 2 +
                (serializeListChars (ValList.cons w rest2)).length := by
            simp only [serializeListChars, List.length_append, List.length_cons, List.length_nil]
            omega
          omega
    · intro fs hc hwf
      cases fs with
      | nil =>
        have e : valFieldsCount ValFields.nil = 0 := rfl
        omega
      | cons k v rest =>
        have e0 : valFieldsWF (ValFields.cons k v rest) =
            (identOkStr k && valWF v && valFieldsWF rest) := rfl
        rw [e0] at hwf
        simp only [Bool.and_eq_true] at hwf
        have e1 : valFieldsCount (ValFields.cons k v rest) =
            1 + valNodeCount v + valFieldsCount rest := rfl
        have hv := ihf.1 v (by omega) hwf.1.2
        cases rest with
        | nil =>
          have e2 : (serializeRecordChars (ValFields.cons k v ValFields.nil)).length =
              k.data.length + 2 + (valToRonChars v).length := by
            simp only [serializeRecordChars, List.length_append, List.length_cons, List.length_nil]
            omega
          have e3 : valFieldsCount ValFields.nil = 0 := rfl
          omega
        | cons k2 v2 rest2 =>
          have hrest := ihf.2.2 (ValFields.cons k2 v2 rest2) (by omega) hwf.2
          have e2 : (serializeRecordChars (ValFields.cons k v
              (ValFields.cons k2 v2 rest2))).length =
              k.data.length + 2 + (valToRonChars v).length + 2 +
                (serializeRecordChars (ValFields.cons k2 v2 rest2)).length := by
            simp only [serializeRecordChars, List.length_append, List.length_cons, List.length_nil]
            omega
          omega

theorem valNodeCount_le_render (v : Val) (hwf : valWF v = true) :
    valNodeCount v ≤ (valToRonChars v).length :=
  (renderLen (valNodeCount v)).1 v (Nat.le_refl _) hwf

/-! ### The parsed shape deserializes back: auxiliary facts -/

theorem vtupleMatches_length : ∀ (xs : ValList) (ts : TyList),
    vtupleMatches xs ts = true → ronListLength (ronOfList xs) = tyListLength ts
  | .nil, .nil, _ => rfl
  | .nil, .cons _ _, h => Bool.noConfusion h
  | .cons _ _, .nil, h => Bool.noConfusion h
  | .cons v xs, .cons t ts, h => by
    have h2 : (vmatches v t && vtupleMatches xs ts) = true := h
    simp only [Bool.and_eq_true] at h2
    have ihr := vtupleMatches_length xs ts h2.2
    show 1 + ronListLength (ronOfList xs) = 1 + tyListLength ts
    omega

theorem fieldsFoundIn_cons_of_not_mem : ∀ (fs : ValFields) (k : String) (rv : RonValue)
    (m : RonMap), (ValFields.names fs).contains k = false → FieldsFoundIn m fs →
    FieldsFoundIn (.cons (.str k) rv m) fs
  | .nil, _, _, _, _, _ => trivial
  | .cons k' v' rest, k, rv, m, hmem, hff => by
    have e : ValFields.names (ValFields.cons k' v' rest) = k' :: ValFields.names rest := rfl
    rw [e, List.contains_eq_any_beq] at hmem
    simp only [List.any_cons, Bool.or_eq_false_iff, beq_eq_false_iff_ne] at hmem
    have hff' : RonMap.findStr m k' = Option.some (ronOf v') ∧ FieldsFoundIn m rest := hff
    refine ⟨?_, fieldsFoundIn_cons_of_not_mem rest k rv m ?_ hff'.2⟩
    · have hkk : ronKeyIs (RonValue.str k) k' = false := by
        simp only [ronKeyIs, decide_eq_false_iff_not]
        exact hmem.1
      have e2 : RonMap.findStr (RonMap.cons (RonValue.str k) rv m) k' =
          if ronKeyIs (RonValue.str k) k' = true then Option.some rv
          else RonMap.findStr m k' := rfl
      rw [e2, hkk]
      simp only [Bool.false_eq_true, if_false]
      exact hff'.1
    · rw [List.contains_eq_any_beq]
      exact hmem.2

theorem fieldsFoundIn_self : ∀ fs : ValFields, namesDistinct (ValFields.names fs) = true →
    FieldsFoundIn (ronOfFields fs) fs
  | .nil, _ => trivial
  | .cons k v rest, hd => by
    have e : ValFields.names (ValFields.cons k v rest) = k :: ValFields.names rest := rfl
    rw [e] at hd
    have e2 : namesDistinct (k :: ValFields.names rest) =
        (!(ValFields.names rest).contains k && namesDistinct (ValFields.names rest)) := rfl
    rw [e2] at hd
    simp only [Bool.and_eq_true] at hd
    have hmem : (ValFields.names rest).contains k = false := by
      simpa using hd.1
    refine ⟨?_, fieldsFoundIn_cons_of_not_mem rest k (ronOf v) (ronOfFields rest) hmem
      (fieldsFoundIn_self rest hd.2)⟩
    have e3 : RonMap.findStr (ronOfFields (ValFields.cons k v rest)) k =
        if ronKeyIs (RonValue.str k) k = true then Option.some (ronOf v)
        else RonMap.findStr (ronOfFields rest) k := rfl
    rw [e3]
    simp [ronKeyIs]

/-! ### Numeric deserialization helpers (kept generic in the parsed number so
that reasoning never forces evaluation of the `i64`-range test) -/

theorem asI64_int_of_bounds (n : Int) (h : -(2 ^ 63) ≤ n ∧ n < 2 ^ 63) :
    (RonNumber.int n).asI64 = Option.some n := by
  simp only [RonNumber.asI64, if_pos h]

theorem deserialize_u8_of_asI64 (m : Nat) (hm : m < 256) : ∀ nn : RonNumber,
    nn.asI64 = Option.some (m : Int) →
    RonBasic.deserialize_u8 (RonValue.number nn) = Except.ok (Val.u8 m) := by
  intro nn hnn
  have hval : ((m : Int).emod (2 ^ 8)).toNat = m := by
    have e : ((2 : Int) ^ 8) = 256 := by norm_num
    rw [e]
    show ((m : Int) % 256).toNat = m
    omega
  simp only [RonBasic.deserialize_u8, hnn, hval]

theorem deserialize_u16_of_asI64 (m : Nat) (hm : m < 65536) : ∀ nn : RonNumber,
    nn.asI64 = Option.some (m : Int) →
    RonBasic.deserialize_u16 (RonValue.number nn) = Except.ok (Val.u16 m) := by
  intro nn hnn
  have hval : ((m : Int).emod (2 ^ 16)).toNat = m := by
    have e : ((2 : Int) ^ 16) = 65536 := by norm_num
    rw [e]
    show ((m : Int) % 65536).toNat = m
    omega
  simp only [RonBasic.deserialize_u16, hnn, hval]

theorem deserialize_u32_of_asI64 (m : Nat) (hm : m < 4294967296) : ∀ nn : RonNumber,
    nn.asI64 = Option.some (m : Int) →
    RonBasic.deserialize_u32 (RonValue.number nn) = Except.ok (Val.u32 m) := by
  intro nn hnn
  have hval : ((m : Int).emod (2 ^ 32)).toNat = m := by
    have e : ((2 : Int) ^ 32) = 4294967296 := by norm_num
    rw [e]
    show ((m : Int) % 4294967296).toNat = m
    omega
  simp only [RonBasic.deserialize_u32, hnn, hval]

theorem deserialize_u64_of_asI64 (m : Nat) (hm : m < 18446744073709551616) :
    ∀ nn : RonNumber, nn.asI64 = Option.some (m : Int) →
    RonBasic.deserialize_u64 (RonValue.number nn) = Except.ok (Val.u64 m) := by
  intro nn hnn
  have hval : ((m : Int).emod (2 ^ 64)).toNat = m := by
    have e : ((2 : Int) ^ 64) = 18446744073709551616 := by norm_num
    rw [e]
    show ((m : Int) % 18446744073709551616).toNat = m
    omega
  simp only [RonBasic.deserialize_u64, hnn, hval]

theorem deserialize_s8_of_asI64 (m : Int) (hm : -128 ≤ m ∧ m < 128) : ∀ nn : RonNumber,
    nn.asI64 = Option.some m →
    RonBasic.deserialize_s8 (RonValue.number nn) = Except.ok (Val.s8 m) := by
  intro nn hnn
  have hval : (m + 2 ^ 7).emod (2 ^ 8) - 2 ^ 7 = m := by
    have e7 : ((2 : Int) ^ 7) = 128 := by norm_num
    have e8 : ((2 : Int) ^ 8) = 256 := by norm_num
    rw [e7, e8]
    show (m + 128) % 256 - 128 = m
    omega
  simp only [RonBasic.deserialize_s8, hnn, hval]

theorem deserialize_s16_of_asI64 (m : Int) (hm : -32768 ≤ m ∧ m < 32768) :
    ∀ nn : RonNumber, nn.asI64 = Option.some m →
    RonBasic.deserialize_s16 (RonValue.number nn) = Except.ok (Val.s16 m) := by
  intro nn hnn
  have hval : (m + 2 ^ 15).emod (2 ^ 16) - 2 ^ 15 = m := by
    have e15 : ((2 : Int) ^ 15) = 32768 := by norm_num
    have e16 : ((2 : Int) ^ 16) = 65536 := by norm_num
    rw [e15, e16]
    show (m + 32768) % 65536 - 32768 = m
    omega
  simp only [RonBasic.deserialize_s16, hnn, hval]

theorem deserialize_s32_of_asI64 (m : Int) (hm : -2147483648 ≤ m ∧ m < 2147483648) :
    ∀ nn : RonNumber, nn.asI64 = Option.some m →
    RonBasic.deserialize_s32 (RonValue.number nn) = Except.ok (Val.s32 m) := by
  intro nn hnn
  have hval : (m + 2 ^ 31).emod (2 ^ 32) - 2 ^ 31 = m := by
    have e31 : ((2 : Int) ^ 31) = 2147483648 := by norm_num
    have e32 : ((2 : Int) ^ 32) = 4294967296 := by norm_num
    rw [e31, e32]
    show (m + 2147483648) % 4294967296 - 2147483648 = m
    omega
  simp only [RonBasic.deserialize_s32, hnn, hval]

theorem deserialize_s64_of_asI64 (m : Int) : ∀ nn : RonNumber,
    nn.asI64 = Option.some m →
    RonBasic.deserialize_s64 (RonValue.number nn) = Except.ok (Val.s64 m) := by
  intro nn hnn
  simp only [RonBasic.deserialize_s64, hnn]

/-! ### The deserializer recovers a wellformed value from its parsed form -/

theorem deserialize_ronOf : ∀ fuel : Nat,
    (∀ v t, vmatches v t = true → valWF v = true → tyWF t = true →
      valNodeCount v + tyNodeCount t ≤ fuel →
      ron_value_to_val fuel (ronOf v) t = Except.ok v) ∧
    (∀ xs elem, vlistMatches xs elem = true → valListWF xs = true → tyWF elem = true →
      valListCount xs + tyNodeCount elem < fuel →
      deserializeSeqItems fuel (ronOfList xs) elem = Except.ok xs) ∧
    (∀ xs ts, vtupleMatches xs ts = true → valListWF xs = true → tyListWF ts = true →
      valListCount xs + tyListCount ts < fuel →
      deserializeTupleItems fuel (ronOfList xs) ts = Except.ok xs) ∧
    (∀ fs tfs m, vrecordMatches fs tfs = true → valFieldsWF fs = true →
      tyFieldsWF tfs = true → FieldsFoundIn m fs →
      valFieldsCount fs + tyFieldsCount tfs < fuel →
      deserializeRecordFields fuel m tfs = Except.ok fs) ∧
    (∀ cs (c : String) p tOpt, TyCases.find cs c = Option.some tOpt →
      tyCasesWF cs = true → voptMatchesOpt p tOpt = true → valOptWF p = true →
      valOptCount p + tyCasesCount cs < fuel →
      deserializeVariantCases fuel (RonMap.cons (RonValue.str c) (ronPayload p) RonMap.nil) cs =
        Except.ok (Val.variant c p)) := by
  intro fuel
  induction fuel using Nat.strong_induction_on with
  | _ fuel ih =>
  cases fuel with
  | zero =>
    refine ⟨?_, ?_, ?_, ?_, ?_⟩
    · intro v t _ _ _ hfuel
      have h1 := valNodeCount_pos v
      have h2 := tyNodeCount_pos t
      exact absurd hfuel (by omega)
    · intro xs elem _ _ _ hcnt
      exact absurd hcnt (by omega)
    · intro xs ts _ _ _ hcnt
      exact absurd hcnt (by omega)
    · intro fs tfs m _ _ _ _ hcnt
      exact absurd hcnt (by omega)
    · intro cs c p tOpt _ _ _ _ hcnt
      exact absurd hcnt (by omega)
  | succ f =>
    have ihf := ih f (Nat.lt_succ_self f)
    refine ⟨?_, ?_, ?_, ?_, ?_⟩
    · intro v t hm hwf htwf hfuel
      cases v with
      | bool b =>
        cases t <;> try exact Bool.noConfusion hm
        simp only [ronOf, ron_value_to_val, RonBasic.deserialize_bool]
      | u8 m =>
        cases t <;> try exact Bool.noConfusion hm
        have hn : m < 2 ^ 8 := by simpa [vmatches] using hm
        have hn2 : m < 256 := by norm_num at hn; exact hn
        have hcond : (-(2 ^ 63) : Int) ≤ (m : Int) ∧ (m : Int) < 2 ^ 63 := by
          have e : ((2 : Int) ^ 63) = 9223372036854775808 := by norm_num
          rw [e]
          omega
        have h0 : ron_value_to_val (f + 1) (ronOf (Val.u8 m)) Ty.u8 =
            RonBasic.deserialize_u8 (RonValue.number (RonNumber.int (m : Int))) := by
          simp only [ronOf, ron_value_to_val]
        rw [h0, deserialize_u8_of_asI64 m hn2 _ (asI64_int_of_bounds _ hcond)]
      | u16 m =>
        cases t <;> try exact Bool.noConfusion hm
        have hn : m < 2 ^ 16 := by simpa [vmatches] using hm
        have hn2 : m < 65536 := by norm_num at hn; exact hn
        have hcond : (-(2 ^ 63) : Int) ≤ (m : Int) ∧ (m : Int) < 2 ^ 63 := by
          have e : ((2 : Int) ^ 63) = 9223372036854775808 := by norm_num
          rw [e]
          omega
        have h0 : ron_value_to_val (f + 1) (ronOf (Val.u16 m)) Ty.u16 =
            RonBasic.deserialize_u16 (RonValue.number (RonNumber.int (m : Int))) := by
          simp only [ronOf, ron_value_to_val]
        rw [h0, deserialize_u16_of_asI64 m hn2 _ (asI64_int_of_bounds _ hcond)]
      | u32 m =>
        cases t <;> try exact Bool.noConfusion hm
        have hn : m < 2 ^ 32 := by simpa [vmatches] using hm
        have hn2 : m < 4294967296 := by norm_num at hn; exact hn
        have hcond : (-(2 ^ 63) : Int) ≤ (m : Int) ∧ (m : Int) < 2 ^ 63 := by
          have e : ((2 : Int) ^ 63) = 9223372036854775808 := by norm_num
          rw [e]
          omega
        have h0 : ron_value_to_val (f + 1) (ronOf (Val.u32 m)) Ty.u32 =
            RonBasic.deserialize_u32 (RonValue.number (RonNumber.int (m : Int))) := by
          simp only [ronOf, ron_value_to_val]
        rw [h0, deserialize_u32_of_asI64 m hn2 _ (asI64_int_of_bounds _ hcond)]
      | u64 m =>
        cases t <;> try exact Bool.noConfusion hm
        have hw : m < 2 ^ 63 := by simpa [valWF] using hwf
        have hw2 : m < 9223372036854775808 := by norm_num at hw; exact hw
        have hn2 : m < 18446744073709551616 := by omega
        have hcond : (-(2 ^ 63) : Int) ≤ (m : Int) ∧ (m : Int) < 2 ^ 63 := by
          have e : ((2 : Int) ^ 63) = 9223372036854775808 := by norm_num
          rw [e]
          omega
        have h0 : ron_value_to_val (f + 1) (ronOf (Val.u64 m)) Ty.u64 =
            RonBasic.deserialize_u64 (RonValue.number (RonNumber.int (m : Int))) := by
          simp only [ronOf, ron_value_to_val]
        rw [h0, deserialize_u64_of_asI64 m hn2 _ (asI64_int_of_bounds _ hcond)]
      | s8 m =>
        cases t <;> try exact Bool.noConfusion hm
        have hn : -(2 ^ 7) ≤ m ∧ m < 2 ^ 7 := by simpa [vmatches] using hm
        have hn2 : -128 ≤ m ∧ m < 128 := by
          have e : ((2 : Int) ^ 7) = 128 := by norm_num
          rwa [e] at hn
        have hcond : (-(2 ^ 63) : Int) ≤ m ∧ m < 2 ^ 63 := by
          have e : ((2 : Int) ^ 63) = 9223372036854775808 := by norm_num
          rw [e]
          omega
        have h0 : ron_value_to_val (f + 1) (ronOf (Val.s8 m)) Ty.s8 =
            RonBasic.deserialize_s8 (RonValue.number (RonNumber.int m)) := by
          simp only [ronOf, ron_value_to_val]
        rw [h0, deserialize_s8_of_asI64 m hn2 _ (asI64_int_of_bounds _ hcond)]
      | s16 m =>
        cases t <;> try exact Bool.noConfusion hm
        have hn : -(2 ^ 15) ≤ m ∧ m < 2 ^ 15 := by simpa [vmatches] using hm
        have hn2 : -32768 ≤ m ∧ m < 32768 := by
          have e : ((2 : Int) ^ 15) = 32768 := by norm_num
          rwa [e] at hn
        have hcond : (-(2 ^ 63) : Int) ≤ m ∧ m < 2 ^ 63 := by
          have e : ((2 : Int) ^ 63) = 9223372036854775808 := by norm_num
          rw [e]
          omega
        have h0 : ron_value_to_val (f + 1) (ronOf (Val.s16 m)) Ty.s16 =
            RonBasic.deserialize_s16 (RonValue.number (RonNumber.int m)) := by
          simp only [ronOf, ron_value_to_val]
        rw [h0, deserialize_s16_of_asI64 m hn2 _ (asI64_int_of_bounds _ hcond)]
      | s32 m =>
        cases t <;> try exact Bool.noConfusion hm
        have hn : -(2 ^ 31) ≤ m ∧ m < 2 ^ 31 := by simpa [vmatches] using hm
        have hn2 : -2147483648 ≤ m ∧ m < 2147483648 := by
          have e : ((2 : Int) ^ 31) = 2147483648 := by norm_num
          rwa [e] at hn
        have hcond : (-(2 ^ 63) : Int) ≤ m ∧ m < 2 ^ 63 := by
          have e : ((2 : Int) ^ 63) = 9223372036854775808 := by norm_num
          rw [e]
          omega
        have h0 : ron_value_to_val (f + 1) (ronOf (Val.s32 m)) Ty.s32 =
            RonBasic.deserialize_s32 (RonValue.number (RonNumber.int m)) := by
          simp only [ronOf, ron_value_to_val]
        rw [h0, deserialize_s32_of_asI64 m hn2 _ (asI64_int_of_bounds _ hcond)]
      | s64 m =>
        cases t <;> try exact Bool.noConfusion hm
        have hn : -(2 ^ 63) ≤ m ∧ m < 2 ^ 63 := by simpa [vmatches] using hm
        have h0 : ron_value_to_val (f + 1) (ronOf (Val.s64 m)) Ty.s64 =
            RonBasic.deserialize_s64 (RonValue.number (RonNumber.int m)) := by
          simp only [ronOf, ron_value_to_val]
        rw [h0, deserialize_s64_of_asI64 m _ (asI64_int_of_bounds _ hn)]
      | float32 x =>
        cases t <;> try exact Bool.noConfusion hm
        simp only [ronOf, ron_value_to_val, RonBasic.deserialize_f32, RonNumber.asF64, fpToF32]
      | float64 x =>
        cases t <;> try exact Bool.noConfusion hm
        simp only [ronOf, ron_value_to_val, RonBasic.deserialize_f64, RonNumber.asF64]
      | char c =>
        cases t <;> try exact Bool.noConfusion hm
        simp only [ronOf, ron_value_to_val, RonBasic.deserialize_char]
      | str s =>
        cases t <;> try exact Bool.noConfusion hm
        simp only [ronOf, ron_value_to_val, RonBasic.deserialize_string]
      | list xs =>
        cases t <;> try exact Bool.noConfusion hm
        rename_i elem
        have hm2 : vlistMatches xs elem = true := by simpa [vmatches] using hm
        have hwf2 : valListWF xs = true := by simpa [valWF] using hwf
        have htwf2 : tyWF elem = true := by simpa [tyWF] using htwf
        have e1 : valNodeCount (Val.list xs) = 1 + valListCount xs := rfl
        have e2 : tyNodeCount (Ty.list elem) = 1 + tyNodeCount elem := rfl
        have hcnt : valListCount xs + tyNodeCount elem < f := by omega
        simp only [ronOf, ron_value_to_val, ihf.2.1 xs elem hm2 hwf2 htwf2 hcnt]
      | tuple xs =>
        cases t <;> try exact Bool.noConfusion hm
        rename_i ts
        have hm2 : vtupleMatches xs ts = true := by simpa [vmatches] using hm
        have hwf2 : valListWF xs = true := by simpa [valWF] using hwf
        have htwf2 : tyListWF ts = true := by simpa [tyWF] using htwf
        have e1 : valNodeCount (Val.tuple xs) = 1 + valListCount xs := rfl
        have e2 : tyNodeCount (Ty.tuple ts) = 1 + tyListCount ts := rfl
        have hcnt : valListCount xs + tyListCount ts < f := by omega
        have hlen := vtupleMatches_length xs ts hm2
        simp only [ronOf, ron_value_to_val, hlen, eq_self_iff_true, if_true,
          ihf.2.2.1 xs ts hm2 hwf2 htwf2 hcnt]
      | record fs =>
        cases t <;> try exact Bool.noConfusion hm
        rename_i tfs
        have hm2 : vrecordMatches fs tfs = true := by simpa [vmatches] using hm
        have hwfp : namesDistinct (ValFields.names fs) = true ∧ valFieldsWF fs = true := by
          have e : valWF (Val.record fs) =
              (namesDistinct (ValFields.names fs) && valFieldsWF fs) := rfl
          rw [e] at hwf
          simpa [Bool.and_eq_true] using hwf
        have htwf2 : tyFieldsWF tfs = true := by simpa [tyWF] using htwf
        have e1 : valNodeCount (Val.record fs) = 1 + valFieldsCount fs := rfl
        have e2 : tyNodeCount (Ty.record tfs) = 1 + tyFieldsCount tfs := rfl
        have hcnt : valFieldsCount fs + tyFieldsCount tfs < f := by omega
        have hff := fieldsFoundIn_self fs hwfp.1
        simp only [ronOf, ron_value_to_val,
          ihf.2.2.2.1 fs tfs (ronOfFields fs) hm2 hwfp.2 htwf2 hff hcnt]
      | variant c p =>
        cases t <;> try exact Bool.noConfusion hm
        rename_i cs
        have hm2 : ∃ tOpt, TyCases.find cs c = Option.some tOpt ∧
            voptMatchesOpt p tOpt = true := by
          have e : vmatches (Val.variant c p) (Ty.variant cs) =
              (match TyCases.find cs c with
               | Option.some tOpt => voptMatchesOpt p tOpt
               | Option.none => false) := rfl
          rw [e] at hm
          cases hfind : TyCases.find cs c with
          | some tOpt =>
            rw [hfind] at hm
            exact ⟨tOpt, rfl, hm⟩
          | none =>
            rw [hfind] at hm
            exact Bool.noConfusion hm
        obtain ⟨tOpt, hfind, hmo⟩ := hm2
        have hwfv : valOptWF p = true := by
          have e : valWF (Val.variant c p) =
              (identOkStr c && !reservedIdents.contains c && valOptWF p) := rfl
          rw [e] at hwf
          simp only [Bool.and_eq_true] at hwf
          exact hwf.2
        have htwfp : tyCasesWF cs = true := by
          have e : tyWF (Ty.variant cs) =
              (namesDistinct (TyCases.names cs) && tyCasesWF cs) := rfl
          rw [e] at htwf
          simp only [Bool.and_eq_true] at htwf
          exact htwf.2
        have e1 : valNodeCount (Val.variant c p) = 1 + valOptCount p := rfl
        have e2 : tyNodeCount (Ty.variant cs) = 1 + tyCasesCount cs := rfl
        have hcnt : valOptCount p + tyCasesCount cs < f := by omega
        have hmain := ihf.2.2.2.2 cs c p tOpt hfind htwfp hmo hwfv hcnt
        cases p with
        | none => simpa only [ronOf, ron_value_to_val, ronPayload] using hmain
        | some w => simpa only [ronOf, ron_value_to_val, ronPayload] using hmain
      | result r =>
        cases r with
        | ok p =>
          cases t <;> try exact Bool.noConfusion hm
          rename_i okT errT
          have hmo : voptMatchesOpt p okT = true := by simpa [vmatches] using hm
          have hwfp : valOptWF p = true := by simpa [valWF] using hwf
          have htwfp : tyOptWF okT = true ∧ tyOptWF errT = true := by
            have e : tyWF (Ty.result okT errT) = (tyOptWF okT && tyOptWF errT) := rfl
            rw [e] at htwf
            simpa [Bool.and_eq_true] using htwf
          cases p with
          | none =>
            cases okT with
            | some t2 => exact Bool.noConfusion hmo
            | none => simp +decide [ronOf, ron_value_to_val, RonMap.removeStr, ronKeyIs]
          | some w =>
            cases okT with
            | none => exact Bool.noConfusion hmo
            | some t2 =>
              have hvm : vmatches w t2 = true := by simpa [voptMatchesOpt] using hmo
              have hwfw : valWF w = true := by simpa [valOptWF] using hwfp
              have htw : tyWF t2 = true := by simpa [tyOptWF] using htwfp.1
              have e1 : valNodeCount (Val.result (ValRes.ok (ValOpt.some w))) =
                  1 + valNodeCount w := rfl
              have e2 : tyNodeCount (Ty.result (TyOpt.some t2) errT) =
                  1 + tyNodeCount t2 + tyOptCount errT := rfl
              have hcnt : valNodeCount w + tyNodeCount t2 ≤ f := by omega
              simp +decide [ron_value_to_val, ronOf, RonMap.removeStr, ronKeyIs,
                ihf.1 w t2 hvm hwfw htw hcnt]
        | err p =>
          cases t <;> try exact Bool.noConfusion hm
          rename_i okT errT
          have hmo : voptMatchesOpt p errT = true := by simpa [vmatches] using hm
          have hwfp : valOptWF p = true := by simpa [valWF] using hwf
          have htwfp : tyOptWF okT = true ∧ tyOptWF errT = true := by
            have e : tyWF (Ty.result okT errT) = (tyOptWF okT && tyOptWF errT) := rfl
            rw [e] at htwf
            simpa [Bool.and_eq_true] using htwf
          cases p with
          | none =>
            cases errT with
            | some t2 => exact Bool.noConfusion hmo
            | none => simp +decide [ronOf, ron_value_to_val, RonMap.removeStr, ronKeyIs]
          | some w =>
            cases errT with
            | none => exact Bool.noConfusion hmo
            | some t2 =>
              have hvm : vmatches w t2 = true := by simpa [voptMatchesOpt] using hmo
              have hwfw : valWF w = true := by simpa [valOptWF] using hwfp
              have htw : tyWF t2 = true := by simpa [tyOptWF] using htwfp.2
              have e1 : valNodeCount (Val.result (ValRes.err (ValOpt.some w))) =
                  1 + valNodeCount w := rfl
              have e2 : tyNodeCount (Ty.result okT (TyOpt.some t2)) =
                  1 + tyOptCount okT + tyNodeCount t2 := rfl
              have hcnt : valNodeCount w + tyNodeCount t2 ≤ f := by omega
              simp +decide [ron_value_to_val, ronOf, RonMap.removeStr, ronKeyIs,
                ihf.1 w t2 hvm hwfw htw hcnt]
      | option o =>
        cases t <;> try exact Bool.noConfusion hm
        rename_i elem
        have htwf2 : tyWF elem = true := by simpa [tyWF] using htwf
        cases o with
        | none => simp only [ronOf, ron_value_to_val]
        | some w =>
          have hvm : vmatches w elem = true := by simpa [vmatches, voptMatches] using hm
          have hwfw : valWF w = true := by simpa [valWF, valOptWF] using hwf
          have e1 : valNodeCount (Val.option (ValOpt.some w)) = 1 + valNodeCount w := rfl
          have e2 : tyNodeCount (Ty.option elem) = 1 + tyNodeCount elem := rfl
          have hcnt : valNodeCount w + tyNodeCount elem ≤ f := by omega
          simp only [ronOf, ron_value_to_val, ihf.1 w elem hvm hwfw htwf2 hcnt]
    · intro xs elem hm hwf htwf hcnt
      cases xs with
      | nil => simp only [ronOfList, deserializeSeqItems]
      | cons v rest =>
        have e0 : vlistMatches (ValList.cons v rest) elem =
            (vmatches v elem && vlistMatches rest elem) := rfl
        rw [e0] at hm
        simp only [Bool.and_eq_true] at hm
        have e0w : valListWF (ValList.cons v rest) = (valWF v && valListWF rest) := rfl
        rw [e0w] at hwf
        simp only [Bool.and_eq_true] at hwf
        have e1 : valListCount (ValList.cons v rest) =
            1 + valNodeCount v + valListCount rest := rfl
        have h1 : valNodeCount v + tyNodeCount elem ≤ f := by omega
        have h2 : valListCount rest + tyNodeCount elem < f := by omega
        simp only [ronOfList, deserializeSeqItems, ihf.1 v elem hm.1 hwf.1 htwf h1,
          ihf.2.1 rest elem hm.2 hwf.2 htwf h2]
    · intro xs ts hm hwf htwf hcnt
      cases xs with
      | nil => simp only [ronOfList, deserializeTupleItems]
      | cons v rest =>
        cases ts with
        | nil => exact Bool.noConfusion hm
        | cons t tss =>
          have e0 : vtupleMatches (ValList.cons v rest) (TyList.cons t tss) =
              (vmatches v t && vtupleMatches rest tss) := rfl
          rw [e0] at hm
          simp only [Bool.and_eq_true] at hm
          have e0w : valListWF (ValList.cons v rest) = (valWF v && valListWF rest) := rfl
          rw [e0w] at hwf
          simp only [Bool.and_eq_true] at hwf
          have e0t : tyListWF (TyList.cons t tss) = (tyWF t && tyListWF tss) := rfl
          rw [e0t] at htwf
          simp only [Bool.and_eq_true] at htwf
          have e1 : valListCount (ValList.cons v rest) =
              1 + valNodeCount v + valListCount rest := rfl
          have e2 : tyListCount (TyList.cons t tss) =
              1 + tyNodeCount t + tyListCount tss := rfl
          have h1 : valNodeCount v + tyNodeCount t ≤ f := by omega
          have h2 : valListCount rest + tyListCount tss < f := by omega
          simp only [ronOfList, deserializeTupleItems, ihf.1 v t hm.1 hwf.1 htwf.1 h1,
            ihf.2.2.1 rest tss hm.2 hwf.2 htwf.2 h2]
    · intro fs tfs m hm hwf htwf hff hcnt
      cases tfs with
      | nil =>
        cases fs with
        | nil => simp only [deserializeRecordFields]
        | cons k v fs2 => exact Bool.noConfusion hm
      | cons name t tfr =>
        cases fs with
        | nil => exact Bool.noConfusion hm
        | cons k v fs2 =>
          have e0 : vrecordMatches (ValFields.cons k v fs2) (TyFields.cons name t tfr) =
              (k = name && vmatches v t && vrecordMatches fs2 tfr) := rfl
          rw [e0] at hm
          simp only [Bool.and_eq_true, decide_eq_true_eq] at hm
          obtain ⟨⟨hk, hvm⟩, hrm⟩ := hm
          subst hk
          have e0w : valFieldsWF (ValFields.cons k v fs2) =
              (identOkStr k && valWF v && valFieldsWF fs2) := rfl
          rw [e0w] at hwf
          simp only [Bool.and_eq_true] at hwf
          have e0t : tyFieldsWF (TyFields.cons k t tfr) = (tyWF t && tyFieldsWF tfr) := rfl
          rw [e0t] at htwf
          simp only [Bool.and_eq_true] at htwf
          have hff' : RonMap.findStr m k = Option.some (ronOf v) ∧ FieldsFoundIn m fs2 := hff
          have e1 : valFieldsCount (ValFields.cons k v fs2) =
              1 + valNodeCount v + valFieldsCount fs2 := rfl
          have e2 : tyFieldsCount (TyFields.cons k t tfr) =
              1 + tyNodeCount t + tyFieldsCount tfr := rfl
          have h1 : valNodeCount v + tyNodeCount t ≤ f := by omega
          have h2 : valFieldsCount fs2 + tyFieldsCount tfr < f := by omega
          simp only [deserializeRecordFields, hff'.1, ihf.1 v t hvm hwf.1.2 htwf.1 h1,
            ihf.2.2.2.1 fs2 tfr m hrm hwf.2 htwf.2 hff'.2 h2]
    · intro cs c p tOpt hfind htwf hmo hwfp hcnt
      cases cs with
      | nil => exact Option.noConfusion hfind
      | cons name t2 csr =>
        by_cases hname : name = c
        · subst hname
          have ht2 : t2 = tOpt := by
            have e : TyCases.find (TyCases.cons name t2 csr) name =
                if name = name then Option.some t2 else TyCases.find csr name := rfl
            rw [e, if_pos rfl] at hfind
            exact Option.some.inj hfind
          subst ht2
          have htw2 : tyOptWF t2 = true ∧ tyCasesWF csr = true := by
            have e : tyCasesWF (TyCases.cons name t2 csr) =
                (tyOptWF t2 && tyCasesWF csr) := rfl
            rw [e] at htwf
            simpa [Bool.and_eq_true] using htwf
          cases t2 with
          | none =>
            cases p with
            | some w => exact Bool.noConfusion hmo
            | none =>
              simp [deserializeVariantCases, RonMap.removeStr, ronKeyIs, ronPayload]
          | some tt =>
            cases p with
            | none => exact Bool.noConfusion hmo
            | some w =>
              have hvm : vmatches w tt = true := by simpa [voptMatchesOpt] using hmo
              have hwfw : valWF w = true := by simpa [valOptWF] using hwfp
              have htww : tyWF tt = true := by simpa [tyOptWF] using htw2.1
              have e1 : valOptCount (ValOpt.some w) = valNodeCount w := rfl
              have e2 : tyCasesCount (TyCases.cons name (TyOpt.some tt) csr) =
                  1 + tyOptCount (TyOpt.some tt) + tyCasesCount csr := rfl
              have e3 : tyOptCount (TyOpt.some tt) = tyNodeCount tt := rfl
              have h1 : valNodeCount w + tyNodeCount tt ≤ f := by omega
              simp [deserializeVariantCases, RonMap.removeStr, ronKeyIs, ronPayload,
                ihf.1 w tt hvm hwfw htww h1]
        · have hfind' : TyCases.find csr c = Option.some tOpt := by
            have e : TyCases.find (TyCases.cons name t2 csr) c =
                if name = c then Option.some t2 else TyCases.find csr c := rfl
            rw [e, if_neg hname] at hfind
            exact hfind
          have htw2 : tyCasesWF csr = true := by
            have e : tyCasesWF (TyCases.cons name t2 csr) =
                (tyOptWF t2 && tyCasesWF csr) := rfl
            rw [e] at htwf
            simp only [Bool.and_eq_true] at htwf
            exact htwf.2
          have e2 : tyCasesCount (TyCases.cons name t2 csr) =
              1 + tyOptCount t2 + tyCasesCount csr := rfl
          have hcnt' : valOptCount p + tyCasesCount csr < f := by omega
          have hcn : ¬(c = name) := fun h => hname h.symm
          have efalse : (c = name) = False := eq_false hcn
          have hrec := ihf.2.2.2.2 csr c p tOpt hfind' htw2 hmo hwfp hcnt'
          simp only [deserializeVariantCases, RonMap.removeStr, ronKeyIs,
            decide_eq_true_eq, efalse, if_false, hrec]

/-! ### Composition: the full round trip on the wellformed fragment -/

theorem ron_from_str_val_to_ron (v : Val) (hwf : valWF v = true) :
    ron_from_str (val_to_ron v) = Option.some (ronOf v) := by
  have hdata : (val_to_ron v).data = valToRonChars v := rfl
  have hlen : (val_to_ron v).length = (valToRonChars v).length := rfl
  have hsw : skipWs (valToRonChars v) = valToRonChars v := by
    have h := goodValueStart_skipWs (valToRonChars_start v hwf [])
    rwa [List.append_nil] at h
  have hparse := (parse_render ((valToRonChars v).length + 1)).1 v [] hwf trivial
    (Nat.lt_succ_self _)
  rw [List.append_nil] at hparse
  unfold ron_from_str
  simp only [hlen, hdata, hsw, hparse, skipWs, eq_self_iff_true, if_true]

theorem ron_to_val_round (v : Val) (t : Ty) (hm : vmatches v t = true)
    (hwf : valWF v = true) (htwf : tyWF t = true) :
    ron_to_val (val_to_ron v) t = Except.ok v := by
  have hlen : (val_to_ron v).length = (valToRonChars v).length := rfl
  have hcnt : valNodeCount v + tyNodeCount t ≤
      (val_to_ron v).length + tyNodeCount t + 1 := by
    have h := valNodeCount_le_render v hwf
    rw [hlen]
    omega
  unfold ron_to_val
  rw [ron_from_str_val_to_ron v hwf]
  exact (deserialize_ronOf _).1 v t hm hwf htwf hcnt

end Tairitsu
namespace Tairitsu

/-! ### The JSON render of a value parses back to it -/

theorem jsonDelimOk_identFree {rest : List Char} (h : jsonDelimOk rest) :
    identHeadFree rest = true := by
  cases rest with
  | nil => rfl
  | cons c cs => rcases h with h | h | h <;> subst h <;> rfl

theorem jsonDelimOk_nonDigit {rest : List Char} (h : jsonDelimOk rest) :
    nonDigitStart rest = true := by
  cases rest with
  | nil => rfl
  | cons c cs => rcases h with h | h | h <;> subst h <;> rfl

theorem escapeJsonStr_length (cs : List Char) : cs.length ≤ (escapeJsonStr cs).length := by
  induction cs with
  | nil => simp [escapeJsonStr]
  | cons c cs ih =>
    have h1 : 1 ≤ (escapeJsonChar c).length := by
      unfold escapeJsonChar
      split_ifs <;> simp
    simp only [escapeJsonStr, List.length_append, List.length_cons]
    omega

theorem renderJson_length_pos : ∀ j : Json, 1 ≤ (renderJson j).length := by
  intro j
  cases j with
  | null => decide
  | bool b => cases b <;> decide
  | num n => exact intToChars_length n
  | str s =>
    simp only [renderJson, renderJsonString, List.length_cons]
    omega
  | arr items =>
    simp only [renderJson, List.length_cons]
    omega
  | obj fields =>
    simp only [renderJson, List.length_cons]
    omega

theorem renderJsonString_start (s : String) (rest : List Char) :
    goodValueStart (renderJsonString s ++ rest) :=
  goodValueStart_of_range _ (by decide) (by decide) (by decide) (by decide)
    (by decide) (by decide)

theorem renderJson_start (j : Json) (rest : List Char) :
    goodValueStart (renderJson j ++ rest) := by
  cases j with
  | null => exact identStart_goodValueStart _ (by decide)
  | bool b =>
    cases b with
    | false => exact identStart_goodValueStart _ (by decide)
    | true => exact identStart_goodValueStart _ (by decide)
  | num n => exact intToChars_goodValueStart n rest
  | str s => exact renderJsonString_start s rest
  | arr items =>
    exact goodValueStart_of_range _ (by decide) (by decide) (by decide) (by decide)
      (by decide) (by decide)
  | obj fields =>
    exact goodValueStart_of_range _ (by decide) (by decide) (by decide) (by decide)
      (by decide) (by decide)

theorem renderJsonList_start (v : Json) (vs : JsonList) (rest : List Char) :
    goodValueStart (renderJsonList (JsonList.cons v vs) ++ rest) := by
  cases vs with
  | nil => exact renderJson_start v rest
  | cons w ws =>
    have e : renderJsonList (JsonList.cons v (JsonList.cons w ws)) ++ rest =
        renderJson v ++ (commaC :: renderJsonList (JsonList.cons w ws) ++ rest) := by
      simp [renderJsonList]
    rw [e]
    exact renderJson_start v _

theorem renderJsonObj_start (k : String) (v : Json) (fs : JsonObj) (rest : List Char) :
    goodValueStart (renderJsonObj (JsonObj.cons k v fs) ++ rest) := by
  cases fs with
  | nil =>
    have e : renderJsonObj (JsonObj.cons k v JsonObj.nil) ++ rest =
        renderJsonString k ++ (colonC :: renderJson v ++ rest) := by
      simp [renderJsonObj]
    rw [e]
    exact renderJsonString_start k _
  | cons k2 v2 fs2 =>
    have e : renderJsonObj (JsonObj.cons k v (JsonObj.cons k2 v2 fs2)) ++ rest =
        renderJsonString k ++ (colonC :: renderJson v ++
          commaC :: renderJsonObj (JsonObj.cons k2 v2 fs2) ++ rest) := by
      simp [renderJsonObj]
    rw [e]
    exact renderJsonString_start k _

theorem parseJsonV_string (f : Nat) (s : String) (rest : List Char)
    (hf : s.data.length < f) :
    parseJsonV (f + 1) (renderJsonString s ++ rest) = Option.some (Json.str s, rest) := by
  have hsplit : renderJsonString s ++ rest =
      quoteC :: (escapeJsonStr s.data ++ quoteC :: rest) := by
    simp [renderJsonString]
  rw [hsplit]
  have e1 : (quoteC = lbraceC) = False := eq_false (by decide)
  have e2 : (quoteC = lbrackC) = False := eq_false (by decide)
  simp only [parseJsonV, e1, e2, if_false, eq_self_iff_true, if_true,
    readJsonStringBody_escape s.data f rest hf]

theorem parseJsonV_null (f : Nat) {rest : List Char} (h : identHeadFree rest = true) :
    parseJsonV (f + 1) ("null".data ++ rest) = Option.some (Json.null, rest) := by
  have hri : readIdent ("null".data ++ rest) = ("null".data, rest) :=
    readIdent_run _ _ (by decide) h
  have hsplit : "null".data ++ rest = 'n' :: ("ull".data ++ rest) := rfl
  rw [hsplit] at hri ⊢
  simp only [parseJsonV, if_neg (by decide : ¬('n' = lbraceC)),
    if_neg (by decide : ¬('n' = lbrackC)), if_neg (by decide : ¬('n' = quoteC)),
    if_neg (by simp +decide [isDigitChar] : ¬(isDigitChar 'n' = true)),
    if_neg (by decide : ¬('n' = minusC)),
    if_pos (by decide : identStartChar 'n' = true), hri]
  simp +decide

theorem parseJsonV_true (f : Nat) {rest : List Char} (h : identHeadFree rest = true) :
    parseJsonV (f + 1) ("true".data ++ rest) = Option.some (Json.bool true, rest) := by
  have hri : readIdent ("true".data ++ rest) = ("true".data, rest) :=
    readIdent_run _ _ (by decide) h
  have hsplit : "true".data ++ rest = 't' :: ("rue".data ++ rest) := rfl
  rw [hsplit] at hri ⊢
  simp only [parseJsonV, if_neg (by decide : ¬('t' = lbraceC)),
    if_neg (by decide : ¬('t' = lbrackC)), if_neg (by decide : ¬('t' = quoteC)),
    if_neg (by simp +decide [isDigitChar] : ¬(isDigitChar 't' = true)),
    if_neg (by decide : ¬('t' = minusC)),
    if_pos (by decide : identStartChar 't' = true), hri]
  simp +decide

theorem parseJsonV_false (f : Nat) {rest : List Char} (h : identHeadFree rest = true) :
    parseJsonV (f + 1) ("false".data ++ rest) = Option.some (Json.bool false, rest) := by
  have hri : readIdent ("false".data ++ rest) = ("false".data, rest) :=
    readIdent_run _ _ (by decide) h
  have hsplit : "false".data ++ rest = 'f' :: ("alse".data ++ rest) := rfl
  rw [hsplit] at hri ⊢
  simp only [parseJsonV, if_neg (by decide : ¬('f' = lbraceC)),
    if_neg (by decide : ¬('f' = lbrackC)), if_neg (by decide : ¬('f' = quoteC)),
    if_neg (by simp +decide [isDigitChar] : ¬(isDigitChar 'f' = true)),
    if_neg (by decide : ¬('f' = minusC)),
    if_pos (by decide : identStartChar 'f' = true), hri]
  simp +decide

theorem parseJsonV_digitHead (f : Nat) {c : Char} (cs : List Char)
    (h : isDigitChar c = true) :
    parseJsonV (f + 1) (c :: cs) =
      (match readDigits (c :: cs) 0 with
       | (n, rest) =>
         match rest with
         | d :: _ =>
           if d = Char.ofNat 46 ∨ d = 'e' ∨ d = 'E' then Option.none
           else Option.some (Json.num (n : Int), rest)
         | [] => Option.some (Json.num (n : Int), [])) := by
  have hr : 48 ≤ c.toNat ∧ c.toNat ≤ 57 := by simpa [isDigitChar] using h
  have e1 : (c = lbraceC) = False :=
    eq_false (char_ne_of_toNat_ne (by rw [(by decide : Char.toNat lbraceC = 123)]; omega))
  have e2 : (c = lbrackC) = False :=
    eq_false (char_ne_of_toNat_ne (by rw [(by decide : Char.toNat lbrackC = 91)]; omega))
  have e3 : (c = quoteC) = False :=
    eq_false (char_ne_of_toNat_ne (by rw [(by decide : Char.toNat quoteC = 34)]; omega))
  simp only [parseJsonV, e1, e2, e3, h, if_false, if_true]

theorem parseJsonV_int (n : Int) {rest : List Char} (h : jsonDelimOk rest) (f : Nat) :
    parseJsonV (f + 1) (intToChars n ++ rest) = Option.some (Json.num n, rest) := by
  by_cases hneg : n < 0
  · have hstep : intToChars n ++ rest = minusC :: (natToChars n.natAbs ++ rest) := by
      simp [intToChars, hneg, minusC]
    rw [hstep]
    obtain ⟨c, cs, hcs, hdig⟩ : ∃ c cs, natToChars n.natAbs ++ rest = c :: cs ∧
        isDigitChar c = true := by
      cases hnc : natToChars n.natAbs with
      | nil => exact absurd hnc (natToChars_ne_nil _)
      | cons c cs =>
        refine ⟨c, cs ++ rest, by simp, natToChars_digits (by rw [hnc]; simp)⟩
    have hmain : parseJsonV (f + 1) (minusC :: (natToChars n.natAbs ++ rest)) =
        (match readDigits (natToChars n.natAbs ++ rest) 0 with
         | (m, rest2) =>
           match rest2 with
           | e :: _ =>
             if e = Char.ofNat 46 ∨ e = 'e' ∨ e = 'E' then Option.none
             else Option.some (Json.num (-(m : Int)), rest2)
           | [] => Option.some (Json.num (-(m : Int)), [])) := by
      simp only [parseJsonV]
      rw [if_neg (by decide : ¬(minusC = lbraceC)), if_neg (by decide : ¬(minusC = lbrackC)),
        if_neg (by decide : ¬(minusC = quoteC)),
        if_neg (by simp +decide [isDigitChar] : ¬(isDigitChar minusC = true)),
        if_pos trivial]
      rw [hcs]
      simp only [hdig, eq_self_iff_true, if_true]
    rw [hmain, readDigits_natToChars (jsonDelimOk_nonDigit h)]
    have habs : (n.natAbs : Int) = -n := by omega
    cases rest with
    | nil => simp [habs]
    | cons d ds =>
      have hd : ¬(d = Char.ofNat 46 ∨ d = 'e' ∨ d = 'E') := by
        rcases h with h | h | h <;> subst h <;> decide
      simp [hd, habs]
  · have hstep : intToChars n ++ rest = natToChars n.natAbs ++ rest := by
      simp [intToChars, hneg]
    rw [hstep]
    obtain ⟨c, cs, hcs, hdig⟩ : ∃ c cs, natToChars n.natAbs = c :: cs ∧
        isDigitChar c = true := by
      cases hnc : natToChars n.natAbs with
      | nil => exact absurd hnc (natToChars_ne_nil _)
      | cons c cs => exact ⟨c, cs, rfl, natToChars_digits (by rw [hnc]; simp)⟩
    rw [hcs, List.cons_append, parseJsonV_digitHead f _ hdig, ← List.cons_append, ← hcs,
      readDigits_natToChars (jsonDelimOk_nonDigit h)]
    have habs : (n.natAbs : Int) = n := by omega
    cases rest with
    | nil => simp [habs]
    | cons d ds =>
      have hd : ¬(d = Char.ofNat 46 ∨ d = 'e' ∨ d = 'E') := by
        rcases h with h | h | h <;> subst h <;> decide
      simp [hd, habs]

theorem parseJsonV_lbrack_head (f : Nat) {X : List Char} (hgs : goodValueStart X) :
    parseJsonV (f + 1) (lbrackC :: X) =
      (match parseJsonArrItems f X with
       | Option.some (items, rest) => Option.some (Json.arr items, rest)
       | Option.none => Option.none) := by
  obtain ⟨c0, cs0, hc0⟩ := goodValueStart_cons hgs
  subst hc0
  have e1 : (lbrackC = lbraceC) = False := eq_false (by decide)
  simp only [parseJsonV, e1, eq_self_iff_true, if_false, if_true]
  rw [show skipWs (c0 :: cs0) = c0 :: cs0 from skipWs_cons hgs.1]
  simp only [if_neg hgs.2.2.1]

theorem parseJsonV_lbrace_head (f : Nat) {X : List Char} (hgs : goodValueStart X) :
    parseJsonV (f + 1) (lbraceC :: X) =
      (match parseJsonObjItems f X with
       | Option.some (o, rest) => Option.some (Json.obj o, rest)
       | Option.none => Option.none) := by
  obtain ⟨c0, cs0, hc0⟩ := goodValueStart_cons hgs
  subst hc0
  simp only [parseJsonV, eq_self_iff_true, if_true]
  rw [show skipWs (c0 :: cs0) = c0 :: cs0 from skipWs_cons hgs.1]
  simp only [if_neg hgs.2.2.2.2.1]

theorem json_parse_render : ∀ fuel : Nat,
    (∀ j rest, jsonDelimOk rest → (renderJson j).length < fuel →
      parseJsonV fuel (renderJson j ++ rest) = Option.some (j, rest)) ∧
    (∀ v vs rest, (renderJsonList (JsonList.cons v vs)).length + 1 < fuel →
      parseJsonArrItems fuel (renderJsonList (JsonList.cons v vs) ++ rbrackC :: rest) =
        Option.some (JsonList.cons v vs, rest)) ∧
    (∀ k v fs rest, (renderJsonObj (JsonObj.cons k v fs)).length + 1 < fuel →
      parseJsonObjItems fuel (renderJsonObj (JsonObj.cons k v fs) ++ rbraceC :: rest) =
        Option.some (JsonObj.cons k v fs, rest)) := by
  intro fuel
  induction fuel using Nat.strong_induction_on with
  | _ fuel ih =>
  cases fuel with
  | zero =>
    refine ⟨?_, ?_, ?_⟩
    · intro j rest _ hlen
      exact absurd hlen (by omega)
    · intro v vs rest hlen
      exact absurd hlen (by omega)
    · intro k v fs rest hlen
      exact absurd hlen (by omega)
  | succ f =>
    have ihf := ih f (Nat.lt_succ_self f)
    refine ⟨?_, ?_, ?_⟩
    · intro j rest hrest hlen
      cases j with
      | null => exact parseJsonV_null f (jsonDelimOk_identFree hrest)
      | bool b =>
        cases b with
        | true => exact parseJsonV_true f (jsonDelimOk_identFree hrest)
        | false => exact parseJsonV_false f (jsonDelimOk_identFree hrest)
      | num n => exact parseJsonV_int n hrest f
      | str s =>
        have hesc := escapeJsonStr_length s.data
        have e : (renderJson (Json.str s)).length = (escapeJsonStr s.data).length + 2 := by
          simp only [renderJson, renderJsonString, List.length_cons, List.length_append,
            List.length_nil]
        exact parseJsonV_string f s rest (by omega)
      | arr items =>
        cases items with
        | nil =>
          have hsplit : renderJson (Json.arr JsonList.nil) ++ rest =
              lbrackC :: rbrackC :: rest := rfl
          rw [hsplit]
          simp only [parseJsonV, if_neg (by decide : ¬(lbrackC = lbraceC)),
            eq_self_iff_true, if_true]
          rw [show skipWs (rbrackC :: rest) = rbrackC :: rest from skipWs_cons (by decide)]
          simp only [eq_self_iff_true, if_true]
        | cons v vs =>
          have hsplit : renderJson (Json.arr (JsonList.cons v vs)) ++ rest =
              lbrackC :: (renderJsonList (JsonList.cons v vs) ++ rbrackC :: rest) := by
            simp [renderJson]
          have e : (renderJson (Json.arr (JsonList.cons v vs))).length =
              (renderJsonList (JsonList.cons v vs)).length + 2 := by
            simp only [renderJson, List.length_cons, List.length_append, List.length_nil]
          rw [hsplit, parseJsonV_lbrack_head f (renderJsonList_start v vs _),
            ihf.2.1 v vs rest (by omega)]
      | obj fields =>
        cases fields with
        | nil =>
          have hsplit : renderJson (Json.obj JsonObj.nil) ++ rest =
              lbraceC :: rbraceC :: rest := rfl
          rw [hsplit]
          simp only [parseJsonV, eq_self_iff_true, if_true]
          rw [show skipWs (rbraceC :: rest) = rbraceC :: rest from skipWs_cons (by decide)]
          simp only [eq_self_iff_true, if_true]
        | cons k v fs =>
          have hsplit : renderJson (Json.obj (JsonObj.cons k v fs)) ++ rest =
              lbraceC :: (renderJsonObj (JsonObj.cons k v fs) ++ rbraceC :: rest) := by
            simp [renderJson]
          have e : (renderJson (Json.obj (JsonObj.cons k v fs))).length =
              (renderJsonObj (JsonObj.cons k v fs)).length + 2 := by
            simp only [renderJson, List.length_cons, List.length_append, List.length_nil]
          rw [hsplit, parseJsonV_lbrace_head f (renderJsonObj_start k v fs _),
            ihf.2.2 k v fs rest (by omega)]
    · intro v vs rest hlen
      cases vs with
      | nil =>
        have e2l : (renderJsonList (JsonList.cons v JsonList.nil)).length =
            (renderJson v).length := rfl
        have e2 : renderJsonList (JsonList.cons v JsonList.nil) ++ rbrackC :: rest =
            renderJson v ++ rbrackC :: rest := rfl
        rw [e2]
        have hpv := ihf.1 v (rbrackC :: rest) (Or.inr (Or.inl rfl)) (by omega)
        have hsw : skipWs (rbrackC :: rest) = rbrackC :: rest := skipWs_cons (by decide)
        simp only [parseJsonArrItems, hpv, hsw,
          if_neg (by decide : ¬(rbrackC = commaC)), eq_self_iff_true, if_true]
      | cons w ws =>
        have e2 : renderJsonList (JsonList.cons v (JsonList.cons w ws)) ++ rbrackC :: rest =
            renderJson v ++
              (commaC :: (renderJsonList (JsonList.cons w ws) ++ rbrackC :: rest)) := by
          simp [renderJsonList]
        have e2l : (renderJsonList (JsonList.cons v (JsonList.cons w ws))).length =
            (renderJson v).length + 1 + (renderJsonList (JsonList.cons w ws)).length := by
          simp only [renderJsonList, List.length_append, List.length_cons]
          omega
        have hpv := ihf.1 v
          (commaC :: (renderJsonList (JsonList.cons w ws) ++ rbrackC :: rest))
          (Or.inl rfl) (by omega)
        have hsw1 : skipWs (commaC :: (renderJsonList (JsonList.cons w ws) ++
            rbrackC :: rest)) =
            commaC :: (renderJsonList (JsonList.cons w ws) ++ rbrackC :: rest) :=
          skipWs_cons (by decide)
        have hsw2 : skipWs (renderJsonList (JsonList.cons w ws) ++ rbrackC :: rest) =
            renderJsonList (JsonList.cons w ws) ++ rbrackC :: rest :=
          goodValueStart_skipWs (renderJsonList_start w ws _)
        have hitems := ihf.2.1 w ws rest (by omega)
        rw [e2]
        simp only [parseJsonArrItems, hpv, hsw1, eq_self_iff_true, if_true, hsw2, hitems]
    · intro k v fs rest hlen
      cases fs with
      | nil =>
        have e2 : renderJsonObj (JsonObj.cons k v JsonObj.nil) ++ rbraceC :: rest =
            quoteC :: (escapeJsonStr k.data ++
              quoteC :: colonC :: (renderJson v ++ rbraceC :: rest)) := by
          simp [renderJsonObj, renderJsonString]
        have hesc := escapeJsonStr_length k.data
        have e2l : (renderJsonObj (JsonObj.cons k v JsonObj.nil)).length =
            (escapeJsonStr k.data).length + 3 + (renderJson v).length := by
          simp only [renderJsonObj, renderJsonString, List.length_append, List.length_cons,
            List.length_nil]
          omega
        have hrb := readJsonStringBody_escape k.data f
          (colonC :: (renderJson v ++ rbraceC :: rest)) (by omega)
        have hsw1 : skipWs (colonC :: (renderJson v ++ rbraceC :: rest)) =
            colonC :: (renderJson v ++ rbraceC :: rest) := skipWs_cons (by decide)
        have hsw2 : skipWs (renderJson v ++ rbraceC :: rest) =
            renderJson v ++ rbraceC :: rest :=
          goodValueStart_skipWs (renderJson_start v _)
        have hpv := ihf.1 v (rbraceC :: rest) (Or.inr (Or.inr rfl)) (by omega)
        have hsw3 : skipWs (rbraceC :: rest) = rbraceC :: rest := skipWs_cons (by decide)
        rw [e2]
        simp only [parseJsonObjItems, eq_self_iff_true, if_true, hrb, hsw1, hsw2, hpv, hsw3,
          if_neg (by decide : ¬(rbraceC = commaC))]
      | cons k2 v2 fs2 =>
        have e2 : renderJsonObj (JsonObj.cons k v (JsonObj.cons k2 v2 fs2)) ++
            rbraceC :: rest =
            quoteC :: (escapeJsonStr k.data ++ quoteC :: colonC :: (renderJson v ++
              commaC :: (renderJsonObj (JsonObj.cons k2 v2 fs2) ++ rbraceC :: rest))) := by
          simp [renderJsonObj, renderJsonString]
        have hesc := escapeJsonStr_length k.data
        have e2l : (renderJsonObj (JsonObj.cons k v (JsonObj.cons k2 v2 fs2))).length =
            (escapeJsonStr k.data).length + 3 + (renderJson v).length + 1 +
              (renderJsonObj (JsonObj.cons k2 v2 fs2)).length := by
          simp only [renderJsonObj, renderJsonString, List.length_append, List.length_cons,
            List.length_nil]
          omega
        have hrb := readJsonStringBody_escape k.data f
          (colonC :: (renderJson v ++ commaC ::
            (renderJsonObj (JsonObj.cons k2 v2 fs2) ++ rbraceC :: rest))) (by omega)
        have hsw1 : skipWs (colonC :: (renderJson v ++ commaC ::
            (renderJsonObj (JsonObj.cons k2 v2 fs2) ++ rbraceC :: rest))) =
            colonC :: (renderJson v ++ commaC ::
              (renderJsonObj (JsonObj.cons k2 v2 fs2) ++ rbraceC :: rest)) :=
          skipWs_cons (by decide)
        have hsw2 : skipWs (renderJson v ++ commaC ::
            (renderJsonObj (JsonObj.cons k2 v2 fs2) ++ rbraceC :: rest)) =
            renderJson v ++ commaC ::
              (renderJsonObj (JsonObj.cons k2 v2 fs2) ++ rbraceC :: rest) :=
          goodValueStart_skipWs (renderJson_start v _)
        have hpv := ihf.1 v (commaC :: (renderJsonObj (JsonObj.cons k2 v2 fs2) ++
          rbraceC :: rest)) (Or.inl rfl) (by omega)
        have hsw3 : skipWs (commaC :: (renderJsonObj (JsonObj.cons k2 v2 fs2) ++
            rbraceC :: rest)) = commaC :: (renderJsonObj (JsonObj.cons k2 v2 fs2) ++
            rbraceC :: rest) := skipWs_cons (by decide)
        have hsw4 : skipWs (renderJsonObj (JsonObj.cons k2 v2 fs2) ++ rbraceC :: rest) =
            renderJsonObj (JsonObj.cons k2 v2 fs2) ++ rbraceC :: rest :=
          goodValueStart_skipWs (renderJsonObj_start k2 v2 fs2 _)
        have hobj := ihf.2.2 k2 v2 fs2 rest (by omega)
        rw [e2]
        simp only [parseJsonObjItems, eq_self_iff_true, if_true, hrb, hsw1, hsw2, hpv, hsw3,
          hsw4, hobj]

theorem jsonFromStr_render (j : Json) :
    jsonFromStr (String.mk (renderJson j)) = Option.some j := by
  have hdata : (String.mk (renderJson j)).data = renderJson j := rfl
  have hlen : (String.mk (renderJson j)).length = (renderJson j).length := rfl
  have hsw : skipWs (renderJson j) = renderJson j := by
    have h := goodValueStart_skipWs (renderJson_start j [])
    rwa [List.append_nil] at h
  have hparse := (json_parse_render ((renderJson j).length + 1)).1 j [] trivial
    (Nat.lt_succ_self _)
  rw [List.append_nil] at hparse
  unfold jsonFromStr
  simp only [hlen, hdata, hsw, hparse, skipWs, eq_self_iff_true, if_true]

end Tairitsu
namespace Tairitsu

/-! ## Supporting facts for the registry and host-import claims -/

theorem registry_persists (cm cc : List Nat → Option Image) (n : String) :
    ∀ (ops : List RegistryOp) (reg : Registry), noRemoveOf n ops = true →
    (∃ im, reg.get_image n = Option.some im) →
    ∃ im, (Registry.runOps cm cc reg ops).get_image n = Option.some im := by
  intro ops
  induction ops with
  | nil =>
    intro reg _ h
    exact h
  | cons op ops ih =>
    intro reg hno hsome
    have hstep : ∃ im, ((Registry.step cm cc reg op).1).get_image n = Option.some im := by
      obtain ⟨im0, him0⟩ := hsome
      cases op with
      | registerImage m bin =>
        cases hcm : cm bin with
        | some im2 =>
          by_cases hnm : n = m
          · exact ⟨im2, by simp [Registry.step, hcm, Registry.get_image, hnm]⟩
          · refine ⟨im0, ?_⟩
            simp only [Registry.step, hcm, Registry.get_image, if_neg hnm]
            exact him0
        | none =>
          refine ⟨im0, ?_⟩
          simp only [Registry.step, hcm, Registry.get_image]
          exact him0
      | registerComponent m bin =>
        cases hcm : cc bin with
        | some im2 =>
          by_cases hnm : n = m
          · exact ⟨im2, by simp [Registry.step, hcm, Registry.get_image, hnm]⟩
          · refine ⟨im0, ?_⟩
            simp only [Registry.step, hcm, Registry.get_image, if_neg hnm]
            exact him0
        | none =>
          refine ⟨im0, ?_⟩
          simp only [Registry.step, hcm, Registry.get_image]
          exact him0
      | removeImage m =>
        have hnm : ¬(n = m) := by
          have e : noRemoveOf n (RegistryOp.removeImage m :: ops) =
              (decide ¬(m = n) && noRemoveOf n ops) := rfl
          rw [e] at hno
          simp only [Bool.and_eq_true, decide_eq_true_eq] at hno
          exact fun hh => hno.1 hh.symm
        refine ⟨im0, ?_⟩
        simp only [Registry.step, Registry.get_image, if_neg hnm]
        exact him0
      | containerOp =>
        exact ⟨im0, him0⟩
    have hno2 : noRemoveOf n ops = true := by
      cases op with
      | removeImage m =>
        have e : noRemoveOf n (RegistryOp.removeImage m :: ops) =
            (decide ¬(m = n) && noRemoveOf n ops) := rfl
        rw [e] at hno
        simp only [Bool.and_eq_true] at hno
        exact hno.2
      | registerImage m bin => exact hno
      | registerComponent m bin => exact hno
      | containerOp => exact hno
    have e : Registry.runOps cm cc reg (op :: ops) =
        Registry.runOps cm cc (Registry.step cm cc reg op).1 ops := rfl
    rw [e]
    exact ih _ hno2 hstep

theorem assocFind_insert : ∀ (l : List (String × HostImport)) (name : String)
    (imp : HostImport), assocFind (assocInsert l name imp) name = Option.some imp := by
  intro l name imp
  induction l with
  | nil => simp [assocInsert, assocFind]
  | cons kv rest ih =>
    obtain ⟨k, v⟩ := kv
    by_cases hk : k = name
    · simp [assocInsert, hk, assocFind]
    · simp [assocInsert, hk, assocFind, ih]

/-! ## The claims -/

/-- C1 (amended): for every dynamic value `v` in the wellformed fragment
(`u64` within `i64` range, record field names distinct identifiers,
variant case names non-reserved identifiers) that matches its type
descriptor `t`, deserializing the serialization of `v` at `t` succeeds
and returns `v` itself — floats included. -/
theorem round_trip_wellformed (v : Val) (t : Ty) (hm : vmatches v t = true)
    (hwf : valWF v = true) (htwf : tyWF t = true) :
    ron_to_val (val_to_ron v) t = Except.ok v :=
  ron_to_val_round v t hm hwf htwf

/-- C1 counterexample: the variant value `Some(100)` of a variant type with
a case named `Some` serializes to the same text as the option value
`Some(100)`; the parser reads it back as a `ron` option, the variant
deserializer demands a map, and the round trip fails — even though the
value matches its descriptor. -/
theorem round_trip_textual_ambiguity :
    vmatches (Val.variant "Some" (ValOpt.some (Val.u32 100)))
      (Ty.variant (TyCases.cons "Some" (TyOpt.some Ty.u32) TyCases.nil)) = true ∧
    val_to_ron (Val.variant "Some" (ValOpt.some (Val.u32 100))) =
      val_to_ron (Val.option (ValOpt.some (Val.u32 100))) ∧
    ron_to_val (val_to_ron (Val.variant "Some" (ValOpt.some (Val.u32 100))))
      (Ty.variant (TyCases.cons "Some" (TyOpt.some Ty.u32) TyCases.nil)) =
      Except.error "Expected variant map" := ⟨rfl, rfl, rfl⟩

/-- C1 witness: the round trip at the concrete value
`(Some(100), 5e-1, NaN) : tuple<option<u32>, float32, float64>`. -/
theorem round_trip_wellformed_witness :
    vmatches
      (Val.tuple (ValList.cons (Val.option (ValOpt.some (Val.u32 100)))
        (ValList.cons (Val.float32 (Fp.finite 5 (-1)))
          (ValList.cons (Val.float64 Fp.nan) ValList.nil))))
      (Ty.tuple (TyList.cons (Ty.option Ty.u32)
        (TyList.cons Ty.float32 (TyList.cons Ty.float64 TyList.nil)))) = true ∧
    valWF (Val.tuple (ValList.cons (Val.option (ValOpt.some (Val.u32 100)))
        (ValList.cons (Val.float32 (Fp.finite 5 (-1)))
          (ValList.cons (Val.float64 Fp.nan) ValList.nil)))) = true ∧
    tyWF (Ty.tuple (TyList.cons (Ty.option Ty.u32)
        (TyList.cons Ty.float32 (TyList.cons Ty.float64 TyList.nil)))) = true ∧
    ron_to_val
      (val_to_ron (Val.tuple (ValList.cons (Val.option (ValOpt.some (Val.u32 100)))
        (ValList.cons (Val.float32 (Fp.finite 5 (-1)))
          (ValList.cons (Val.float64 Fp.nan) ValList.nil)))))
      (Ty.tuple (TyList.cons (Ty.option Ty.u32)
        (TyList.cons Ty.float32 (TyList.cons Ty.float64 TyList.nil)))) =
      Except.ok (Val.tuple (ValList.cons (Val.option (ValOpt.some (Val.u32 100)))
        (ValList.cons (Val.float32 (Fp.finite 5 (-1)))
          (ValList.cons (Val.float64 Fp.nan) ValList.nil)))) :=
  ⟨rfl, rfl, rfl, round_trip_wellformed _ _ rfl rfl rfl⟩

/-- C2: of the four boundary values, `i64::MIN`, `f32::INFINITY` and
`f64::NEG_INFINITY` round-trip, but `u64::MAX` does not: `deserialize_u64`
funnels the parsed number through `Number::as_i64`, which rejects every
integer above `i64::MAX`, so the round trip returns the `U64 expected`
error. -/
theorem numeric_boundary_round_trips :
    ron_to_val (val_to_ron (Val.u64 18446744073709551615)) Ty.u64 =
      Except.error "U64 expected" ∧
    ron_to_val (val_to_ron (Val.s64 (-9223372036854775808))) Ty.s64 =
      Except.ok (Val.s64 (-9223372036854775808)) ∧
    ron_to_val (val_to_ron (Val.float32 Fp.posInf)) Ty.float32 =
      Except.ok (Val.float32 Fp.posInf) ∧
    ron_to_val (val_to_ron (Val.float64 Fp.negInf)) Ty.float64 =
      Except.ok (Val.float64 Fp.negInf) := ⟨rfl, rfl, rfl, rfl⟩

/-- C3: every value of each of the four command/response enumerations
survives `serialize_command` followed by `deserialize_command`. -/
theorem command_round_trip :
    (∀ c : HostCommands,
      deserialize_command_host (serialize_command_host c) = Except.ok c) ∧
    (∀ c : GuestCommands,
      deserialize_command_guest (serialize_command_guest c) = Except.ok c) ∧
    (∀ r : HostResponse,
      deserialize_command_host_response (serialize_command_host_response r) = Except.ok r) ∧
    (∀ r : GuestResponse,
      deserialize_command_guest_response (serialize_command_guest_response r) =
        Except.ok r) := by
  refine ⟨?_, ?_, ?_, ?_⟩
  · intro c
    unfold deserialize_command_host serialize_command_host
    have hdec : decodeHostCommands (encodeHostCommands c) = Option.some c := by
      cases c <;> rfl
    simp only [jsonFromStr_render (encodeHostCommands c), hdec]
  · intro c
    unfold deserialize_command_guest serialize_command_guest
    have hdec : decodeGuestCommands (encodeGuestCommands c) = Option.some c := by
      cases c <;> rfl
    simp only [jsonFromStr_render (encodeGuestCommands c), hdec]
  · intro r
    unfold deserialize_command_host_response serialize_command_host_response
    have hdec : decodeHostResponse (encodeHostResponse r) = Option.some r := by
      cases r <;> rfl
    simp only [jsonFromStr_render (encodeHostResponse r), hdec]
  · intro r
    unfold deserialize_command_guest_response serialize_command_guest_response
    have hdec : decodeGuestResponse (encodeGuestResponse r) = Option.some r := by
      cases r
      all_goals rfl
    simp only [jsonFromStr_render (encodeGuestResponse r), hdec]

/-- C4: when the command string fails to deserialize as a tagged
`HostCommands` value, the host `execute` does not fail at the parsing
step: it hands `Custom { name: command, data: payload }` to the installed
handler and returns the handler's serialized response (or its error). -/
theorem execute_custom_fallback (command payload e : String)
    (handler : HostCommands → Except String HostResponse)
    (h : deserialize_command_host command = Except.error e) :
    hostExecute (Option.some handler) command payload =
      (match handler (HostCommands.custom command payload) with
       | Except.ok r => Except.ok (serialize_command_host_response r)
       | Except.error err => Except.error err) := by
  unfold hostExecute
  rw [h]

/-- C4 witness: the spec's legacy example — the non-tagged string
`"get_info"` reaches the handler as `Custom { name: "get_info", data: "" }`. -/
theorem execute_custom_fallback_witness :
    deserialize_command_host "get_info" = Except.error "Failed to deserialize command" ∧
    hostExecute (Option.some (fun _ => Except.ok (HostResponse.text "ok"))) "get_info" "" =
      Except.ok (serialize_command_host_response (HostResponse.text "ok")) := by
  refine ⟨rfl, ?_⟩
  have h := execute_custom_fallback "get_info" "" "Failed to deserialize command"
    (fun _ => Except.ok (HostResponse.text "ok")) rfl
  simpa using h

/-- C5 (amended): a byte chunk written to the stream bridge that does not
parse as a `Msg` makes `OutputStream::write` panic through
`.expect("Failed to parse message")`; no `LastOperationFailed` error is
returned and there is no internal buffer to clear. -/
theorem stream_write_unparsable_panics (bytes : String)
    (h : parseMsg bytes = Option.none) :
    streamWrite parseMsg bytes = StreamWriteOutcome.panicked "Failed to parse message" := by
  unfold streamWrite
  rw [h]

/-- C5 counterexample: the concrete unparsable chunk `"garbage"` panics
instead of producing the `LastOperationFailed` error the spec claims. -/
theorem stream_write_counterexample :
    parseMsg "garbage" = Option.none ∧
    streamWrite parseMsg "garbage" =
      StreamWriteOutcome.panicked "Failed to parse message" := ⟨rfl, rfl⟩

/-- C5 witness: the amended statement at the concrete chunk `"not json"`. -/
theorem stream_write_unparsable_panics_witness :
    parseMsg "not json" = Option.none ∧
    streamWrite parseMsg "not json" =
      StreamWriteOutcome.panicked "Failed to parse message" :=
  ⟨rfl, stream_write_unparsable_panics "not json" rfl⟩

/-- C6 (amended): with bound values present, the proxy driver rewrites the
`?` placeholders of the first `VALUES` row of an `INSERT` into inline
literals — strings as single-quoted literals, big integers as bare decimal
numerals — and forces double-quote style on the column identifiers; with
no bound values the statement passes through unchanged.  (Byte-array
values are not handled: see the counterexample.) -/
theorem placeholder_substitution (s : String) (n : Int) (cols : List String)
    (q : Option Char) (v1 v2 : SqlValue) (tail : List SqlExpr)
    (rows : List (List SqlExpr)) :
    do_execute_rewrite
        (SqlStatement.insert
          ⟨cols, q, (SqlExpr.value v1 :: SqlExpr.value v2 :: tail) :: rows⟩)
        (Option.some [SeaValue.string (Option.some s), SeaValue.bigInt (Option.some n)]) =
      Option.some (SqlStatement.insert ⟨cols, Option.some quoteC,
        (SqlExpr.value (SqlValue.singleQuotedString s) ::
          SqlExpr.value (SqlValue.number (String.mk (intToChars n)) false) :: tail) ::
            rows⟩) ∧
    do_execute_rewrite (SqlStatement.insert ⟨cols, q, (SqlExpr.value v1 :: tail) :: rows⟩)
        Option.none =
      Option.some (SqlStatement.insert ⟨cols, q, (SqlExpr.value v1 :: tail) :: rows⟩) := by
  constructor
  · simp only [do_execute_rewrite, substituteExprs, seaValueToSqlValue, Option.getD]
  · rfl

/-- C6 counterexample: a bound byte-array value falls into the source's
`todo!()` arm — no `X'…'` hex literal is produced, the rewrite panics. -/
theorem placeholder_bytes_unsupported :
    seaValueToSqlValue (SeaValue.bytes (Option.some [1, 2, 3])) = Option.none ∧
    do_execute_rewrite
        (SqlStatement.insert
          ⟨["data"], Option.none, [[SqlExpr.value (SqlValue.placeholder "?")]]⟩)
        (Option.some [SeaValue.bytes (Option.some [1, 2, 3])]) = Option.none := ⟨rfl, rfl⟩

/-- C7: a successful `register_image(n, b)` makes `get_image n` return the
compiled image; it keeps returning an image across any operation sequence
that does not remove `n`; `remove_image n` makes it `None`; and
re-registering under the same name silently overwrites with the new
image. -/
theorem registry_register_get_remove
    (cm cc : List Nat → Option Image) (reg : Registry) (n : String)
    (bin : List Nat) (img : Image) (hc : cm bin = Option.some img) :
    ((Registry.step cm cc reg (RegistryOp.registerImage n bin)).2 = Except.ok () ∧
      ((Registry.step cm cc reg (RegistryOp.registerImage n bin)).1).get_image n =
        Option.some img) ∧
    (∀ ops, noRemoveOf n ops = true →
      ∃ im, (Registry.runOps cm cc
          (Registry.step cm cc reg (RegistryOp.registerImage n bin)).1 ops).get_image n =
        Option.some im) ∧
    (∀ reg2 : Registry,
      ((Registry.step cm cc reg2 (RegistryOp.removeImage n)).1).get_image n =
        Option.none) ∧
    (∀ (reg2 : Registry) (bin2 : List Nat) (img2 : Image), cm bin2 = Option.some img2 →
      ((Registry.step cm cc reg2 (RegistryOp.registerImage n bin2)).1).get_image n =
        Option.some img2 ∧
      (Registry.step cm cc reg2 (RegistryOp.registerImage n bin2)).2 = Except.ok ()) := by
  refine ⟨⟨?_, ?_⟩, ?_, ?_, ?_⟩
  · simp [Registry.step, hc]
  · simp [Registry.step, hc, Registry.get_image]
  · intro ops hops
    refine registry_persists cm cc n ops _ hops ?_
    exact ⟨img, by simp [Registry.step, hc, Registry.get_image]⟩
  · intro reg2
    simp [Registry.step, Registry.get_image]
  · intro reg2 bin2 img2 h2
    exact ⟨by simp [Registry.step, h2, Registry.get_image], by simp [Registry.step, h2]⟩

/-- C7 witness: the contract at a concrete one-image registry. -/
theorem registry_register_get_remove_witness :
    ((Registry.step (fun b => Option.some (Image.mk b)) (fun b => Option.some (Image.mk b))
        (Registry.mk fun _ => Option.none) (RegistryOp.registerImage "app" [7])).1).get_image
      "app" = Option.some (Image.mk [7]) ∧
    ((Registry.step (fun b => Option.some (Image.mk b)) (fun b => Option.some (Image.mk b))
        (Registry.mk fun _ => Option.none) (RegistryOp.removeImage "app")).1).get_image
      "app" = Option.none := by
  have h := registry_register_get_remove (fun b => Option.some (Image.mk b))
    (fun b => Option.some (Image.mk b)) (Registry.mk fun _ => Option.none) "app" [7]
    (Image.mk [7]) rfl
  exact ⟨h.1.2, h.2.2.1 (Registry.mk fun _ => Option.none)⟩

/-- C8: `HostImportRegistry::call` errors with the not-found message
exactly when the name is unregistered; on a registered name it returns the
handler's own result unchanged (the registry is taken immutably), and a
freshly registered handler is the one that runs. -/
theorem host_import_call_contract (reg : HostImportRegistry) (name : String)
    (args : List Val) :
    (assocFind reg.imports name = Option.none →
      reg.call name args = Except.error ("Host import not found: " ++ name)) ∧
    (∀ imp, assocFind reg.imports name = Option.some imp →
      reg.call name args = imp.handler args) ∧
    (∀ params results handler,
      (reg.register name params results handler).call name args = handler args) := by
  refine ⟨?_, ?_, ?_⟩
  · intro h
    simp [HostImportRegistry.call, h]
  · intro imp h
    simp [HostImportRegistry.call, h]
  · intro params results handler
    simp [HostImportRegistry.call, HostImportRegistry.register, assocFind_insert]

/-- C8 witness: an empty registry misses, and a registered identity
handler's result surfaces unchanged. -/
theorem host_import_call_contract_witness :
    (HostImportRegistry.mk []).call "f" [] =
      Except.error ("Host import not found: " ++ "f") ∧
    ((HostImportRegistry.mk []).register "f" [] [] (fun args => Except.ok args)).call
      "f" [] = Except.ok [] := by
  have h := host_import_call_contract (HostImportRegistry.mk []) "f" []
  refine ⟨h.1 rfl, ?_⟩
  rw [h.2.2 [] [] (fun args => Except.ok args)]

/-- C9: with no execute-handler installed, the host `execute` returns the
handler-missing error for every command and payload, without calling
anything. -/
theorem execute_without_handler_errors (command payload : String) :
    hostExecute Option.none command payload =
      Except.error "No execute handler registered" := rfl

/-- C10: `LogLevel` conversion depends only on the lowercased string, every
string whose lowercase form is none of the five level names maps to
`Info`, and the host `log` always delivers the message (to the handler if
installed, to standard error otherwise) — it never rejects a level
string. -/
theorem log_level_case_insensitive_total (s t message : String) (hasHandler : Bool) :
    (rustToLowercase s = rustToLowercase t → LogLevel.fromStr s = LogLevel.fromStr t) ∧
    (¬(rustToLowercase s = "error" ∨ rustToLowercase s = "warn" ∨
        rustToLowercase s = "info" ∨ rustToLowercase s = "debug" ∨
        rustToLowercase s = "trace") →
      LogLevel.fromStr s = LogLevel.info) ∧
    hostLog hasHandler s message =
      (if hasHandler then LogSink.handler (LogLevel.fromStr s) message
       else LogSink.stderr (LogLevel.fromStr s) message) := by
  refine ⟨?_, ?_, ?_⟩
  · intro h
    unfold LogLevel.fromStr
    rw [h]
  · intro h
    push_neg at h
    obtain ⟨h1, h2, h3, h4, h5⟩ := h
    unfold LogLevel.fromStr
    simp only [if_neg h1, if_neg h2, if_neg h3, if_neg h4, if_neg h5]
  · rfl

/-- C10 witness: the unrecognized level string `"VERBOSE"` lowercases to
`"verbose"`, maps to `Info`, and is still delivered. -/
theorem log_level_case_insensitive_total_witness :
    LogLevel.fromStr "VERBOSE" = LogLevel.fromStr "verbose" ∧
    LogLevel.fromStr "VERBOSE" = LogLevel.info ∧
    hostLog true "VERBOSE" "m" = LogSink.handler LogLevel.info "m" := by
  have h := log_level_case_insensitive_total "VERBOSE" "verbose" "m" true
  have h1 : LogLevel.fromStr "VERBOSE" = LogLevel.fromStr "verbose" := h.1 (by decide)
  have h2 : LogLevel.fromStr "VERBOSE" = LogLevel.info := h.2.1 (by decide)
  refine ⟨h1, h2, ?_⟩
  rw [h.2.2, h2]
  rfl

end Tairitsu
